import Mathlib

/-!
# Process table and multi-queue scheduler of `xv6-Synchronization/proc.c`

A shallow embedding of the process table (`ptable.proc[NPROC]`), the three
selection algorithms (`roundrobin`, `lcfs`, `best_job_first`), the selection
step and the pre-pass of `scheduler`, and the operations `allocproc`,
`userinit`, `growproc`, `fork`, `exit`, `wait`, `kill`, `wakeup1`, `ageproc`
and `transfer_process_queue`.

Conventions of the embedding:

* the table is a `List proc`; `NPROC` (defined in `param.h`) is its length;
* a `struct proc *` into the table is the slot index, a null pointer is `none`;
* `int` fields are `Int`, `uint` fields are `Nat`; the conversion done by an
  assignment `int = uint` is `int_of_uint`;
* `float` is IEEE 754 single precision with round-to-nearest-even; every
  conversion and arithmetic operation is rounded to `float` (no excess
  precision is kept between operations), and all NaNs are one value;
* the kernel stack, page directory, trap frame, open files and working
  directory are opaque resources: `kstack` and `pgdir` are kept as addresses
  (`0` is the null pointer), the others are left out;
* every function is the body executed with `ptable.lock` held, one call at a
  time.
-/

namespace XV6

/-! ## Data model (`proc.h`) -/

/-- The `enum procstate` of `proc.h`. -/
inductive procstate where
  | UNUSED
  | EMBRYO
  | SLEEPING
  | RUNNABLE
  | RUNNING
  | ZOMBIE
deriving DecidableEq

/-- The queue number `RR` of `proc.h`. -/
def RR : Int := 1

/-- The queue number `LCFS` of `proc.h`. -/
def LCFS : Int := 2

/-- The queue number `BJF` of `proc.h`. -/
def BJF : Int := 3

/-- The constant `BJF_PRIORITY_DEF` of `proc.h`. -/
def BJF_PRIORITY_DEF : Int := 2

/-- A value of the C type `float`, IEEE 754 single precision.
`finite neg m e` is the number `(-1)^neg * m * 2^(e - 149)`, `inf neg` is an
infinity, `nan` stands for every NaN. A normalised value has `m < 2^24`,
`e ≤ 253`, and `2^23 ≤ m` unless `e = 0`; the operations return normalised
values. -/
inductive float where
  | finite (neg : Bool) (m : Nat) (e : Nat)
  | inf (neg : Bool)
  | nan
deriving DecidableEq

/-- The number of binary digits of `n`, counted one at a time in at most
`fuel` steps. -/
def bit_length_loop : Nat → Nat → Nat
  | 0, _ => 0
  | fuel + 1, n => if n = 0 then 0 else bit_length_loop fuel (n / 2) + 1

/-- The number of binary digits of `n`, counted 32 at a time while `n` has
more than 32 of them, in at most `fuel` steps. -/
def bit_length_words : Nat → Nat → Nat
  | 0, _ => 0
  | fuel + 1, n =>
    if n < 4294967296 then bit_length_loop 32 n
    else bit_length_words fuel (n / 4294967296) + 32

/-- The number of binary digits of `n`. -/
def bit_length (n : Nat) : Nat :=
  bit_length_words (n + 1) n

/-- The `float` nearest to `(-1)^neg * M * 2^(E - 149)`, ties to the even
significand (the default rounding mode); an infinity when the rounded value
exceeds the largest finite `float`. -/
def float.round (neg : Bool) (M : Nat) (E : Int) : float :=
  if M = 0 then float.finite neg 0 0
  else
    let e : Int := max (E + (bit_length M : Int) - 24) 0
    if e ≤ E then
      if 253 < e then float.inf neg else float.finite neg (M * 2 ^ (E - e).toNat) e.toNat
    else
      let k := (e - E).toNat
      let q := M / 2 ^ k
      let r := M % 2 ^ k
      let half := 2 ^ (k - 1)
      let m := if half < r ∨ (r = half ∧ q % 2 = 1) then q + 1 else q
      let e1 : Int := if m = 16777216 then e + 1 else e
      let m1 := if m = 16777216 then 8388608 else m
      if 253 < e1 then float.inf neg else float.finite neg m1 e1.toNat

/-- The conversion of an `unsigned int` to `float`. -/
def float.of_uint (n : Nat) : float :=
  float.round false n 149

/-- The conversion of an `int` to `float`. -/
def float.of_int (i : Int) : float :=
  float.round (decide (i < 0)) i.natAbs 149

instance (n : Nat) : OfNat float n := ⟨float.of_uint n⟩

/-- The finite number `(-1)^neg * m * 2^(e - 149)` in units of `2^(-149)`. -/
def float.key (neg : Bool) (m e : Nat) : Int :=
  if neg then -((m * 2 ^ e : Nat) : Int) else ((m * 2 ^ e : Nat) : Int)

/-- The product `a * b` of two `float`s: the exact product, rounded. -/
def float.mul : float → float → float
  | float.nan, _ => float.nan
  | _, float.nan => float.nan
  | float.inf s1, float.inf s2 => float.inf (xor s1 s2)
  | float.inf s1, float.finite s2 m _ => if m = 0 then float.nan else float.inf (xor s1 s2)
  | float.finite s1 m _, float.inf s2 => if m = 0 then float.nan else float.inf (xor s1 s2)
  | float.finite s1 m1 e1, float.finite s2 m2 e2 =>
    float.round (xor s1 s2) (m1 * m2) ((e1 : Int) + (e2 : Int) - 149)

/-- The sum `a + b` of two `float`s: the exact sum, rounded; an exact zero sum
is `-0` only when both operands are negative. -/
def float.add : float → float → float
  | float.nan, _ => float.nan
  | _, float.nan => float.nan
  | float.inf s1, float.inf s2 => if s1 = s2 then float.inf s1 else float.nan
  | float.inf s1, float.finite _ _ _ => float.inf s1
  | float.finite _ _ _, float.inf s2 => float.inf s2
  | float.finite s1 m1 e1, float.finite s2 m2 e2 =>
    let s := float.key s1 m1 e1 + float.key s2 m2 e2
    if s = 0 then float.finite (s1 && s2) 0 0
    else float.round (decide (s < 0)) s.natAbs 0

/-- The comparison `a < b` of two `float`s: false when either is a NaN. -/
def float.lt : float → float → Bool
  | float.nan, _ => false
  | _, float.nan => false
  | float.inf s1, float.inf s2 => s1 && !s2
  | float.inf s1, float.finite _ _ _ => s1
  | float.finite _ _ _, float.inf s2 => !s2
  | float.finite s1 m1 e1, float.finite s2 m2 e2 =>
    decide (float.key s1 m1 e1 < float.key s2 m2 e2)

/-- The number a finite `float` stands for; none for an infinity or a NaN. -/
def float.val : float → Option ℚ
  | float.finite neg m e => some ((if neg then -1 else 1) * (m : ℚ) * 2 ^ e / 2 ^ 149)
  | _ => none

/-- The number `q` is a finite `float`: `q = ± m * 2^(e - 149)` with
`m < 2^24` and `e ≤ 253`. -/
def representable (q : ℚ) : Prop :=
  ∃ (neg : Bool) (m e : Nat), m < 16777216 ∧ e ≤ 253 ∧
    (float.finite neg m e).val = some q

/-- The `struct queue_info` of `proc.h`. -/
structure queue_info where
  priority : Int
  priority_ratio : float
  arrival_time : Int
  arrival_time_ratio : float
  executed_cycle : float
  executed_cycle_ratio : float
  process_size : float
  process_size_ratio : float
deriving DecidableEq

/-- The `struct MFQ_info` of `proc.h`. -/
structure MFQ_info where
  queue_type : Int
  last_exec_time : Int
  bjf : queue_info
  arrive_lcfs_queue_time : Int
deriving DecidableEq

/-- A sleep channel (`void *chan`): null, the address of a table slot, or some
other kernel address. -/
inductive Chan where
  | null
  | slot (i : Nat)
  | addr (a : Nat)
deriving DecidableEq

/-- The `struct proc` of `proc.h`; `name` is the content of `char name[16]`. -/
structure proc where
  sz : Nat
  pgdir : Nat
  kstack : Nat
  state : procstate
  pid : Int
  parent : Option Nat
  chan : Chan
  killed : Int
  name : List Nat
  generated_time : Nat
  mfq_info : MFQ_info
deriving DecidableEq

/-- A zero-filled `struct queue_info`. -/
def queue_info_zero : queue_info :=
  ⟨0, 0, 0, 0, 0, 0, 0, 0⟩

/-- A zero-filled `struct MFQ_info`, the effect of `memset(&p->mfq_info, 0, ..)`. -/
def MFQ_info_zero : MFQ_info :=
  ⟨0, 0, queue_info_zero, 0⟩

/-- A zero-filled slot, as in the statically allocated `ptable`. -/
def proc_zero : proc :=
  ⟨0, 0, 0, procstate.UNUSED, 0, none, Chan.null, 0, List.replicate 16 0, 0, MFQ_info_zero⟩

/-- The slot `ptable.proc[i]`. -/
def ptable_proc (t : List proc) (i : Nat) : proc :=
  t.getD i proc_zero

/-- The value an `int` takes when a `uint` is assigned to it (two's complement,
32 bits). -/
def int_of_uint (u : Nat) : Int :=
  if u % 4294967296 < 2147483648 then ((u % 4294967296 : Nat) : Int)
  else ((u % 4294967296 : Nat) : Int) - 4294967296

/-- The first index `i < n` at which `hit` holds: a `for` loop over the slots
that leaves through its first matching iteration. -/
def first_slot (n : Nat) (hit : Nat → Bool) : Option Nat :=
  (List.range n).find? hit

/-! ## Selection algorithms -/

/-- The function `calc_bjf_rank`: the `int` and `unsigned int` operands are
converted to `float`, the four products are added from left to right, and each
conversion, product and sum is rounded to `float`. -/
def calc_bjf_rank (p : proc) : float :=
  float.add
    (float.add
      (float.add
        (float.mul (float.of_int p.mfq_info.bjf.priority) p.mfq_info.bjf.priority_ratio)
        (float.mul (float.of_int p.mfq_info.bjf.arrival_time) p.mfq_info.bjf.arrival_time_ratio))
      (float.mul p.mfq_info.bjf.executed_cycle p.mfq_info.bjf.executed_cycle_ratio))
    (float.mul (float.of_uint p.sz) p.mfq_info.bjf.process_size_ratio)

/-- One iteration of the loop of `best_job_first`, on the pair
`(best_job, min_bjf_rank)`. -/
def best_job_first_body (t : List proc) (acc : Option Nat × float) (i : Nat) :
    Option Nat × float :=
  let process := ptable_proc t i
  if process.mfq_info.queue_type ≠ BJF then acc
  else if process.state ≠ procstate.RUNNABLE then acc
  else
    let curr_proc_rank := calc_bjf_rank process
    if acc.1 = none ∨ float.lt curr_proc_rank acc.2 = true then (some i, curr_proc_rank)
    else acc

/-- The function `best_job_first`; `min_bjf_rank` starts uninitialised in the
source and is not read before `best_job` is set. -/
def best_job_first (t : List proc) : Option Nat :=
  ((List.range t.length).foldl (best_job_first_body t) (none, 0)).1

/-- The slot content `p` is Runnable and in queue `q`. -/
def runnable_in (q : Int) (p : proc) : Prop :=
  p.state = procstate.RUNNABLE ∧ p.mfq_info.queue_type = q

instance (q : Int) (p : proc) : Decidable (runnable_in q p) := by
  unfold runnable_in; infer_instance

/-- The loop of `roundrobin`: `p` is the pointer at the start of an iteration,
the first argument bounds the number of iterations; `none` means the bound was
reached before the loop left. -/
def roundrobin_loop (t : List proc) (last_proc_scheduled_RR : Nat) :
    Nat → Nat → Option (Option Nat)
  | 0, _ => none
  | fuel + 1, p =>
    let p1 := p + 1
    let p2 := if p1 ≥ t.length then 0 else p1
    if (ptable_proc t p2).state = procstate.RUNNABLE ∧
        (ptable_proc t p2).mfq_info.queue_type = RR then some (some p2)
    else if p2 = last_proc_scheduled_RR then some none
    else roundrobin_loop t last_proc_scheduled_RR fuel p2

/-- The function `roundrobin`, run for at most `NPROC` iterations: `some r` is
the returned pointer `r`, `none` means the loop is still running. -/
def roundrobin (t : List proc) (last_proc_scheduled_RR : Nat) : Option (Option Nat) :=
  roundrobin_loop t last_proc_scheduled_RR t.length last_proc_scheduled_RR

/-- The slots in the order `roundrobin` visits them: `last+1, ..., NPROC-1, 0,
..., last`. -/
def circular_order (n last : Nat) : List Nat :=
  (List.range n).map (fun k => (last + 1 + k) % n)

/-- One iteration of the loop of `lcfs`, on the pair
`(result, max_arrival_time)`. -/
def lcfs_body (t : List proc) (acc : Option Nat × Int) (i : Nat) : Option Nat × Int :=
  let p := ptable_proc t i
  if p.state ≠ procstate.RUNNABLE ∨ p.mfq_info.queue_type ≠ LCFS then acc
  else if acc.2 < p.mfq_info.arrive_lcfs_queue_time then
    (some i, p.mfq_info.arrive_lcfs_queue_time)
  else acc

/-- The function `lcfs`. -/
def lcfs (t : List proc) : Option Nat :=
  ((List.range t.length).foldl (lcfs_body t) (none, -1)).1

/-! ## The selection step of `scheduler` -/

/-- What one pass through the selection code of `scheduler` leaves behind: the
chosen `p` (`none` when the iteration ends with `continue`) and the two local
variables `last_proc_scheduled_RR` and `last_proc_scheduled_LCFS`. -/
structure sched_pick where
  p : Option Nat
  last_RR : Nat
  last_LCFS : Option Nat
deriving DecidableEq

/-- The state of the slot a possibly null pointer refers to. -/
def state_at (t : List proc) (q : Option Nat) : Option procstate :=
  q.map (fun i => (ptable_proc t i).state)

/-- The selection code of `scheduler`, from `p = roundrobin(..)` to the point
where a process has been chosen or the iteration is abandoned. The result is
`none` when `roundrobin` has not returned. -/
def scheduler_select (t : List proc) (last_proc_scheduled_RR : Nat)
    (last_proc_scheduled_LCFS : Option Nat) : Option sched_pick :=
  match roundrobin t last_proc_scheduled_RR with
  | none => none
  | some (some p) => some ⟨some p, p, last_proc_scheduled_LCFS⟩
  | some none =>
    let p : Option Nat :=
      if last_proc_scheduled_LCFS ≠ none ∧
          state_at t last_proc_scheduled_LCFS = some procstate.RUNNABLE then
        last_proc_scheduled_LCFS
      else if last_proc_scheduled_LCFS = none ∨
          state_at t last_proc_scheduled_LCFS ≠ some procstate.RUNNING then
        lcfs t
      else none
    match p with
    | some q => some ⟨some q, last_proc_scheduled_RR, some q⟩
    | none => some ⟨best_job_first t, last_proc_scheduled_RR, last_proc_scheduled_LCFS⟩

/-- The selection order as the specification words it: the first non-empty of
the four candidates. -/
def first_nonempty (a b c d : Option Nat) : Option Nat :=
  a.orElse (fun _ => b.orElse (fun _ => c.orElse (fun _ => d)))

/-- Candidate (b) of the selection order: the previously dispatched LCFS
process if it is Runnable. -/
def prev_lcfs_if_runnable (t : List proc) (last_LCFS : Option Nat) : Option Nat :=
  if state_at t last_LCFS = some procstate.RUNNABLE then last_LCFS else none

/-- The pick the specification words: the first non-empty of `roundrobin`, the
previous LCFS process if Runnable, `lcfs` and `best_job_first`. -/
def claimed_pick (t : List proc) (last_RR : Nat) (last_LCFS : Option Nat) : Option Nat :=
  first_nonempty (roundrobin t last_RR).join (prev_lcfs_if_runnable t last_LCFS)
    (lcfs t) (best_job_first t)

/-- Candidate (c) as the code computes it: `lcfs()` is not called while the
previously dispatched LCFS process is Running. -/
def lcfs_unless_running (t : List proc) (last_LCFS : Option Nat) : Option Nat :=
  if state_at t last_LCFS = some procstate.RUNNING then none else lcfs t

/-! ## Queue transfer, kill, wait -/

/-- Overwrite slot `i` with `f` applied to its content. -/
def update_slot (t : List proc) (i : Nat) (f : proc → proc) : List proc :=
  t.set i (f (ptable_proc t i))

/-- The assignment `p->mfq_info.arrive_lcfs_queue_time = v`. -/
def set_arrive_lcfs (v : Int) (p : proc) : proc :=
  { p with mfq_info := { p.mfq_info with arrive_lcfs_queue_time := v } }

/-- The assignment `p->mfq_info.queue_type = q`. -/
def set_queue_type (q : Int) (p : proc) : proc :=
  { p with mfq_info := { p.mfq_info with queue_type := q } }

/-- The function `transfer_process_queue` at tick count `ticks`: the returned
value and the table it leaves. -/
def transfer_process_queue (ticks : Nat) (t : List proc) (pid new_queue : Int) :
    Int × List proc :=
  if pid < 1 then (-1, t)
  else
    match first_slot t.length (fun i => decide ((ptable_proc t i).pid = pid)) with
    | none => (-1, t)
    | some i =>
      let new_queue :=
        if (ptable_proc t i).pid = 1 ∨ (ptable_proc t i).pid = 2 then RR else new_queue
      let t1 :=
        if new_queue = LCFS then update_slot t i (set_arrive_lcfs (int_of_uint ticks)) else t
      let old_queue := (ptable_proc t1 i).mfq_info.queue_type
      if old_queue = new_queue then (-1, t1)
      else (old_queue, update_slot t1 i (set_queue_type new_queue))

/-- The function `kill`: the returned value and the table it leaves. -/
def kill (t : List proc) (pid : Int) : Int × List proc :=
  match first_slot t.length (fun i => decide ((ptable_proc t i).pid = pid)) with
  | none => (-1, t)
  | some i =>
    let t1 := update_slot t i (fun p => { p with killed := 1 })
    let t2 :=
      if (ptable_proc t1 i).state = procstate.SLEEPING then
        update_slot t1 i (fun p => { p with state := procstate.RUNNABLE })
      else t1
    (0, t2)

/-- How one pass of the `for (;;)` loop of `wait` ends: the function returns a
value, or the caller goes to sleep on its own slot. -/
inductive wait_result where
  | returned (v : Int)
  | sleeping
deriving DecidableEq

/-- One iteration of the scan of `wait`, on the pair `(found, havekids)`;
`found` is the slot at which the scan left through `return`. -/
def wait_scan_body (t : List proc) (curproc : Nat) (acc : Option Nat × Bool) (i : Nat) :
    Option Nat × Bool :=
  match acc.1 with
  | some _ => acc
  | none =>
    if (ptable_proc t i).parent ≠ some curproc then acc
    else if (ptable_proc t i).state = procstate.ZOMBIE then (some i, true)
    else (none, true)

/-- What `wait` does to the Zombie child it found. -/
def reap (p : proc) : proc :=
  { p with kstack := 0, pid := 0, parent := none, name := p.name.set 0 0, killed := 0,
           state := procstate.UNUSED }

/-- What `sleep(chan, &ptable.lock)` does to the caller's slot before `sched`. -/
def go_to_sleep (chan : Chan) (p : proc) : proc :=
  { p with chan := chan, state := procstate.SLEEPING }

/-- One pass of the `for (;;)` loop of `wait` for the caller in slot `curproc`:
how it ends and the table it leaves. After `sleeping`, the caller resumes with
another pass once it has been woken. -/
def wait (t : List proc) (curproc : Nat) : wait_result × List proc :=
  match (List.range t.length).foldl (wait_scan_body t curproc) (none, false) with
  | (some i, _) => (wait_result.returned (ptable_proc t i).pid, update_slot t i reap)
  | (none, havekids) =>
    if havekids = false ∨ (ptable_proc t curproc).killed ≠ 0 then
      (wait_result.returned (-1), t)
    else (wait_result.sleeping, update_slot t curproc (go_to_sleep (Chan.slot curproc)))

/-- The content of `name` read as a C string: the bytes before the first NUL. -/
def cstring (name : List Nat) : List Nat :=
  name.takeWhile (fun c => c ≠ 0)

/-! ## Allocation and fork -/

/-- The value of `x` as a 32-bit `int` (the wrap of `nextpid++`). -/
def int_wrap (x : Int) : Int :=
  (x + 2147483648) % 4294967296 - 2147483648

/-- The scheduling fields `allocproc` gives a new process. -/
def mfq_info_init : MFQ_info :=
  { MFQ_info_zero with
    bjf := { queue_info_zero with
      priority := BJF_PRIORITY_DEF, priority_ratio := 1, arrival_time_ratio := 1,
      executed_cycle_ratio := 1, process_size_ratio := 1 } }

/-- The function `allocproc` with the pid counter at `nextpid`; `kalloc` is
the address `kalloc()` returns (`0` when it fails). The result is the returned
pointer, the new value of `nextpid` and the table. -/
def allocproc (kalloc : Nat) (nextpid : Int) (t : List proc) :
    Option Nat × Int × List proc :=
  match first_slot t.length (fun i => decide ((ptable_proc t i).state = procstate.UNUSED)) with
  | none => (none, nextpid, t)
  | some i =>
    let t1 := update_slot t i (fun p => { p with state := procstate.EMBRYO, pid := nextpid })
    let nextpid1 := int_wrap (nextpid + 1)
    if kalloc = 0 then
      (none, nextpid1, update_slot t1 i (fun p => { p with kstack := 0, state := procstate.UNUSED }))
    else
      (some i, nextpid1, update_slot t1 i (fun p => { p with kstack := kalloc, mfq_info := mfq_info_init }))

/-- The stamps `fork` writes while holding `tickslock`. -/
def fork_stamp (ticks : Nat) (p : proc) : proc :=
  { p with
    state := procstate.RUNNABLE,
    mfq_info := { p.mfq_info with
      last_exec_time := int_of_uint ticks,
      bjf := { p.mfq_info.bjf with
        arrival_time := int_of_uint ticks, process_size := float.of_uint p.sz },
      arrive_lcfs_queue_time := int_of_uint ticks } }

/-- The function `fork` for the caller in slot `curproc`, at tick count `ticks`
and with the pid counter at `nextpid`. `kalloc` and `copyuvm` are the addresses
those allocators return (`0` when they fail), `safestrcpy dst src` is the
content `safestrcpy` leaves in `dst`. The result is the returned value, the new
value of `nextpid` and the table. -/
def fork (kalloc copyuvm : Nat) (safestrcpy : List Nat → List Nat → List Nat) (ticks : Nat)
    (nextpid : Int) (t : List proc) (curproc : Nat) : Int × Int × List proc :=
  match allocproc kalloc nextpid t with
  | (none, nextpid1, t1) => (-1, nextpid1, t1)
  | (some np, nextpid1, t1) =>
    if copyuvm = 0 then
      (-1, nextpid1,
        update_slot t1 np (fun p => { p with pgdir := 0, kstack := 0, state := procstate.UNUSED }))
    else
      let t2 := update_slot t1 np (fun p =>
        { p with pgdir := copyuvm, sz := (ptable_proc t1 curproc).sz, parent := some curproc,
                 generated_time := (ticks % 4294967296) / 100,
                 name := safestrcpy p.name (ptable_proc t1 curproc).name })
      let pid := (ptable_proc t2 np).pid
      let t3 := update_slot t2 np (fork_stamp ticks)
      let r := transfer_process_queue ticks t3 (ptable_proc t3 np).pid LCFS
      (pid, nextpid1, r.2)

/-- A Runnable slot in queue `q` whose rank is `r` (through its priority). -/
def sample_proc (q : Int) (r : Int) : proc :=
  { proc_zero with
    state := procstate.RUNNABLE,
    mfq_info := { mfq_info_init with queue_type := q, bjf := { mfq_info_init.bjf with priority := r } } }

/-- Three Runnable LCFS slots stamped 4, 7, 7 and a Runnable RR slot stamped 9. -/
def lcfs_sample : List proc :=
  [set_arrive_lcfs 4 (sample_proc LCFS 0), set_arrive_lcfs 7 (sample_proc LCFS 0),
    set_arrive_lcfs 7 (sample_proc LCFS 0), set_arrive_lcfs 9 (sample_proc RR 0)]

/-- A table whose slot 0 is a Running LCFS process, slot 1 a Runnable LCFS
process stamped 5 and slot 2 a Runnable BJF process. -/
def sched_sample : List proc :=
  [{ sample_proc LCFS 0 with state := procstate.RUNNING },
    set_arrive_lcfs 5 (sample_proc LCFS 0), sample_proc BJF 0]

/-- Slot `i` is the lowest-index slot whose `pid` field equals `pid`. -/
def lowest_holder (t : List proc) (pid : Int) (i : Nat) : Prop :=
  i < t.length ∧ (ptable_proc t i).pid = pid ∧ ∀ j, j < i → (ptable_proc t j).pid ≠ pid

instance (t : List proc) (pid : Int) (i : Nat) : Decidable (lowest_holder t pid i) := by
  unfold lowest_holder; infer_instance

/-- A slot with the given pid, state and queue, stamped `stamp`. -/
def pid_proc (pid : Int) (st : procstate) (q : Int) (stamp : Int) : proc :=
  { set_arrive_lcfs stamp (sample_proc q 0) with pid := pid, state := st }

/-- Slot `i` holds a Zombie whose parent is the slot `curproc`. -/
def zombie_child (t : List proc) (curproc : Nat) (i : Nat) : Prop :=
  (ptable_proc t i).parent = some curproc ∧ (ptable_proc t i).state = procstate.ZOMBIE

instance (t : List proc) (curproc i : Nat) : Decidable (zombie_child t curproc i) := by
  unfold zombie_child; infer_instance

/-- A killed caller in slot 0 (pid 3) with two Zombie children in slots 1 and 2
(pids 4 and 5). -/
def wait_sample : List proc :=
  [{ pid_proc 3 procstate.RUNNING RR 0 with killed := 1 },
    { pid_proc 4 procstate.ZOMBIE LCFS 0 with parent := some 0 },
    { pid_proc 5 procstate.ZOMBIE LCFS 0 with parent := some 0 }]

/-- Slot `i` is the lowest-index Unused slot, the one `allocproc` takes. -/
def lowest_unused (t : List proc) (i : Nat) : Prop :=
  i < t.length ∧ (ptable_proc t i).state = procstate.UNUSED ∧
    ∀ j, j < i → (ptable_proc t j).state ≠ procstate.UNUSED

instance (t : List proc) (i : Nat) : Decidable (lowest_unused t i) := by
  unfold lowest_unused; infer_instance

/-- What `transfer_process_queue` at tick count `ticks` can do to a slot: set
its queue type, after possibly stamping its `arrive_lcfs_queue_time`. -/
def queue_change (ticks : Nat) (p p' : proc) : Prop :=
  ∃ q, p' = set_queue_type q p ∨ p' = set_queue_type q (set_arrive_lcfs (int_of_uint ticks) p)

/-- A `safestrcpy` that copies the whole source array. -/
def copy_name (_dst src : List Nat) : List Nat := src

/-- The table at boot when `init` in slot 0 (pid 1) is about to fork the first
shell: slot 1 is free. -/
def boot_sample : List proc :=
  [pid_proc 1 procstate.RUNNING RR 0, proc_zero]

/-- A table in which the Running slot 0 already holds pid 5 and slot 1 is
free. -/
def dup_sample : List proc :=
  [pid_proc 5 procstate.RUNNING RR 0, proc_zero]

/-! ## Sleep channels, exit -/

/-- A `struct proc *` used as a sleep channel. -/
def chan_of_ptr : Option Nat → Chan
  | none => Chan.null
  | some i => Chan.slot i

/-- What `wakeup1(chan)` does to one slot. -/
def wake (chan : Chan) (p : proc) : proc :=
  if p.state = procstate.SLEEPING ∧ p.chan = chan then { p with state := procstate.RUNNABLE }
  else p

/-- The function `wakeup1`: every slot is visited once and treated on its own. -/
def wakeup1 (t : List proc) (chan : Chan) : List proc :=
  t.map (wake chan)

/-- One iteration of the loop of `exit` that passes abandoned children to
`initproc`. -/
def exit_reparent_body (curproc : Nat) (initproc : Option Nat) (t : List proc) (i : Nat) :
    List proc :=
  if (ptable_proc t i).parent = some curproc then
    let t1 := update_slot t i (fun p => { p with parent := initproc })
    if (ptable_proc t1 i).state = procstate.ZOMBIE then wakeup1 t1 (chan_of_ptr initproc)
    else t1
  else t

/-- The function `exit` for the caller in slot `curproc`, up to the call of
`sched`, which does not return: the table it leaves, or `none` for
`panic("init exiting")`. -/
def exit (initproc : Option Nat) (t : List proc) (curproc : Nat) : Option (List proc) :=
  if some curproc = initproc then none
  else
    let t1 := wakeup1 t (chan_of_ptr (ptable_proc t curproc).parent)
    let t2 := (List.range t1.length).foldl (exit_reparent_body curproc initproc) t1
    some (update_slot t2 curproc (fun p => { p with state := procstate.ZOMBIE }))

/-- Some reparented child of `curproc` is a Zombie: the condition under which
`exit` calls `wakeup1(initproc)`. -/
def has_zombie_child (t : List proc) (curproc : Nat) : Prop :=
  ∃ c, c < t.length ∧ zombie_child t curproc c

instance (t : List proc) (curproc : Nat) : Decidable (has_zombie_child t curproc) := by
  unfold has_zombie_child; infer_instance

/-- The state `exit` leaves in slot `j`, in terms of the table before the
call. -/
def exit_state (initproc : Option Nat) (t : List proc) (curproc j : Nat) : procstate :=
  if j = curproc then procstate.ZOMBIE
  else if (ptable_proc t j).state = procstate.SLEEPING ∧
      ((ptable_proc t j).chan = chan_of_ptr (ptable_proc t curproc).parent ∨
        ((ptable_proc t j).chan = chan_of_ptr initproc ∧ has_zombie_child t curproc)) then
    procstate.RUNNABLE
  else (ptable_proc t j).state

/-- The parent `exit` leaves in slot `j`. -/
def exit_parent (initproc : Option Nat) (t : List proc) (curproc j : Nat) : Option Nat :=
  if (ptable_proc t j).parent = some curproc then initproc else (ptable_proc t j).parent

/-- Slot `j` after the first `k` iterations of the reparenting loop of `exit`
run on the table `t1`. -/
def exit_loop_slot (initproc : Option Nat) (t1 : List proc) (curproc k j : Nat) : proc :=
  { ptable_proc t1 j with
    parent :=
      if j < k ∧ (ptable_proc t1 j).parent = some curproc then initproc
      else (ptable_proc t1 j).parent,
    state :=
      if (∃ c, c < k ∧ zombie_child t1 curproc c) ∧
          (ptable_proc t1 j).state = procstate.SLEEPING ∧
          (ptable_proc t1 j).chan = chan_of_ptr initproc then procstate.RUNNABLE
      else (ptable_proc t1 j).state }

/-- A table for `exit`: slot 0 is the root (pid 1), slot 1 the caller (pid 3,
child of slot 4), slot 2 a Zombie child of the caller, slot 3 a process
sleeping on the address of the root, slot 4 the caller's parent. -/
def exit_sample : List proc :=
  [pid_proc 1 procstate.RUNNABLE RR 0,
    { pid_proc 3 procstate.RUNNING LCFS 0 with parent := some 4 },
    { pid_proc 4 procstate.ZOMBIE LCFS 0 with parent := some 1 },
    { pid_proc 5 procstate.SLEEPING LCFS 0 with parent := some 0, chan := Chan.slot 0 },
    { pid_proc 2 procstate.RUNNABLE RR 0 with parent := some 0 }]

/-! ## Aging and the pre-pass of `scheduler` -/

/-- The constant `WAITING_CYCLES_THRESHOLD` of `proc.h`. -/
def WAITING_CYCLES_THRESHOLD : Int := 8000

/-- The `int` subtraction `a - b` on a 32-bit machine. -/
def int_sub (a b : Int) : Int :=
  int_wrap (a - b)

/-- One iteration of the loop of `ageproc`; `now` is the global tick count that
`transfer_process_queue` reads, `ticks` the argument of `ageproc`. -/
def ageproc_body (now : Nat) (ticks : Int) (t : List proc) (i : Nat) : List proc :=
  if (ptable_proc t i).state = procstate.RUNNABLE ∧ (ptable_proc t i).mfq_info.queue_type ≠ RR then
    if WAITING_CYCLES_THRESHOLD < int_sub ticks (ptable_proc t i).mfq_info.last_exec_time then
      (transfer_process_queue now t (ptable_proc t i).pid RR).2
    else t
  else t

/-- The function `ageproc`. -/
def ageproc (now : Nat) (ticks : Int) (t : List proc) : List proc :=
  (List.range t.length).foldl (ageproc_body now ticks) t

/-- The slot is one that `ageproc` hands to `transfer_process_queue`. -/
def starved (ticks : Int) (p : proc) : Prop :=
  p.state = procstate.RUNNABLE ∧ p.mfq_info.queue_type ≠ RR ∧
    WAITING_CYCLES_THRESHOLD < int_sub ticks p.mfq_info.last_exec_time

instance (ticks : Int) (p : proc) : Decidable (starved ticks p) := by
  unfold starved; infer_instance

/-- No two slots share a positive pid. -/
def unique_positive_pids (t : List proc) : Prop :=
  ∀ i, i < t.length → ∀ j, j < t.length → i ≠ j → 1 ≤ (ptable_proc t i).pid →
    (ptable_proc t i).pid ≠ (ptable_proc t j).pid

instance (t : List proc) : Decidable (unique_positive_pids t) := by
  unfold unique_positive_pids; infer_instance

/-- Slot `j` after the first `k` iterations of the loop of `ageproc`, when no
two slots share a positive pid. -/
def ageproc_slot (ticks : Int) (t : List proc) (k j : Nat) : proc :=
  if j < k ∧ starved ticks (ptable_proc t j) ∧ 1 ≤ (ptable_proc t j).pid then
    set_queue_type RR (ptable_proc t j)
  else ptable_proc t j

/-- A Runnable BJF slot with pid 0 that last ran at tick 0, and a Runnable BJF
slot with pid 5 that last ran at tick 0. -/
def age_sample : List proc :=
  [sample_proc BJF 0, pid_proc 5 procstate.RUNNABLE BJF 0]

/-- The library function `strlen` (not part of `proc.c`): the number of bytes
before the first NUL. -/
def strlen (s : List Nat) : Nat :=
  (cstring s).length

/-- The function `strcmp` of `proc.c`: 1 when the two strings are equal, 0
otherwise. -/
def strcmp (s1 s2 : List Nat) : Int :=
  if strlen s1 ≠ strlen s2 then 0
  else
    match first_slot (strlen s1) (fun i => decide (s1.getD i 0 ≠ s2.getD i 0)) with
    | some _ => 0
    | none => 1

/-- The string literal `"sh"`. -/
def sh_literal : List Nat := [115, 104, 0]

/-- One iteration of the loop at the head of the `for (;;)` of `scheduler`. -/
def scheduler_prepass_body (ticks : Nat) (t : List proc) (i : Nat) : List proc :=
  if strcmp (ptable_proc t i).name sh_literal ≠ 0 then
    (transfer_process_queue ticks t (ptable_proc t i).pid RR).2
  else t

/-- The loop at the head of the `for (;;)` of `scheduler`. -/
def scheduler_prepass (ticks : Nat) (t : List proc) : List proc :=
  (List.range t.length).foldl (scheduler_prepass_body ticks) t

/-- The slot is named `"sh"`. -/
def named_sh (p : proc) : Prop :=
  cstring p.name = [115, 104]

instance (p : proc) : Decidable (named_sh p) := by
  unfold named_sh; infer_instance

/-- Some slot below `k` is named `"sh"` and holds the pid `pid`. -/
def sh_holds (t : List proc) (k : Nat) (pid : Int) : Prop :=
  ∃ i, i < k ∧ named_sh (ptable_proc t i) ∧ (ptable_proc t i).pid = pid

instance (t : List proc) (k : Nat) (pid : Int) : Decidable (sh_holds t k pid) := by
  unfold sh_holds; infer_instance

/-- Slot `j` after the first `k` iterations of the pre-pass of `scheduler`. -/
def prepass_slot (t : List proc) (k j : Nat) : proc :=
  if 1 ≤ (ptable_proc t j).pid ∧ lowest_holder t (ptable_proc t j).pid j ∧
      sh_holds t k (ptable_proc t j).pid then
    set_queue_type RR (ptable_proc t j)
  else ptable_proc t j

/-- The slot `p` with the C string `name` in its `name` array. -/
def with_name (name : List Nat) (p : proc) : proc :=
  { p with name := name ++ List.replicate (16 - name.length) 0 }

/-- A table with `init` (pid 1, RR), a process named `"ls"` (pid 5, BJF) and a
process named `"sh"` (pid 6, LCFS). -/
def prepass_sample : List proc :=
  [with_name [105, 110, 105, 116] (pid_proc 1 procstate.SLEEPING RR 0),
    with_name [108, 115] (pid_proc 5 procstate.RUNNABLE BJF 0),
    with_name [115, 104] (pid_proc 6 procstate.RUNNABLE LCFS 0)]

/-! ## The kernel as a transition system -/

/-- The string literal `"initcode"`. -/
def initcode_literal : List Nat := [105, 110, 105, 116, 99, 111, 100, 101, 0]

/-- The globals of `proc.c`: the table, `nextpid` and `initproc`. -/
structure kstate where
  ptable : List proc
  nextpid : Int
  initproc : Option Nat

/-- The function `userinit`; `setupkvm` is the address `setupkvm()` returns,
`pgsize` the constant `PGSIZE` of `mmu.h`. The result is `none` when the
function panics or dereferences the null pointer `allocproc` returned. -/
def userinit (kalloc setupkvm pgsize : Nat) (safestrcpy : List Nat → List Nat → List Nat)
    (ticks : Nat) (s : kstate) : Option kstate :=
  match allocproc kalloc s.nextpid s.ptable with
  | (none, _, _) => none
  | (some p, nextpid1, t1) =>
    if setupkvm = 0 then none
    else
      let t2 := update_slot t1 p (fun q =>
        { q with pgdir := setupkvm, sz := pgsize, name := safestrcpy q.name initcode_literal })
      let t3 := update_slot t2 p (fun q => { q with state := procstate.RUNNABLE })
      some ⟨(transfer_process_queue ticks t3 (ptable_proc t3 p).pid RR).2, nextpid1, some p⟩

/-- The calls that change the process table. -/
inductive kernel_op where
  | allocproc (kalloc : Nat)
  | userinit (kalloc setupkvm pgsize : Nat) (safestrcpy : List Nat → List Nat → List Nat)
      (ticks : Nat)
  | fork (kalloc copyuvm : Nat) (safestrcpy : List Nat → List Nat → List Nat) (ticks : Nat)
      (curproc : Nat)
  | exit (curproc : Nat)
  | wait (curproc : Nat)
  | kill (pid : Int)
  | transfer_process_queue (ticks : Nat) (pid new_queue : Int)
  | ageproc (now : Nat) (ticks : Int)

/-- The state after one call; a call that panics leaves the state as it is. -/
def step (s : kstate) : kernel_op → kstate
  | kernel_op.allocproc kalloc =>
    ⟨(allocproc kalloc s.nextpid s.ptable).2.2, (allocproc kalloc s.nextpid s.ptable).2.1,
      s.initproc⟩
  | kernel_op.userinit kalloc setupkvm pgsize safestrcpy ticks =>
    (userinit kalloc setupkvm pgsize safestrcpy ticks s).getD s
  | kernel_op.fork kalloc copyuvm safestrcpy ticks curproc =>
    ⟨(fork kalloc copyuvm safestrcpy ticks s.nextpid s.ptable curproc).2.2,
      (fork kalloc copyuvm safestrcpy ticks s.nextpid s.ptable curproc).2.1, s.initproc⟩
  | kernel_op.exit curproc => ⟨(exit s.initproc s.ptable curproc).getD s.ptable, s.nextpid, s.initproc⟩
  | kernel_op.wait curproc => ⟨(wait s.ptable curproc).2, s.nextpid, s.initproc⟩
  | kernel_op.kill pid => ⟨(kill s.ptable pid).2, s.nextpid, s.initproc⟩
  | kernel_op.transfer_process_queue ticks pid new_queue =>
    ⟨(transfer_process_queue ticks s.ptable pid new_queue).2, s.nextpid, s.initproc⟩
  | kernel_op.ageproc now ticks => ⟨ageproc now ticks s.ptable, s.nextpid, s.initproc⟩

/-- The slot holds a process that can make a call: it is in the table and has
neither been freed nor exited. -/
def can_call (t : List proc) (curproc : Nat) : Prop :=
  curproc < t.length ∧ (ptable_proc t curproc).state ≠ procstate.UNUSED ∧
    (ptable_proc t curproc).state ≠ procstate.ZOMBIE

instance (t : List proc) (curproc : Nat) : Decidable (can_call t curproc) := by
  unfold can_call; infer_instance

/-- The pid counter can be incremented without leaving the range of `int`. -/
def no_wrap (nextpid : Int) : Prop :=
  nextpid < 2147483647

instance (nextpid : Int) : Decidable (no_wrap nextpid) := by
  unfold no_wrap; infer_instance

/-- The conditions under which a call is made and runs to its end: the caller
is a process that can make a call, the call does not panic, and `nextpid++`
does not overflow. -/
def enabled (s : kstate) : kernel_op → Prop
  | kernel_op.allocproc _ => no_wrap s.nextpid
  | kernel_op.userinit kalloc setupkvm _ _ _ =>
    no_wrap s.nextpid ∧ kalloc ≠ 0 ∧ setupkvm ≠ 0 ∧
      ∃ np, np < s.ptable.length ∧ (ptable_proc s.ptable np).state = procstate.UNUSED
  | kernel_op.fork _ _ _ _ curproc => no_wrap s.nextpid ∧ can_call s.ptable curproc
  | kernel_op.exit curproc => can_call s.ptable curproc ∧ s.initproc ≠ some curproc
  | kernel_op.wait curproc => can_call s.ptable curproc
  | kernel_op.kill _ => True
  | kernel_op.transfer_process_queue _ _ _ => True
  | kernel_op.ageproc _ _ => True

instance (s : kstate) (op : kernel_op) : Decidable (enabled s op) := by
  cases op <;> (unfold enabled; infer_instance)

/-- The state at boot: `NPROC` zero-filled slots, `nextpid = 1`, no
`initproc`. -/
def boot_state (nproc : Nat) : kstate :=
  ⟨List.replicate nproc proc_zero, 1, none⟩

/-- The states reached from boot by enabled calls taken from `allowed`, one at
a time. -/
inductive reachable (allowed : kernel_op → Prop) (nproc : Nat) : kstate → Prop where
  | boot : reachable allowed nproc (boot_state nproc)
  | step (s : kstate) (op : kernel_op) : reachable allowed nproc s → allowed op →
      enabled s op → reachable allowed nproc (step s op)

/-- The calls `allocproc`, `fork`, `exit`, `wait`, `kill` and
`transfer_process_queue`. -/
def lifecycle_op : kernel_op → Prop
  | kernel_op.allocproc _ => True
  | kernel_op.fork _ _ _ _ _ => True
  | kernel_op.exit _ => True
  | kernel_op.wait _ => True
  | kernel_op.kill _ => True
  | kernel_op.transfer_process_queue _ _ _ => True
  | _ => False

/-- The calls `userinit`, `fork`, `exit` and `wait`. -/
def family_op : kernel_op → Prop
  | kernel_op.userinit _ _ _ _ _ => True
  | kernel_op.fork _ _ _ _ _ => True
  | kernel_op.exit _ => True
  | kernel_op.wait _ => True
  | _ => False

/-- The slot reached from slot `i` by following `parent` pointers `k` times. -/
def ancestor (t : List proc) : Nat → Nat → Option Nat
  | 0, i => some i
  | k + 1, i => (ptable_proc t i).parent.bind (ancestor t k)

/-! ## Invariants of the transition system -/

/-- The fields of a slot that identify the process and place it in the family
tree are the same in `p` and `p'`. -/
def same_identity (p p' : proc) : Prop :=
  p'.state = p.state ∧ p'.pid = p.pid ∧ p'.parent = p.parent

/-- The pids of the live processes: each is at least 1 and below the pid
counter, and no two non-Unused slots share one. -/
def pid_inv (s : kstate) : Prop :=
  1 ≤ s.nextpid ∧
  (∀ i, i < s.ptable.length → (ptable_proc s.ptable i).state ≠ procstate.UNUSED →
    1 ≤ (ptable_proc s.ptable i).pid ∧ (ptable_proc s.ptable i).pid < s.nextpid) ∧
  (∀ i, i < s.ptable.length → ∀ j, j < s.ptable.length → i ≠ j →
    (ptable_proc s.ptable i).state ≠ procstate.UNUSED →
    (ptable_proc s.ptable j).state ≠ procstate.UNUSED →
    (ptable_proc s.ptable i).pid ≠ (ptable_proc s.ptable j).pid)

/-- The shape of the family tree: an Unused slot has no parent; a parent is a
slot of the table that is neither Unused nor a Zombie; `initproc` is such a
slot and has no parent; and the slots can be ranked so that every parent ranks
below its children, with `initproc` at rank 0. -/
def fam_inv (s : kstate) : Prop :=
  (∀ i, (ptable_proc s.ptable i).state = procstate.UNUSED →
    (ptable_proc s.ptable i).parent = none) ∧
  (∀ i j, (ptable_proc s.ptable i).parent = some j →
    j < s.ptable.length ∧ (ptable_proc s.ptable j).state ≠ procstate.UNUSED ∧
      (ptable_proc s.ptable j).state ≠ procstate.ZOMBIE) ∧
  (∀ r, s.initproc = some r →
    r < s.ptable.length ∧ (ptable_proc s.ptable r).state ≠ procstate.UNUSED ∧
      (ptable_proc s.ptable r).state ≠ procstate.ZOMBIE ∧
      (ptable_proc s.ptable r).parent = none) ∧
  (∃ rank : Nat → Nat,
    (∀ i j, (ptable_proc s.ptable i).parent = some j → rank j < rank i) ∧
    ∀ r, s.initproc = some r → rank r = 0)

/-- Every call is allowed. -/
def any_op (_ : kernel_op) : Prop := True

/-- The calls `allocproc`, `fork`, `exit`, `wait` and `kill`. -/
def pid_op : kernel_op → Prop
  | kernel_op.allocproc _ => True
  | kernel_op.fork _ _ _ _ _ => True
  | kernel_op.exit _ => True
  | kernel_op.wait _ => True
  | kernel_op.kill _ => True
  | _ => False

/-! ## A parent forks, its children exit, the parent waits -/

/-- What the rest of the system may do between two calls of the scenario
without interfering with the children of `P`: it adds no child to `P` and takes
none away (no fork under `P`, no reaping, no reparenting to `P`), it leaves
the pid of every child as it is, frees no child and revives no child that has
exited; the pid counter does not go back. -/
def bystander_step (P : Nat) (s s' : kstate) : Prop :=
  s.nextpid ≤ s'.nextpid ∧
  ∀ i, ((ptable_proc s'.ptable i).parent = some P ↔ (ptable_proc s.ptable i).parent = some P) ∧
    ((ptable_proc s.ptable i).parent = some P →
      (ptable_proc s'.ptable i).pid = (ptable_proc s.ptable i).pid ∧
      ((ptable_proc s.ptable i).state ≠ procstate.UNUSED →
        (ptable_proc s'.ptable i).state ≠ procstate.UNUSED) ∧
      ((ptable_proc s.ptable i).state = procstate.ZOMBIE →
        (ptable_proc s'.ptable i).state = procstate.ZOMBIE))

/-- The process in slot `P` forks successfully, any number of times, while the
rest of the system goes on; the list collects, newest first, the slot of each
child and the value `fork` returned. -/
inductive fork_phase (P : Nat) : kstate → List (Nat × Int) → kstate → Prop where
  | start (s : kstate) : fork_phase P s [] s
  | fork (s0 : kstate) (K : List (Nat × Int)) (s : kstate) (kalloc copyuvm : Nat)
      (safestrcpy : List Nat → List Nat → List Nat) (ticks np : Nat) :
      fork_phase P s0 K s →
      enabled s (kernel_op.fork kalloc copyuvm safestrcpy ticks P) →
      lowest_unused s.ptable np → kalloc ≠ 0 → copyuvm ≠ 0 →
      fork_phase P s0
        ((np, (fork kalloc copyuvm safestrcpy ticks s.nextpid s.ptable P).1) :: K)
        (step s (kernel_op.fork kalloc copyuvm safestrcpy ticks P))
  | other (s0 : kstate) (K : List (Nat × Int)) (s s' : kstate) :
      fork_phase P s0 K s → bystander_step P s s' → fork_phase P s0 K s'

/-- Children of `P` (the slots in `kids`) call `exit` while the rest of the
system goes on; the list collects the slots that have exited. A child that
exits while `P` is `initproc` has no children of its own to pass on to `P`. -/
inductive exit_phase (P : Nat) (kids : List Nat) : kstate → List Nat → kstate → Prop where
  | start (s : kstate) : exit_phase P kids s [] s
  | exit (s0 : kstate) (done : List Nat) (s : kstate) (c : Nat) :
      exit_phase P kids s0 done s → c ∈ kids → enabled s (kernel_op.exit c) →
      (s.initproc = some P → ∀ i, (ptable_proc s.ptable i).parent ≠ some c) →
      exit_phase P kids s0 (c :: done) (step s (kernel_op.exit c))
  | other (s0 : kstate) (done : List Nat) (s s' : kstate) :
      exit_phase P kids s0 done s → bystander_step P s s' → exit_phase P kids s0 done s'

/-- The process in slot `P` calls `wait` while the rest of the system goes on;
the list collects, in order, how each pass of `wait` ended. -/
inductive wait_phase (P : Nat) : kstate → List wait_result → kstate → Prop where
  | start (s : kstate) : wait_phase P s [] s
  | wait (s0 : kstate) (R : List wait_result) (s : kstate) :
      wait_phase P s0 R s →
      wait_phase P s0 (R ++ [(wait s.ptable P).1]) (step s (kernel_op.wait P))
  | other (s0 : kstate) (R : List wait_result) (s s' : kstate) :
      wait_phase P s0 R s → bystander_step P s s' → wait_phase P s0 R s'

/-- What holds of the children of `P` while it forks: the slots in `K` are
exactly its children, they are distinct and live, each holds the pid `fork`
returned, and these pids are distinct and below the pid counter. -/
def forked_inv (P : Nat) (K : List (Nat × Int)) (s : kstate) : Prop :=
  (∀ i, (ptable_proc s.ptable i).parent = some P ↔ i ∈ K.map Prod.fst) ∧
  (K.map Prod.fst).Nodup ∧ (K.map Prod.snd).Nodup ∧ P ∉ K.map Prod.fst ∧
  1 ≤ s.nextpid ∧
  ∀ x, x ∈ K → (ptable_proc s.ptable x.1).pid = x.2 ∧
    (ptable_proc s.ptable x.1).state ≠ procstate.UNUSED ∧ x.2 < s.nextpid

/-- What holds of the children of `P` while they exit. -/
def exited_inv (P : Nat) (K : List (Nat × Int)) (done : List Nat) (s : kstate) : Prop :=
  (∀ i, (ptable_proc s.ptable i).parent = some P ↔ i ∈ K.map Prod.fst) ∧
  P ∉ K.map Prod.fst ∧
  (∀ x, x ∈ K → (ptable_proc s.ptable x.1).pid = x.2 ∧
    (ptable_proc s.ptable x.1).state ≠ procstate.UNUSED) ∧
  ∀ c, c ∈ done → c ∈ K.map Prod.fst → (ptable_proc s.ptable c).state = procstate.ZOMBIE

/-- What holds while `P` waits: `reaped` are the children reaped so far, the
other children are Zombies holding their pids, and once `wait` has returned -1
there is no child left. -/
def waited_inv (P : Nat) (K : List (Nat × Int)) (R : List wait_result) (s : kstate) : Prop :=
  ∃ (reaped : List (Nat × Int)) (extra : Nat),
    R = reaped.map (fun x => wait_result.returned x.2) ++
      List.replicate extra (wait_result.returned (-1)) ∧
    reaped.Nodup ∧
    (∀ x, x ∈ reaped → x ∈ K ∧ (ptable_proc s.ptable x.1).parent ≠ some P) ∧
    (∀ x, x ∈ K → x ∈ reaped ∨
      ((ptable_proc s.ptable x.1).parent = some P ∧
        (ptable_proc s.ptable x.1).state = procstate.ZOMBIE ∧
        (ptable_proc s.ptable x.1).pid = x.2)) ∧
    (∀ i, (ptable_proc s.ptable i).parent = some P → i ∈ K.map Prod.fst) ∧
    (0 < extra → ∀ i, (ptable_proc s.ptable i).parent ≠ some P)

/-- A state reached from boot by `userinit` and one `fork` of `initproc`. -/
def family_sample : kstate :=
  step (step (boot_state 3) (kernel_op.userinit 1000 2000 4096 copy_name 0))
    (kernel_op.fork 1000 2000 copy_name 7 0)

/-- The state after `userinit` at boot with two slots: `initproc` (pid 1) is in
slot 0, slot 1 is Unused. -/
def kill_sample : kstate :=
  step (boot_state 2) (kernel_op.userinit 1000 2000 4096 copy_name 0)

/-! ## Rank inputs, `growproc`, queue classes -/

/-- The `uint` sum `sz + n` of a `uint` and an `int` on a 32-bit machine. -/
def uint_add_int (sz : Nat) (n : Int) : Nat :=
  (((sz : Int) + n) % 4294967296).toNat

/-- The function `growproc` for the caller in slot `curproc`, up to the call of
`switchuvm`. `allocuvm oldsz newsz` and `deallocuvm oldsz newsz` are the sizes
those functions of `vm.c` return (`0` when they fail). The result is the
returned value and the table. -/
def growproc (allocuvm deallocuvm : Nat → Nat → Nat) (n : Int) (t : List proc) (curproc : Nat) :
    Int × List proc :=
  let sz := (ptable_proc t curproc).sz
  if n > 0 then
    if allocuvm sz (uint_add_int sz n) = 0 then (-1, t)
    else (0, update_slot t curproc (fun p => { p with sz := allocuvm sz (uint_add_int sz n) }))
  else if n < 0 then
    if deallocuvm sz (uint_add_int sz n) = 0 then (-1, t)
    else (0, update_slot t curproc (fun p => { p with sz := deallocuvm sz (uint_add_int sz n) }))
  else (0, update_slot t curproc (fun p => { p with sz := sz }))

/-- The sum `a * ar + b * br + c * cr + d * dr` of four inputs weighted by four
ratios, taken exactly; none when an input or ratio is not a number. -/
def weighted_sum (a ar b br c cr d dr : Option ℚ) : Option ℚ :=
  match a, ar, b, br, c, cr, d, dr with
  | some a, some ar, some b, some br, some c, some cr, some d, some dr =>
    some (a * ar + b * br + c * cr + d * dr)
  | _, _, _, _, _, _, _, _ => none

/-- The rank as the specification words it: the four rank inputs `priority`,
`arrival_time`, `executed_cycle` and `process_size`, each times its ratio, with
the arithmetic taken exactly. -/
def claimed_rank (p : proc) : Option ℚ :=
  weighted_sum (some (p.mfq_info.bjf.priority : ℚ)) p.mfq_info.bjf.priority_ratio.val
    (some (p.mfq_info.bjf.arrival_time : ℚ)) p.mfq_info.bjf.arrival_time_ratio.val
    p.mfq_info.bjf.executed_cycle.val p.mfq_info.bjf.executed_cycle_ratio.val
    p.mfq_info.bjf.process_size.val p.mfq_info.bjf.process_size_ratio.val

/-- The same sum with the current size `sz` of the address space in place of
the rank input `process_size`. -/
def exact_rank (p : proc) : Option ℚ :=
  weighted_sum (some (p.mfq_info.bjf.priority : ℚ)) p.mfq_info.bjf.priority_ratio.val
    (some (p.mfq_info.bjf.arrival_time : ℚ)) p.mfq_info.bjf.arrival_time_ratio.val
    p.mfq_info.bjf.executed_cycle.val p.mfq_info.bjf.executed_cycle_ratio.val
    (some (p.sz : ℚ)) p.mfq_info.bjf.process_size_ratio.val

/-- No step of the rank computation of `p` is rounded: the ratios and
`executed_cycle` are numbers, and the three converted operands, the four
products and the three partial sums are finite `float`s. -/
def rank_unrounded (p : proc) : Prop :=
  ∃ pr ar ec er sr : ℚ,
    p.mfq_info.bjf.priority_ratio.val = some pr ∧
    p.mfq_info.bjf.arrival_time_ratio.val = some ar ∧
    p.mfq_info.bjf.executed_cycle.val = some ec ∧
    p.mfq_info.bjf.executed_cycle_ratio.val = some er ∧
    p.mfq_info.bjf.process_size_ratio.val = some sr ∧
    representable (p.mfq_info.bjf.priority : ℚ) ∧
    representable (p.mfq_info.bjf.arrival_time : ℚ) ∧
    representable (p.sz : ℚ) ∧
    representable ((p.mfq_info.bjf.priority : ℚ) * pr) ∧
    representable ((p.mfq_info.bjf.arrival_time : ℚ) * ar) ∧
    representable (ec * er) ∧
    representable ((p.sz : ℚ) * sr) ∧
    representable ((p.mfq_info.bjf.priority : ℚ) * pr + (p.mfq_info.bjf.arrival_time : ℚ) * ar) ∧
    representable ((p.mfq_info.bjf.priority : ℚ) * pr + (p.mfq_info.bjf.arrival_time : ℚ) * ar +
      ec * er) ∧
    representable ((p.mfq_info.bjf.priority : ℚ) * pr + (p.mfq_info.bjf.arrival_time : ℚ) * ar +
      ec * er + (p.sz : ℚ) * sr)

/-- The slot `p` with the rank input `process_size` set to `v`. -/
def set_process_size (v : float) (p : proc) : proc :=
  { p with mfq_info := { p.mfq_info with bjf := { p.mfq_info.bjf with process_size := v } } }

/-- An `allocuvm` or `deallocuvm` that succeeds: it returns the new size. -/
def resize_ok (_oldsz newsz : Nat) : Nat := newsz

/-- A Runnable BJF process of `size` bytes whose rank input `process_size` holds
that size, as `fork` stamps it. -/
def sized_proc (pid : Int) (size : Nat) : proc :=
  { pid_proc pid procstate.RUNNABLE BJF 0 with
    sz := size,
    mfq_info := { (pid_proc pid procstate.RUNNABLE BJF 0).mfq_info with
      bjf := { (pid_proc pid procstate.RUNNABLE BJF 0).mfq_info.bjf with
        process_size := float.of_uint size } } }

/-- Two Runnable BJF processes that differ in size only: 4096 bytes in slot 0,
8192 bytes in slot 1. -/
def bjf_sample : List proc :=
  [sized_proc 5 4096, sized_proc 6 8192]

/-- The number is one of the three queue numbers `RR`, `LCFS`, `BJF`. -/
def valid_queue (q : Int) : Prop :=
  q = RR ∨ q = LCFS ∨ q = BJF

instance (q : Int) : Decidable (valid_queue q) := by
  unfold valid_queue; infer_instance

/-- The calls `allocproc`, `userinit`, `fork`, `transfer_process_queue` (with
any queue argument) and `ageproc`. -/
def classify_op : kernel_op → Prop
  | kernel_op.allocproc _ => True
  | kernel_op.userinit _ _ _ _ _ => True
  | kernel_op.fork _ _ _ _ _ => True
  | kernel_op.transfer_process_queue _ _ _ => True
  | kernel_op.ageproc _ _ => True
  | _ => False

/-- The calls of `classify_op` in which `transfer_process_queue` is asked for
one of the three queues. -/
def valid_classify_op : kernel_op → Prop
  | kernel_op.allocproc _ => True
  | kernel_op.userinit _ _ _ _ _ => True
  | kernel_op.fork _ _ _ _ _ => True
  | kernel_op.transfer_process_queue _ _ new_queue => valid_queue new_queue
  | kernel_op.ageproc _ _ => True
  | _ => False

/-- The queue types in the table: no slot holds a pid at or above the pid
counter; every slot has queue type 0 (the `memset` of `allocproc`) or one of
the three queues; a slot that is neither Unused nor Embryo is in one of the
three queues. -/
def queue_inv (s : kstate) : Prop :=
  1 ≤ s.nextpid ∧
  (∀ i, (ptable_proc s.ptable i).pid < s.nextpid) ∧
  (∀ i, (ptable_proc s.ptable i).mfq_info.queue_type = 0 ∨
    valid_queue (ptable_proc s.ptable i).mfq_info.queue_type) ∧
  (∀ i, (ptable_proc s.ptable i).state ≠ procstate.UNUSED →
    (ptable_proc s.ptable i).state ≠ procstate.EMBRYO →
    valid_queue (ptable_proc s.ptable i).mfq_info.queue_type)

/-- The state after `userinit` and two `fork`s by `initproc`: pids 1, 2, 3 in
slots 0, 1, 2. -/
def classify_sample : kstate :=
  step family_sample (kernel_op.fork 1000 2000 copy_name 9 0)

/-! ## Auxiliary facts -/

theorem ptable_proc_lt {t : List proc} {i : Nat} (h : i < t.length) :
    ptable_proc t i = t[i] := by
  simp [ptable_proc, List.getD, List.getElem?_eq_getElem h]

theorem length_update_slot (t : List proc) (i : Nat) (f : proc → proc) :
    (update_slot t i f).length = t.length := by
  simp [update_slot]

theorem ptable_proc_update_same {t : List proc} {i : Nat} (f : proc → proc)
    (h : i < t.length) : ptable_proc (update_slot t i f) i = f (ptable_proc t i) := by
  simp [ptable_proc, update_slot, List.getD, List.getElem?_set, h]

theorem ptable_proc_update_other {t : List proc} {i j : Nat} (f : proc → proc)
    (h : i ≠ j) : ptable_proc (update_slot t i f) j = ptable_proc t j := by
  simp [ptable_proc, update_slot, List.getD, List.getElem?_set, h]

theorem first_slot_none {n : Nat} {hit : Nat → Bool} :
    first_slot n hit = none ↔ ∀ j, j < n → hit j = false := by
  simp [first_slot]

theorem first_slot_some {n : Nat} {hit : Nat → Bool} {i : Nat} :
    first_slot n hit = some i ↔ i < n ∧ hit i = true ∧ ∀ j, j < i → hit j = false := by
  induction n generalizing i with
  | zero => simp [first_slot]
  | succ n ih =>
    have hstep : first_slot (n + 1) hit =
        (first_slot n hit).or (if hit n = true then some n else none) := by
      unfold first_slot
      rw [List.range_succ, List.find?_append]
      congr 1
      by_cases hn : hit n = true <;> simp [List.find?, hn]
    rw [hstep]
    cases hf : first_slot n hit with
    | some a =>
      obtain ⟨ha1, ha2, ha3⟩ := ih.mp hf
      simp only [Option.or, Option.some.injEq]
      constructor
      · rintro rfl
        exact ⟨by omega, ha2, ha3⟩
      · rintro ⟨_, h2, h3⟩
        rcases Nat.lt_trichotomy a i with h | h | h
        · have := h3 a h
          simp [ha2] at this
        · exact h
        · have := ha3 i h
          simp [h2] at this
    | none =>
      have hnone := first_slot_none.mp hf
      simp only [Option.or]
      by_cases hn : hit n = true
      · simp only [hn, if_true, Option.some.injEq]
        constructor
        · rintro rfl
          exact ⟨by omega, hn, hnone⟩
        · rintro ⟨h1, h2, h3⟩
          rcases Nat.lt_trichotomy n i with h | h | h
          · omega
          · exact h
          · have := hnone i h
            simp [h2] at this
      · simp only [hn, if_false]
        constructor
        · intro h; cases h
        · rintro ⟨h1, h2, h3⟩
          have hi : i = n ∨ i < n := by omega
          rcases hi with rfl | hi
          · exact absurd h2 hn
          · have := hnone i hi
            simp [h2] at this

/-! ## `best_job_first` -/

theorem float_lt_irrefl (a : float) : float.lt a a = false := by
  cases a with
  | finite s m e => simp [float.lt]
  | inf s => cases s <;> rfl
  | nan => rfl

theorem float_lt_trans {a b c : float} (h1 : float.lt a b = true) (h2 : float.lt b c = true) :
    float.lt a c = true := by
  cases a <;> cases b <;> cases c <;> simp [float.lt] at h1 h2 ⊢ <;>
    first
      | omega
      | (simp_all)

/-- Among numbers, what is not below `m` is above everything below `m`. -/
theorem float_lt_of_not_lt {c m r : float} (h1 : float.lt c m = true) (hr : r ≠ float.nan)
    (h2 : float.lt r m = false) : float.lt c r = true := by
  cases c <;> cases m <;> cases r <;> simp [float.lt] at h1 h2 hr ⊢ <;>
    first
      | omega
      | (simp_all)

/-- The loop invariant of `best_job_first` after the slots below `k`. -/
theorem best_job_first_invariant (t : List proc) (k : Nat) :
    (((List.range k).foldl (best_job_first_body t) (none, 0)).1 = none →
      ∀ j, j < k → ¬ runnable_in BJF (ptable_proc t j)) ∧
    (∀ b, ((List.range k).foldl (best_job_first_body t) (none, 0)).1 = some b →
      b < k ∧ runnable_in BJF (ptable_proc t b) ∧
      ((List.range k).foldl (best_job_first_body t) (none, 0)).2 =
        calc_bjf_rank (ptable_proc t b) ∧
      (∀ j, j < k → runnable_in BJF (ptable_proc t j) →
        float.lt (calc_bjf_rank (ptable_proc t j)) (calc_bjf_rank (ptable_proc t b)) = false) ∧
      (∀ j, j < b → runnable_in BJF (ptable_proc t j) →
        calc_bjf_rank (ptable_proc t j) ≠ float.nan →
        float.lt (calc_bjf_rank (ptable_proc t b)) (calc_bjf_rank (ptable_proc t j)) = true)) := by
  induction k with
  | zero => simp
  | succ k ih =>
    rw [List.range_succ, List.foldl_append]
    simp only [List.foldl_cons, List.foldl_nil]
    generalize (List.range k).foldl (best_job_first_body t) (none, 0) = acc at ih ⊢
    obtain ⟨best, m⟩ := acc
    obtain ⟨ih1, ih2⟩ := ih
    simp only at ih1 ih2
    unfold best_job_first_body
    simp only
    by_cases hq : (ptable_proc t k).mfq_info.queue_type = BJF
    · by_cases hs : (ptable_proc t k).state = procstate.RUNNABLE
      · have hk : runnable_in BJF (ptable_proc t k) := ⟨hs, hq⟩
        simp only [hq, hs, ne_eq, not_true_eq_false, if_false]
        cases best with
        | none =>
          have hno := ih1 rfl
          simp only [true_or, if_true]
          refine ⟨by simp, ?_⟩
          intro b hb
          simp only [Option.some.injEq] at hb
          subst hb
          refine ⟨by omega, hk, rfl, ?_, ?_⟩
          · intro j hj hr
            have : j = k ∨ j < k := by omega
            rcases this with rfl | hlt
            · exact float_lt_irrefl _
            · exact absurd hr (hno j hlt)
          · intro j hj hr
            exact absurd hr (hno j hj)
        | some b0 =>
          obtain ⟨hb0, hr0, hm, hmin, hfirst⟩ := ih2 b0 rfl
          by_cases hlt : float.lt (calc_bjf_rank (ptable_proc t k)) m = true
          · simp only [hlt, or_true, if_true]
            refine ⟨by simp, ?_⟩
            intro b hb
            simp only [Option.some.injEq] at hb
            subst hb
            refine ⟨by omega, hk, rfl, ?_, ?_⟩
            · intro j hj hr
              have : j = k ∨ j < k := by omega
              rcases this with rfl | hjk
              · exact float_lt_irrefl _
              · have hnot := hmin j hjk hr
                rw [← hm] at hnot
                cases hc : float.lt (calc_bjf_rank (ptable_proc t j))
                    (calc_bjf_rank (ptable_proc t k)) with
                | false => rfl
                | true =>
                  rw [float_lt_trans hc hlt] at hnot
                  exact absurd hnot (by decide)
            · intro j hj hr hnan
              have hnot := hmin j hj hr
              rw [← hm] at hnot
              exact float_lt_of_not_lt hlt hnan hnot
          · have hcond : ¬ ((some b0 : Option Nat) = none ∨
                float.lt (calc_bjf_rank (ptable_proc t k)) m = true) := by
              simp [hlt]
            simp only [hcond, if_false]
            refine ⟨by simp, ?_⟩
            intro b hb
            simp only [Option.some.injEq] at hb
            subst hb
            refine ⟨by omega, hr0, hm, ?_, hfirst⟩
            intro j hj hr
            have : j = k ∨ j < k := by omega
            rcases this with rfl | hjk
            · rw [← hm]
              simpa using hlt
            · exact hmin j hjk hr
      · simp only [hq, hs, ne_eq, not_true_eq_false, not_false_eq_true, if_false, if_true]
        constructor
        · intro hb j hj
          have : j = k ∨ j < k := by omega
          rcases this with rfl | hjk
          · exact fun h => hs h.1
          · exact ih1 hb j hjk
        · intro b hb
          obtain ⟨h1, h2, h3, h4, h5⟩ := ih2 b hb
          refine ⟨by omega, h2, h3, ?_, h5⟩
          intro j hj hr
          have : j = k ∨ j < k := by omega
          rcases this with rfl | hjk
          · exact absurd hr.1 hs
          · exact h4 j hjk hr
    · simp only [hq, ne_eq, not_false_eq_true, if_true]
      constructor
      · intro hb j hj
        have : j = k ∨ j < k := by omega
        rcases this with rfl | hjk
        · exact fun h => hq h.2
        · exact ih1 hb j hjk
      · intro b hb
        obtain ⟨h1, h2, h3, h4, h5⟩ := ih2 b hb
        refine ⟨by omega, h2, h3, ?_, h5⟩
        intro j hj hr
        have : j = k ∨ j < k := by omega
        rcases this with rfl | hjk
        · exact absurd hr.2 hq
        · exact h4 j hjk hr

theorem roundrobin_next (n r : Nat) (hr : r < n) :
    (if r + 1 ≥ n then 0 else r + 1) = (r + 1) % n := by
  by_cases h : r + 1 ≥ n
  · have : r + 1 = n := by omega
    simp [this]
  · simp only [h, if_false]
    exact (Nat.mod_eq_of_lt (by omega)).symm

theorem circular_visit_eq_last (n last k : Nat) (hl : last < n) (hk : k < n) :
    (last + 1 + k) % n = last ↔ k + 1 = n := by
  by_cases h : last + 1 + k < n
  · rw [Nat.mod_eq_of_lt h]; omega
  · rw [Nat.mod_eq_sub_mod (by omega), Nat.mod_eq_of_lt (by omega)]; omega

theorem circular_order_explicit (n last : Nat) (hl : last < n) :
    circular_order n last =
      List.range' (last + 1) (n - (last + 1)) ++ List.range (last + 1) := by
  apply List.ext_getElem
  · simp [circular_order]; omega
  · intro i h1 h2
    simp only [circular_order, List.length_map, List.length_range] at h1
    simp only [circular_order, List.getElem_map, List.getElem_range, List.getElem_append,
      List.length_range', List.getElem_range']
    by_cases h : i < n - (last + 1)
    · simp only [h, dite_true]
      rw [Nat.mod_eq_of_lt (by omega)]; omega
    · simp only [h, dite_false]
      rw [Nat.mod_eq_sub_mod (by omega), Nat.mod_eq_of_lt (by omega)]; omega

theorem mem_circular_order (n last i : Nat) (hl : last < n) :
    i ∈ circular_order n last ↔ i < n := by
  rw [circular_order_explicit n last hl]
  simp only [List.mem_append, List.mem_range'_1, List.mem_range]
  omega

/-- The loop of `roundrobin` after `k` fruitless iterations: it leaves within
the remaining `d` iterations with the first Runnable RR slot still to be
visited. -/
theorem roundrobin_loop_spec (t : List proc) (last : Nat) (hl : last < t.length) :
    ∀ (d k fuel : Nat), k + d = t.length → 1 ≤ d → d ≤ fuel →
      roundrobin_loop t last fuel ((last + k) % t.length) =
        some (((List.range' k d).map (fun j => (last + 1 + j) % t.length)).find?
          (fun i => decide (runnable_in RR (ptable_proc t i)))) := by
  intro d
  induction d with
  | zero => intro k fuel _ h; omega
  | succ d ih =>
    intro k fuel hkd _ hfuel
    obtain ⟨f, rfl⟩ : ∃ f, fuel = f + 1 := ⟨fuel - 1, by omega⟩
    have hr : (last + k) % t.length < t.length := Nat.mod_lt _ (by omega)
    have hnext : (if (last + k) % t.length + 1 ≥ t.length then 0 else (last + k) % t.length + 1)
        = (last + 1 + k) % t.length := by
      rw [roundrobin_next _ _ hr, Nat.mod_add_mod]
      congr 1; omega
    unfold roundrobin_loop
    simp only [hnext]
    rw [List.range'_succ, List.map_cons, List.find?_cons]
    by_cases he : runnable_in RR (ptable_proc t ((last + 1 + k) % t.length))
    · have he' := he
      unfold runnable_in at he'
      simp [he, he']
    · have he' := he
      unfold runnable_in at he'
      simp only [he', if_false, he, decide_False]
      by_cases hlast : (last + 1 + k) % t.length = last
      · have hk1 := (circular_visit_eq_last t.length last k hl (by omega)).mp hlast
        have hd0 : d = 0 := by omega
        subst hd0
        simp [hlast]
      · have hk1 : ¬ (k + 1 = t.length) :=
          fun h => hlast ((circular_visit_eq_last t.length last k hl (by omega)).mpr h)
        simp only [hlast, if_false]
        have := ih (k + 1) f (by omega) (by omega) (by omega)
        have hidx : last + (k + 1) = last + 1 + k := by omega
        rw [hidx] at this
        exact this

/-- For a valid `last`, `roundrobin` returns within `NPROC` iterations the first
Runnable RR slot of the circular order. -/
theorem roundrobin_returns (t : List proc) (last : Nat) (hl : last < t.length) :
    roundrobin t last =
      some ((circular_order t.length last).find?
        (fun i => decide (runnable_in RR (ptable_proc t i)))) := by
  have := roundrobin_loop_spec t last hl t.length 0 t.length (by omega) (by omega) (le_refl _)
  rw [Nat.add_zero, Nat.mod_eq_of_lt hl] at this
  rw [roundrobin, this, circular_order, List.range_eq_range']

/-- C2: for a valid slot `last`, `roundrobin` leaves its loop within `NPROC`
iterations (whatever larger bound is given) and returns the first Runnable RR
slot in the circular order `last+1, .., NPROC-1, 0, .., last`; it returns none
exactly when no slot of the table is Runnable and in the RR queue. -/
theorem roundrobin_spec (t : List proc) (last : Nat) (hl : last < t.length) :
    (∀ fuel, t.length ≤ fuel →
      roundrobin_loop t last fuel last =
        some ((circular_order t.length last).find?
          (fun i => decide (runnable_in RR (ptable_proc t i))))) ∧
    roundrobin t last =
      some ((circular_order t.length last).find?
        (fun i => decide (runnable_in RR (ptable_proc t i)))) ∧
    circular_order t.length last =
      List.range' (last + 1) (t.length - (last + 1)) ++ List.range (last + 1) ∧
    (roundrobin t last = some none ↔
      ∀ i, i < t.length → ¬ runnable_in RR (ptable_proc t i)) := by
  have hloop : ∀ fuel, t.length ≤ fuel →
      roundrobin_loop t last fuel last =
        some ((circular_order t.length last).find?
          (fun i => decide (runnable_in RR (ptable_proc t i)))) := by
    intro fuel hfuel
    have := roundrobin_loop_spec t last hl t.length 0 fuel (by omega) (by omega) hfuel
    rw [Nat.add_zero, Nat.mod_eq_of_lt hl] at this
    rw [this, circular_order, List.range_eq_range']
  have hrr := hloop t.length (le_refl _)
  refine ⟨hloop, hrr, circular_order_explicit _ _ hl, ?_⟩
  unfold roundrobin
  rw [hrr]
  simp only [Option.some.injEq, List.find?_eq_none, decide_eq_true_eq]
  constructor
  · intro h i hi
    exact h i ((mem_circular_order _ _ _ hl).mpr hi)
  · intro h i hi
    exact h i ((mem_circular_order _ _ _ hl).mp hi)

/-- Witness for C2: with slots 1 and 2 Runnable in RR and `last = 1`, the scan
returns slot 2; the hypothesis `last < NPROC` holds there. -/
theorem roundrobin_spec_witness :
    roundrobin [sample_proc LCFS 0, sample_proc RR 0, sample_proc RR 0] 1 = some (some 2) :=
  (roundrobin_spec [sample_proc LCFS 0, sample_proc RR 0, sample_proc RR 0] 1
    (by decide)).2.1.trans (by decide)

/-! ## `lcfs` -/

/-- The loop invariant of `lcfs` after the slots below `k`. -/
theorem lcfs_invariant (t : List proc) (k : Nat) :
    (((List.range k).foldl (lcfs_body t) (none, -1)).1 = none →
      ((List.range k).foldl (lcfs_body t) (none, -1)).2 = -1) ∧
    (∀ j, j < k → runnable_in LCFS (ptable_proc t j) →
      (ptable_proc t j).mfq_info.arrive_lcfs_queue_time ≤
        ((List.range k).foldl (lcfs_body t) (none, -1)).2) ∧
    (∀ b, ((List.range k).foldl (lcfs_body t) (none, -1)).1 = some b →
      b < k ∧ runnable_in LCFS (ptable_proc t b) ∧
      ((List.range k).foldl (lcfs_body t) (none, -1)).2 =
        (ptable_proc t b).mfq_info.arrive_lcfs_queue_time ∧
      (∀ j, j < b → runnable_in LCFS (ptable_proc t j) →
        (ptable_proc t j).mfq_info.arrive_lcfs_queue_time <
          (ptable_proc t b).mfq_info.arrive_lcfs_queue_time)) := by
  induction k with
  | zero => simp
  | succ k ih =>
    rw [List.range_succ, List.foldl_append]
    simp only [List.foldl_cons, List.foldl_nil]
    generalize (List.range k).foldl (lcfs_body t) (none, -1) = acc at ih ⊢
    obtain ⟨res, m⟩ := acc
    obtain ⟨ih1, ih2, ih3⟩ := ih
    simp only at ih1 ih2 ih3
    unfold lcfs_body
    simp only
    by_cases he : runnable_in LCFS (ptable_proc t k)
    · have hcond : ¬ ((ptable_proc t k).state ≠ procstate.RUNNABLE ∨
          (ptable_proc t k).mfq_info.queue_type ≠ LCFS) := by
        simp [he.1, he.2]
      simp only [hcond, if_false]
      by_cases hlt : m < (ptable_proc t k).mfq_info.arrive_lcfs_queue_time
      · simp only [hlt, if_true]
        refine ⟨by simp, ?_, ?_⟩
        · intro j hj hr
          have : j = k ∨ j < k := by omega
          rcases this with rfl | hjk
          · exact le_refl _
          · exact le_trans (ih2 j hjk hr) (le_of_lt hlt)
        · intro b hb
          simp only [Option.some.injEq] at hb
          subst hb
          refine ⟨by omega, he, rfl, ?_⟩
          intro j hj hr
          exact lt_of_le_of_lt (ih2 j hj hr) hlt
      · simp only [hlt, if_false]
        refine ⟨ih1, ?_, ?_⟩
        · intro j hj hr
          have : j = k ∨ j < k := by omega
          rcases this with rfl | hjk
          · exact not_lt.mp hlt
          · exact ih2 j hjk hr
        · intro b hb
          obtain ⟨h1, h2, h3, h4⟩ := ih3 b hb
          exact ⟨by omega, h2, h3, h4⟩
    · have hcond : (ptable_proc t k).state ≠ procstate.RUNNABLE ∨
          (ptable_proc t k).mfq_info.queue_type ≠ LCFS := by
        unfold runnable_in at he
        by_cases hs : (ptable_proc t k).state = procstate.RUNNABLE
        · exact Or.inr (fun hq => he ⟨hs, hq⟩)
        · exact Or.inl hs
      simp only [hcond, if_true]
      refine ⟨ih1, ?_, ?_⟩
      · intro j hj hr
        have : j = k ∨ j < k := by omega
        rcases this with rfl | hjk
        · exact absurd hr he
        · exact ih2 j hjk hr
      · intro b hb
        obtain ⟨h1, h2, h3, h4⟩ := ih3 b hb
        exact ⟨by omega, h2, h3, h4⟩

/-- What a non-null result of `lcfs` is: a Runnable LCFS slot with the largest
stamp, before which every Runnable LCFS slot has a strictly smaller stamp. -/
theorem lcfs_some (t : List proc) (b : Nat) (hb : lcfs t = some b) :
    b < t.length ∧ runnable_in LCFS (ptable_proc t b) ∧
    (∀ j, j < t.length → runnable_in LCFS (ptable_proc t j) →
      (ptable_proc t j).mfq_info.arrive_lcfs_queue_time ≤
        (ptable_proc t b).mfq_info.arrive_lcfs_queue_time) ∧
    (∀ j, j < b → runnable_in LCFS (ptable_proc t j) →
      (ptable_proc t j).mfq_info.arrive_lcfs_queue_time <
        (ptable_proc t b).mfq_info.arrive_lcfs_queue_time) := by
  obtain ⟨_, inv2, inv3⟩ := lcfs_invariant t t.length
  obtain ⟨h1, h2, h3, h4⟩ := inv3 b hb
  refine ⟨h1, h2, ?_, h4⟩
  intro j hj hr
  rw [← h3]
  exact inv2 j hj hr

/-- A null result of `lcfs` means that every Runnable LCFS slot has a negative
stamp. -/
theorem lcfs_none (t : List proc) (hb : lcfs t = none) :
    ∀ j, j < t.length → runnable_in LCFS (ptable_proc t j) →
      (ptable_proc t j).mfq_info.arrive_lcfs_queue_time ≤ -1 := by
  obtain ⟨inv1, inv2, _⟩ := lcfs_invariant t t.length
  intro j hj hr
  have := inv2 j hj hr
  rw [inv1 hb] at this
  exact this

/-- C3: when all `arrive_lcfs_queue_time` stamps are non-negative, `lcfs`
returns none exactly when no slot is Runnable and in the LCFS queue; otherwise
it returns a Runnable LCFS slot with the largest stamp, and every Runnable
LCFS slot before it has a strictly smaller stamp (among ties the lowest index
wins). -/
theorem lcfs_spec (t : List proc)
    (hstamp : ∀ i, i < t.length → 0 ≤ (ptable_proc t i).mfq_info.arrive_lcfs_queue_time) :
    (lcfs t = none ↔ ∀ i, i < t.length → ¬ runnable_in LCFS (ptable_proc t i)) ∧
    (∀ b, lcfs t = some b →
      b < t.length ∧ runnable_in LCFS (ptable_proc t b) ∧
      (∀ j, j < t.length → runnable_in LCFS (ptable_proc t j) →
        (ptable_proc t j).mfq_info.arrive_lcfs_queue_time ≤
          (ptable_proc t b).mfq_info.arrive_lcfs_queue_time) ∧
      (∀ j, j < b → runnable_in LCFS (ptable_proc t j) →
        (ptable_proc t j).mfq_info.arrive_lcfs_queue_time <
          (ptable_proc t b).mfq_info.arrive_lcfs_queue_time)) := by
  refine ⟨?_, fun b hb => lcfs_some t b hb⟩
  constructor
  · intro hnone i hi hr
    have h1 := lcfs_none t hnone i hi hr
    have h2 := hstamp i hi
    omega
  · intro hno
    cases hb : lcfs t with
    | none => rfl
    | some b =>
      obtain ⟨h1, h2, _⟩ := lcfs_some t b hb
      exact absurd h2 (hno b h1)

/-- Witness for C3: in `lcfs_sample` (stamps 4, 7, 7 in LCFS, 9 in RR) all
stamps are non-negative and `lcfs` returns slot 1, the first of the two slots
tied at 7. -/
theorem lcfs_spec_witness :
    lcfs lcfs_sample = some 1 ∧
    (∀ j, j < 1 → runnable_in LCFS (ptable_proc lcfs_sample j) →
      (ptable_proc lcfs_sample j).mfq_info.arrive_lcfs_queue_time <
        (ptable_proc lcfs_sample 1).mfq_info.arrive_lcfs_queue_time) :=
  ⟨by decide,
   ((lcfs_spec lcfs_sample
      (by
        intro i hi
        have hi4 : i = 0 ∨ i = 1 ∨ i = 2 ∨ i = 3 := by
          simp only [lcfs_sample, List.length_cons, List.length_nil] at hi; omega
        rcases hi4 with rfl | rfl | rfl | rfl <;> decide)).2 1 (by decide)).2.2.2⟩

/-! ## The selection step of `scheduler` -/

/-- C4, as stated, fails: in `sched_sample` the previously dispatched LCFS
process (slot 0) is Running, slot 1 is Runnable in LCFS and slot 2 is Runnable
in BJF. The stated order picks slot 1 through `lcfs`, the code skips `lcfs`
and picks the BJF process in slot 2; with the BJF slot removed the code idles
although `lcfs` is non-empty. -/
theorem scheduler_select_skips_lcfs :
    scheduler_select sched_sample 2 (some 0) = some ⟨some 2, 2, some 0⟩ ∧
    claimed_pick sched_sample 2 (some 0) = some 1 ∧
    runnable_in LCFS (ptable_proc sched_sample 1) ∧
    runnable_in BJF (ptable_proc sched_sample 2) ∧
    scheduler_select (sched_sample.take 2) 1 (some 0) = some ⟨none, 1, some 0⟩ ∧
    lcfs (sched_sample.take 2) = some 1 := by
  decide

/-- C4, amended: for a valid `last_RR` the selection step returns, and it picks
the first non-empty of (a) `roundrobin(last_RR)`, (b) the previously dispatched
LCFS process if it is Runnable, (c) `lcfs()` unless the previously dispatched
LCFS process is Running, in which case (c) is skipped, (d) `best_job_first()`;
it picks nothing only when all of these are empty. The pick is left to
`best_job_first`, or the iteration idles, only when the previously dispatched
LCFS process is Running or no Runnable LCFS process with a non-negative stamp
exists. -/
theorem scheduler_select_spec (t : List proc) (last_RR : Nat) (last_LCFS : Option Nat)
    (hl : last_RR < t.length) :
    ∃ pick, scheduler_select t last_RR last_LCFS = some pick ∧
      pick.p = first_nonempty (roundrobin t last_RR).join (prev_lcfs_if_runnable t last_LCFS)
        (lcfs_unless_running t last_LCFS) (best_job_first t) ∧
      (pick.p = none →
        (roundrobin t last_RR).join = none ∧ prev_lcfs_if_runnable t last_LCFS = none ∧
        lcfs_unless_running t last_LCFS = none ∧ best_job_first t = none) ∧
      ((roundrobin t last_RR).join = none → prev_lcfs_if_runnable t last_LCFS = none →
        lcfs_unless_running t last_LCFS = none →
        pick.p = best_job_first t ∧
        (state_at t last_LCFS = some procstate.RUNNING ∨
          ∀ i, i < t.length → runnable_in LCFS (ptable_proc t i) →
            (ptable_proc t i).mfq_info.arrive_lcfs_queue_time < 0)) := by
  have hrr := roundrobin_returns t last_RR hl
  have hpart : lcfs_unless_running t last_LCFS = none →
      (state_at t last_LCFS = some procstate.RUNNING ∨
        ∀ i, i < t.length → runnable_in LCFS (ptable_proc t i) →
          (ptable_proc t i).mfq_info.arrive_lcfs_queue_time < 0) := by
    intro hc
    unfold lcfs_unless_running at hc
    by_cases hrun : state_at t last_LCFS = some procstate.RUNNING
    · exact Or.inl hrun
    · right
      simp only [hrun, if_false] at hc
      intro i hi hr
      have := lcfs_none t hc i hi hr
      omega
  generalize hfind : (circular_order t.length last_RR).find?
    (fun i => decide (runnable_in RR (ptable_proc t i))) = r at hrr
  unfold scheduler_select
  rw [hrr]
  cases r with
  | some a =>
    refine ⟨_, rfl, ?_, ?_, ?_⟩
    · simp [first_nonempty]
    · intro h; simp at h
    · intro h; simp at h
  | none =>
    simp only [Option.join]
    cases last_LCFS with
    | none =>
      have hb : prev_lcfs_if_runnable t none = none := by simp [prev_lcfs_if_runnable]
      have hc : lcfs_unless_running t none = lcfs t := by
        simp [lcfs_unless_running, state_at]
      rw [hb, hc]
      cases hl : lcfs t with
      | some q =>
        refine ⟨⟨some q, last_RR, some q⟩, by simp [hl], ?_, ?_, ?_⟩
        · simp [first_nonempty]
        · intro h; simp at h
        · intro _ _ h; simp at h
      | none =>
        refine ⟨⟨best_job_first t, last_RR, none⟩, by simp [hl], ?_, ?_, ?_⟩
        · simp [first_nonempty]
        · intro h; exact ⟨rfl, rfl, rfl, h⟩
        · intro _ _ _; exact ⟨rfl, hpart (hc.trans hl)⟩
    | some l =>
      by_cases hrunnable : (ptable_proc t l).state = procstate.RUNNABLE
      · have hb : prev_lcfs_if_runnable t (some l) = some l := by
          simp [prev_lcfs_if_runnable, state_at, hrunnable]
        rw [hb]
        refine ⟨⟨some l, last_RR, some l⟩, by simp [state_at, hrunnable], ?_, ?_, ?_⟩
        · simp [first_nonempty]
        · intro h; simp at h
        · intro _ h; simp at h
      · have hb : prev_lcfs_if_runnable t (some l) = none := by
          simp [prev_lcfs_if_runnable, state_at, hrunnable]
        rw [hb]
        by_cases hrunning : (ptable_proc t l).state = procstate.RUNNING
        · have hc : lcfs_unless_running t (some l) = none := by
            simp [lcfs_unless_running, state_at, hrunning]
          rw [hc]
          refine ⟨⟨best_job_first t, last_RR, some l⟩, by simp [state_at, hrunning], ?_, ?_, ?_⟩
          · simp [first_nonempty]
          · intro h; exact ⟨rfl, rfl, rfl, h⟩
          · intro _ _ _; exact ⟨rfl, Or.inl (by simp [state_at, hrunning])⟩
        · have hc : lcfs_unless_running t (some l) = lcfs t := by
            simp [lcfs_unless_running, state_at, hrunning]
          rw [hc]
          cases hl : lcfs t with
          | some q =>
            refine ⟨⟨some q, last_RR, some q⟩, by simp [state_at, hrunnable, hrunning, hl],
              ?_, ?_, ?_⟩
            · simp [first_nonempty]
            · intro h; simp at h
            · intro _ _ h; simp at h
          | none =>
            refine ⟨⟨best_job_first t, last_RR, some l⟩,
              by simp [state_at, hrunnable, hrunning, hl], ?_, ?_, ?_⟩
            · simp [first_nonempty]
            · intro h; exact ⟨rfl, rfl, rfl, h⟩
            · intro _ _ _; exact ⟨rfl, hpart (hc.trans hl)⟩

/-- Witness for C4 (amended): the selection step in `sched_sample` with
`last_RR = 2`. -/
theorem scheduler_select_spec_witness :
    ∃ pick, scheduler_select sched_sample 2 (some 0) = some pick ∧
      pick.p = first_nonempty (roundrobin sched_sample 2).join
        (prev_lcfs_if_runnable sched_sample (some 0))
        (lcfs_unless_running sched_sample (some 0)) (best_job_first sched_sample) :=
  let ⟨pick, h1, h2, _⟩ := scheduler_select_spec sched_sample 2 (some 0) (by decide)
  ⟨pick, h1, h2⟩

/-! ## `transfer_process_queue` -/

theorem ext_ptable_proc {t u : List proc} (hlen : u.length = t.length)
    (h : ∀ j, j < t.length → ptable_proc u j = ptable_proc t j) : u = t := by
  apply List.ext_getElem hlen
  intro j h1 h2
  have := h j h2
  rwa [ptable_proc_lt h1, ptable_proc_lt h2] at this

theorem update_slot_id {t : List proc} {i : Nat} {f : proc → proc}
    (h : f (ptable_proc t i) = ptable_proc t i) : update_slot t i f = t := by
  apply ext_ptable_proc (length_update_slot t i f)
  intro j hj
  by_cases hij : i = j
  · subst hij
    rw [ptable_proc_update_same f hj, h]
  · exact ptable_proc_update_other f hij

theorem update_slot_twice (t : List proc) (i : Nat) (f g : proc → proc) :
    update_slot (update_slot t i f) i g = update_slot t i (fun p => g (f p)) := by
  apply ext_ptable_proc
  · simp [length_update_slot]
  · intro j hj
    rw [length_update_slot] at hj
    by_cases hij : i = j
    · subst hij
      rw [ptable_proc_update_same _ hj, ptable_proc_update_same _ (by simpa [length_update_slot]),
        ptable_proc_update_same _ hj]
    · rw [ptable_proc_update_other _ hij, ptable_proc_update_other _ hij,
        ptable_proc_update_other _ hij]

theorem lowest_holder_iff {t : List proc} {pid : Int} {i : Nat} :
    lowest_holder t pid i ↔
      first_slot t.length (fun j => decide ((ptable_proc t j).pid = pid)) = some i := by
  rw [first_slot_some]
  simp [lowest_holder]

theorem no_holder_iff {t : List proc} {pid : Int} :
    (∀ j, j < t.length → (ptable_proc t j).pid ≠ pid) ↔
      first_slot t.length (fun j => decide ((ptable_proc t j).pid = pid)) = none := by
  rw [first_slot_none]
  simp

/-- The value of `transfer_process_queue` on a pid that is at least 1 and is
held by some slot. -/
theorem transfer_process_queue_found (ticks : Nat) (t : List proc) (pid q : Int) (i : Nat)
    (h : lowest_holder t pid i) (hp : 1 ≤ pid) :
    transfer_process_queue ticks t pid q =
      if (ptable_proc t i).mfq_info.queue_type = (if pid = 1 ∨ pid = 2 then RR else q) then
        (-1, if (if pid = 1 ∨ pid = 2 then RR else q) = LCFS then
          update_slot t i (set_arrive_lcfs (int_of_uint ticks)) else t)
      else
        ((ptable_proc t i).mfq_info.queue_type,
          update_slot (if (if pid = 1 ∨ pid = 2 then RR else q) = LCFS then
            update_slot t i (set_arrive_lcfs (int_of_uint ticks)) else t) i
            (set_queue_type (if pid = 1 ∨ pid = 2 then RR else q))) := by
  have hfs := lowest_holder_iff.mp h
  obtain ⟨hi, hpid, _⟩ := h
  unfold transfer_process_queue
  have hp' : ¬ pid < 1 := by omega
  simp only [hp', if_false, hfs, hpid]
  have hq : ∀ nq : Int, (ptable_proc (if nq = LCFS then
      update_slot t i (set_arrive_lcfs (int_of_uint ticks)) else t) i).mfq_info.queue_type =
      (ptable_proc t i).mfq_info.queue_type := by
    intro nq
    by_cases hn : nq = LCFS
    · simp only [hn, if_true]
      rw [ptable_proc_update_same _ hi]
      rfl
    · simp only [hn, if_false]
  rw [hq]

/-- C5, as stated, fails: a request for the queue the process is already in is
not always a no-op. For pid 1 in LCFS the request for LCFS is overridden to RR:
the call returns the old queue 2 and moves the process to RR. For pid 5 in
LCFS stamped 3, the request for LCFS at tick 7 returns -1 but leaves the stamp
at 7. -/
theorem transfer_process_queue_same_not_noop :
    lowest_holder [pid_proc 1 procstate.RUNNABLE LCFS 3] 1 0 ∧
    (ptable_proc [pid_proc 1 procstate.RUNNABLE LCFS 3] 0).mfq_info.queue_type = LCFS ∧
    (transfer_process_queue 7 [pid_proc 1 procstate.RUNNABLE LCFS 3] 1 LCFS).1 = 2 ∧
    (transfer_process_queue 7 [pid_proc 1 procstate.RUNNABLE LCFS 3] 1 LCFS).2 =
      [pid_proc 1 procstate.RUNNABLE RR 3] ∧
    lowest_holder [pid_proc 5 procstate.RUNNABLE LCFS 3] 5 0 ∧
    (ptable_proc [pid_proc 5 procstate.RUNNABLE LCFS 3] 0).mfq_info.queue_type = LCFS ∧
    (transfer_process_queue 7 [pid_proc 5 procstate.RUNNABLE LCFS 3] 5 LCFS).1 = -1 ∧
    (transfer_process_queue 7 [pid_proc 5 procstate.RUNNABLE LCFS 3] 5 LCFS).2 =
      [pid_proc 5 procstate.RUNNABLE LCFS 7] ∧
    [pid_proc 5 procstate.RUNNABLE LCFS 7] ≠ [pid_proc 5 procstate.RUNNABLE LCFS 3] := by
  decide

/-- C5, amended: let slot `i` be the lowest-index slot holding `pid` and let the
requested queue equal its current queue type. If `pid` is neither 1 nor 2,
`transfer_process_queue` returns -1 and leaves the table unchanged except
possibly for the `arrive_lcfs_queue_time` of slot `i`; when the requested queue
is not LCFS the whole table is unchanged. If `pid` is 1 or 2 the request is
overridden to RR, and the call returns -1 with the table unchanged when the
current queue type is RR. -/
theorem transfer_process_queue_same (ticks : Nat) (t : List proc) (pid q : Int) (i : Nat)
    (h : lowest_holder t pid i) (hq : (ptable_proc t i).mfq_info.queue_type = q) :
    (pid ≠ 1 → pid ≠ 2 →
      (transfer_process_queue ticks t pid q).1 = -1 ∧
      (∃ v, (transfer_process_queue ticks t pid q).2 = update_slot t i (set_arrive_lcfs v)) ∧
      (q ≠ LCFS → (transfer_process_queue ticks t pid q).2 = t)) ∧
    ((pid = 1 ∨ pid = 2) → q = RR →
      (transfer_process_queue ticks t pid q).1 = -1 ∧
      (transfer_process_queue ticks t pid q).2 = t) := by
  have hself : update_slot t i
      (set_arrive_lcfs (ptable_proc t i).mfq_info.arrive_lcfs_queue_time) = t :=
    update_slot_id rfl
  constructor
  · intro h1 h2
    by_cases hp : pid < 1
    · have : transfer_process_queue ticks t pid q = (-1, t) := by
        simp [transfer_process_queue, hp]
      rw [this]
      exact ⟨rfl, ⟨_, hself.symm⟩, fun _ => rfl⟩
    · rw [transfer_process_queue_found ticks t pid q i h (by omega)]
      have hne : ¬ (pid = 1 ∨ pid = 2) := by
        rintro (h | h)
        · exact h1 h
        · exact h2 h
      simp only [hne, if_false, hq, if_true]
      refine ⟨trivial, ?_, ?_⟩
      · by_cases hl : q = LCFS
        · simp only [hl, if_true]
          exact ⟨_, rfl⟩
        · simp only [hl, if_false]
          exact ⟨_, hself.symm⟩
      · intro hl
        simp only [hl, if_false]
  · intro hp hrr
    rw [transfer_process_queue_found ticks t pid q i h (by omega)]
    have hne : RR ≠ LCFS := by decide
    simp only [hp, if_true, hq, hrr, hne, if_false, and_self]

/-- Witness for C5 (amended): pid 5 in BJF, request BJF. -/
theorem transfer_process_queue_same_witness :
    (transfer_process_queue 7 [pid_proc 5 procstate.RUNNABLE BJF 3] 5 BJF).1 = -1 ∧
    (transfer_process_queue 7 [pid_proc 5 procstate.RUNNABLE BJF 3] 5 BJF).2 =
      [pid_proc 5 procstate.RUNNABLE BJF 3] :=
  ⟨((transfer_process_queue_same 7 [pid_proc 5 procstate.RUNNABLE BJF 3] 5 BJF 0
      (by decide) (by decide)).1 (by decide) (by decide)).1,
   ((transfer_process_queue_same 7 [pid_proc 5 procstate.RUNNABLE BJF 3] 5 BJF 0
      (by decide) (by decide)).1 (by decide) (by decide)).2.2 (by decide)⟩

/-- C6: when `pid` is 1 or 2 and slot `i` is the lowest-index slot holding it,
then whatever queue is requested, after `transfer_process_queue` the queue
type of slot `i` is RR and its `arrive_lcfs_queue_time` is what it was; the
table differs from the old one at most in the queue type of slot `i`. -/
theorem transfer_process_queue_bootstrap (ticks : Nat) (t : List proc) (pid q : Int) (i : Nat)
    (h : lowest_holder t pid i) (hp : pid = 1 ∨ pid = 2) :
    (ptable_proc (transfer_process_queue ticks t pid q).2 i).mfq_info.queue_type = RR ∧
    (ptable_proc (transfer_process_queue ticks t pid q).2 i).mfq_info.arrive_lcfs_queue_time =
      (ptable_proc t i).mfq_info.arrive_lcfs_queue_time ∧
    (transfer_process_queue ticks t pid q).2 = update_slot t i (set_queue_type RR) := by
  have hi := h.1
  have hne : RR ≠ LCFS := by decide
  have htab : (transfer_process_queue ticks t pid q).2 = update_slot t i (set_queue_type RR) := by
    rw [transfer_process_queue_found ticks t pid q i h (by omega)]
    simp only [hp, if_true, hne, if_false]
    by_cases hq : (ptable_proc t i).mfq_info.queue_type = RR
    · simp only [hq, if_true]
      symm
      apply update_slot_id
      simp only [set_queue_type]
      rw [← hq]
    · simp only [hq, if_false]
  rw [htab, ptable_proc_update_same _ hi]
  exact ⟨rfl, rfl, rfl⟩

/-- Witness for C6: pid 2 in queue 0 (fresh from `allocproc`), request LCFS. -/
theorem transfer_process_queue_bootstrap_witness :
    (ptable_proc (transfer_process_queue 7
      [pid_proc 1 procstate.SLEEPING RR 0, pid_proc 2 procstate.RUNNABLE 0 3] 2 LCFS).2
      1).mfq_info.queue_type = RR :=
  (transfer_process_queue_bootstrap 7
    [pid_proc 1 procstate.SLEEPING RR 0, pid_proc 2 procstate.RUNNABLE 0 3] 2 LCFS 1
    (by decide) (by decide)).1

/-! ## `kill` -/

/-- C7: if some slot holds `pid`, `kill` returns 0, and in the lowest-index
slot holding it sets `killed` and turns the state Sleeping into Runnable,
leaving any other state as it is; no other slot changes. If no slot holds
`pid`, `kill` returns -1 and the table is unchanged. -/
theorem kill_spec (t : List proc) (pid : Int) :
    ((∃ j, j < t.length ∧ (ptable_proc t j).pid = pid) →
      ∃ i, lowest_holder t pid i ∧ (kill t pid).1 = 0 ∧
        (kill t pid).2.length = t.length ∧
        ptable_proc (kill t pid).2 i =
          { ptable_proc t i with
            killed := 1,
            state := if (ptable_proc t i).state = procstate.SLEEPING then procstate.RUNNABLE
                     else (ptable_proc t i).state } ∧
        ∀ j, j ≠ i → ptable_proc (kill t pid).2 j = ptable_proc t j) ∧
    ((∀ j, j < t.length → (ptable_proc t j).pid ≠ pid) → kill t pid = (-1, t)) := by
  constructor
  · rintro ⟨j, hj, hpid⟩
    cases hfs : first_slot t.length (fun j => decide ((ptable_proc t j).pid = pid)) with
    | none =>
      exact absurd hpid (no_holder_iff.mpr hfs j hj)
    | some i =>
      have hlow := lowest_holder_iff.mpr hfs
      have hi := hlow.1
      refine ⟨i, hlow, ?_⟩
      unfold kill
      simp only [hfs]
      rw [ptable_proc_update_same _ hi]
      by_cases hs : (ptable_proc t i).state = procstate.SLEEPING
      · simp only [hs, if_true]
        rw [update_slot_twice]
        refine ⟨trivial, length_update_slot _ _ _, ?_, ?_⟩
        · rw [ptable_proc_update_same _ hi]
        · intro j hj
          exact ptable_proc_update_other _ (Ne.symm hj)
      · simp only [hs, if_false]
        refine ⟨trivial, length_update_slot _ _ _, ?_, ?_⟩
        · rw [ptable_proc_update_same _ hi]
        · intro j hj
          exact ptable_proc_update_other _ (Ne.symm hj)
  · intro hno
    unfold kill
    rw [no_holder_iff.mp hno]

/-- Witness for C7: killing pid 4, held by the Sleeping slot 1 and by slot 2. -/
theorem kill_spec_witness :
    ∃ i, lowest_holder
        [pid_proc 3 procstate.RUNNING RR 0, pid_proc 4 procstate.SLEEPING RR 0,
          pid_proc 4 procstate.SLEEPING RR 0] 4 i ∧
      (kill [pid_proc 3 procstate.RUNNING RR 0, pid_proc 4 procstate.SLEEPING RR 0,
          pid_proc 4 procstate.SLEEPING RR 0] 4).1 = 0 :=
  let ⟨i, h1, h2, _⟩ :=
    (kill_spec [pid_proc 3 procstate.RUNNING RR 0, pid_proc 4 procstate.SLEEPING RR 0,
      pid_proc 4 procstate.SLEEPING RR 0] 4).1 ⟨1, by decide, by decide⟩
  ⟨i, h1, h2⟩

/-! ## `wait` -/

/-- The invariant of the scan of `wait` after the slots below `k`. -/
theorem wait_scan_invariant (t : List proc) (curproc k : Nat) :
    (∀ z, ((List.range k).foldl (wait_scan_body t curproc) (none, false)).1 = some z →
      z < k ∧ zombie_child t curproc z ∧ ∀ j, j < z → ¬ zombie_child t curproc j) ∧
    (((List.range k).foldl (wait_scan_body t curproc) (none, false)).1 = none →
      (∀ j, j < k → ¬ zombie_child t curproc j) ∧
      (((List.range k).foldl (wait_scan_body t curproc) (none, false)).2 = true ↔
        ∃ j, j < k ∧ (ptable_proc t j).parent = some curproc)) := by
  induction k with
  | zero => simp
  | succ k ih =>
    rw [List.range_succ, List.foldl_append]
    simp only [List.foldl_cons, List.foldl_nil]
    generalize (List.range k).foldl (wait_scan_body t curproc) (none, false) = acc at ih ⊢
    obtain ⟨found, hk⟩ := acc
    obtain ⟨ih1, ih2⟩ := ih
    simp only at ih1 ih2
    cases found with
    | some z0 =>
      obtain ⟨h1, h2, h3⟩ := ih1 z0 rfl
      simp only [wait_scan_body]
      refine ⟨?_, by simp⟩
      intro z hz
      simp only [Option.some.injEq] at hz
      subst hz
      exact ⟨by omega, h2, h3⟩
    | none =>
      obtain ⟨hno, hkids⟩ := ih2 rfl
      simp only [wait_scan_body]
      by_cases hp : (ptable_proc t k).parent = some curproc
      · by_cases hz : (ptable_proc t k).state = procstate.ZOMBIE
        · simp only [hp, hz, ne_eq, not_true_eq_false, if_false, if_true]
          refine ⟨?_, by simp⟩
          intro z hzz
          simp only [Option.some.injEq] at hzz
          subst hzz
          exact ⟨by omega, ⟨hp, hz⟩, hno⟩
        · simp only [hp, hz, ne_eq, not_true_eq_false, if_false]
          refine ⟨by simp, ?_⟩
          intro _
          refine ⟨?_, ?_⟩
          · intro j hj
            have : j = k ∨ j < k := by omega
            rcases this with rfl | hjk
            · exact fun h => hz h.2
            · exact hno j hjk
          · simp only [true_iff]
            exact ⟨k, by omega, hp⟩
      · simp only [hp, ne_eq, not_false_eq_true, if_true]
        refine ⟨by simp, ?_⟩
        intro _
        refine ⟨?_, ?_⟩
        · intro j hj
          have : j = k ∨ j < k := by omega
          rcases this with rfl | hjk
          · exact fun h => hp h.1
          · exact hno j hjk
        · rw [hkids]
          constructor
          · rintro ⟨j, hj, hpj⟩
            exact ⟨j, by omega, hpj⟩
          · rintro ⟨j, hj, hpj⟩
            have : j = k ∨ j < k := by omega
            rcases this with rfl | hjk
            · exact absurd hpj hp
            · exact ⟨j, hjk, hpj⟩

/-- The scan of `wait` when some child of the caller is a Zombie. -/
theorem wait_scan_found (t : List proc) (curproc : Nat)
    (h : ∃ j, j < t.length ∧ zombie_child t curproc j) :
    ∃ z hk, (List.range t.length).foldl (wait_scan_body t curproc) (none, false) = (some z, hk) ∧
      z < t.length ∧ zombie_child t curproc z ∧ ∀ j, j < z → ¬ zombie_child t curproc j := by
  obtain ⟨inv1, inv2⟩ := wait_scan_invariant t curproc t.length
  generalize (List.range t.length).foldl (wait_scan_body t curproc) (none, false) = acc
    at inv1 inv2
  obtain ⟨found, hk⟩ := acc
  cases found with
  | some z => exact ⟨z, hk, rfl, inv1 z rfl⟩
  | none =>
    obtain ⟨j, hj, hz⟩ := h
    exact absurd hz ((inv2 rfl).1 j hj)

/-- The scan of `wait` when no child of the caller is a Zombie. -/
theorem wait_scan_not_found (t : List proc) (curproc : Nat)
    (h : ∀ j, j < t.length → ¬ zombie_child t curproc j) :
    ∃ hk, (List.range t.length).foldl (wait_scan_body t curproc) (none, false) = (none, hk) ∧
      (hk = true ↔ ∃ j, j < t.length ∧ (ptable_proc t j).parent = some curproc) := by
  obtain ⟨inv1, inv2⟩ := wait_scan_invariant t curproc t.length
  generalize (List.range t.length).foldl (wait_scan_body t curproc) (none, false) = acc
    at inv1 inv2
  obtain ⟨found, hk⟩ := acc
  cases found with
  | some z =>
    obtain ⟨h1, h2, _⟩ := inv1 z rfl
    exact absurd h2 (h z h1)
  | none => exact ⟨hk, rfl, (inv2 rfl).2⟩

theorem cstring_set_zero (name : List Nat) : cstring (name.set 0 0) = [] := by
  cases name with
  | nil => rfl
  | cons c cs => simp [cstring, List.takeWhile]

/-- C8, as stated, fails: in `wait_sample` the caller (slot 0) has its killed
flag set and has Zombie children; `wait` does not return -1 but the pid 4 of
the Zombie in slot 1, and it turns that slot Unused. -/
theorem wait_killed_with_zombie :
    (ptable_proc wait_sample 0).killed ≠ 0 ∧
    (ptable_proc wait_sample 1).state = procstate.ZOMBIE ∧
    (wait wait_sample 0).1 = wait_result.returned 4 ∧
    (ptable_proc (wait wait_sample 0).2 1).state = procstate.UNUSED := by
  decide

/-- C8, amended: if no slot has the caller as its parent, or the caller's
killed flag is set and no child of the caller is a Zombie, `wait` returns -1 in
its first pass, without sleeping and without changing the table. -/
theorem wait_no_children (t : List proc) (curproc : Nat)
    (h : (∀ j, j < t.length → (ptable_proc t j).parent ≠ some curproc) ∨
      ((ptable_proc t curproc).killed ≠ 0 ∧ ∀ j, j < t.length → ¬ zombie_child t curproc j)) :
    wait t curproc = (wait_result.returned (-1), t) := by
  have hnz : ∀ j, j < t.length → ¬ zombie_child t curproc j := by
    rcases h with h | h
    · intro j hj hz
      exact h j hj hz.1
    · exact h.2
  obtain ⟨hk, hscan, hkids⟩ := wait_scan_not_found t curproc hnz
  unfold wait
  rw [hscan]
  simp only
  rcases h with h | h
  · have : hk = false := by
      cases hk with
      | false => rfl
      | true =>
        obtain ⟨j, hj, hp⟩ := hkids.mp rfl
        exact absurd hp (h j hj)
    simp [this]
  · simp [h.1]

/-- Witness for C8 (amended): a caller without children, and a killed caller
whose only child is not a Zombie. -/
theorem wait_no_children_witness :
    wait [pid_proc 3 procstate.RUNNING RR 0, pid_proc 4 procstate.RUNNABLE LCFS 0] 0 =
      (wait_result.returned (-1),
        [pid_proc 3 procstate.RUNNING RR 0, pid_proc 4 procstate.RUNNABLE LCFS 0]) ∧
    wait (wait_sample.take 1 ++ [{ pid_proc 4 procstate.SLEEPING LCFS 0 with parent := some 0 }]) 0 =
      (wait_result.returned (-1),
        wait_sample.take 1 ++ [{ pid_proc 4 procstate.SLEEPING LCFS 0 with parent := some 0 }]) :=
  ⟨wait_no_children _ 0 (Or.inl (by decide)),
   wait_no_children _ 0 (Or.inr (by decide))⟩

/-- C9: if the caller has a Zombie child, the first pass of `wait` returns,
without sleeping, the pid of the lowest-index Zombie child; afterwards that
slot is Unused with pid 0, no parent, an empty name and `killed` cleared, and
every other slot is unchanged. -/
theorem wait_reaps_zombie (t : List proc) (curproc : Nat)
    (h : ∃ j, j < t.length ∧ zombie_child t curproc j) :
    ∃ z, z < t.length ∧ zombie_child t curproc z ∧
      (∀ j, j < z → ¬ zombie_child t curproc j) ∧
      (wait t curproc).1 = wait_result.returned (ptable_proc t z).pid ∧
      (wait t curproc).2.length = t.length ∧
      (ptable_proc (wait t curproc).2 z).state = procstate.UNUSED ∧
      (ptable_proc (wait t curproc).2 z).pid = 0 ∧
      (ptable_proc (wait t curproc).2 z).parent = none ∧
      cstring (ptable_proc (wait t curproc).2 z).name = [] ∧
      (ptable_proc (wait t curproc).2 z).killed = 0 ∧
      ∀ j, j ≠ z → ptable_proc (wait t curproc).2 j = ptable_proc t j := by
  obtain ⟨z, hk, hscan, hz, hzc, hlow⟩ := wait_scan_found t curproc h
  refine ⟨z, hz, hzc, hlow, ?_⟩
  unfold wait
  rw [hscan]
  simp only
  rw [ptable_proc_update_same _ hz]
  refine ⟨trivial, length_update_slot _ _ _, rfl, rfl, rfl, ?_, rfl, ?_⟩
  · exact cstring_set_zero _
  · intro j hj
    exact ptable_proc_update_other _ (Ne.symm hj)

/-- Witness for C9: in `wait_sample` the caller in slot 0 has Zombie children
in slots 1 and 2. -/
theorem wait_reaps_zombie_witness :
    ∃ z, z < wait_sample.length ∧ zombie_child wait_sample 0 z ∧
      (∀ j, j < z → ¬ zombie_child wait_sample 0 j) ∧
      (wait wait_sample 0).1 = wait_result.returned (ptable_proc wait_sample z).pid :=
  let ⟨z, h1, h2, h3, h4, _⟩ := wait_reaps_zombie wait_sample 0 ⟨2, by decide, by decide⟩
  ⟨z, h1, h2, h3, h4⟩

/-! ## `allocproc` and `fork` -/

theorem lowest_unused_iff {t : List proc} {i : Nat} :
    lowest_unused t i ↔
      first_slot t.length (fun j => decide ((ptable_proc t j).state = procstate.UNUSED))
        = some i := by
  rw [first_slot_some]
  simp [lowest_unused]

theorem queue_change_refl (ticks : Nat) (p : proc) : queue_change ticks p p :=
  ⟨p.mfq_info.queue_type, Or.inl rfl⟩

/-- The function `transfer_process_queue` keeps the length of the table and
changes, in any slot, at most the queue type and the LCFS stamp. -/
theorem transfer_process_queue_frame (ticks : Nat) (t : List proc) (pid q : Int) :
    (transfer_process_queue ticks t pid q).2.length = t.length ∧
    ∀ j, queue_change ticks (ptable_proc t j)
      (ptable_proc (transfer_process_queue ticks t pid q).2 j) := by
  by_cases hp : pid < 1
  · have : transfer_process_queue ticks t pid q = (-1, t) := by
      simp [transfer_process_queue, hp]
    rw [this]
    exact ⟨rfl, fun j => queue_change_refl _ _⟩
  · cases hfs : first_slot t.length (fun j => decide ((ptable_proc t j).pid = pid)) with
    | none =>
      have : transfer_process_queue ticks t pid q = (-1, t) := by
        simp [transfer_process_queue, hp, hfs]
      rw [this]
      exact ⟨rfl, fun j => queue_change_refl _ _⟩
    | some i =>
      have hlow := lowest_holder_iff.mpr hfs
      have hi := hlow.1
      rw [transfer_process_queue_found ticks t pid q i hlow (by omega)]
      generalize (if pid = 1 ∨ pid = 2 then RR else q) = nq
      have hframe : ∀ (u : List proc) (f : proc → proc), u.length = t.length →
          (∀ j, j ≠ i → ptable_proc u j = ptable_proc t j) →
          queue_change ticks (ptable_proc t i) (f (ptable_proc u i)) →
          (update_slot u i f).length = t.length ∧
          ∀ j, queue_change ticks (ptable_proc t j) (ptable_proc (update_slot u i f) j) := by
        intro u f hlen hoth hch
        refine ⟨by rw [length_update_slot, hlen], ?_⟩
        intro j
        by_cases hij : i = j
        · subst hij
          rw [ptable_proc_update_same _ (by omega)]
          exact hch
        · rw [ptable_proc_update_other _ hij, hoth j (Ne.symm hij)]
          exact queue_change_refl _ _
      by_cases hl : nq = LCFS
      · simp only [hl, if_true]
        have h1 := hframe t (set_arrive_lcfs (int_of_uint ticks)) rfl (fun _ _ => rfl)
          ⟨(ptable_proc t i).mfq_info.queue_type, Or.inr rfl⟩
        by_cases hq : (ptable_proc t i).mfq_info.queue_type = LCFS
        · simp only [hq, if_true]
          exact h1
        · simp only [hq, if_false]
          rw [update_slot_twice]
          exact hframe t _ rfl (fun _ _ => rfl) ⟨LCFS, Or.inr rfl⟩
      · simp only [hl, if_false]
        by_cases hq : (ptable_proc t i).mfq_info.queue_type = nq
        · simp only [hq, if_true]
          exact ⟨trivial, fun j => queue_change_refl _ _⟩
        · simp only [hq, if_false]
          exact hframe t _ rfl (fun _ _ => rfl) ⟨nq, Or.inl rfl⟩

/-- The table `fork` hands to `transfer_process_queue` when allocation
succeeds: only the child slot differs from the old table. -/
theorem fork_before_transfer (kalloc copyuvm : Nat) (safestrcpy : List Nat → List Nat → List Nat)
    (ticks : Nat) (nextpid : Int) (t : List proc) (curproc np : Nat)
    (hfree : lowest_unused t np) (hk : kalloc ≠ 0) (hc : copyuvm ≠ 0) :
    ∃ t3, fork kalloc copyuvm safestrcpy ticks nextpid t curproc =
        (nextpid, int_wrap (nextpid + 1), (transfer_process_queue ticks t3 nextpid LCFS).2) ∧
      t3.length = t.length ∧
      (∀ j, j ≠ np → ptable_proc t3 j = ptable_proc t j) ∧
      (ptable_proc t3 np).pid = nextpid ∧
      (ptable_proc t3 np).state = procstate.RUNNABLE ∧
      (ptable_proc t3 np).parent = some curproc ∧
      (ptable_proc t3 np).mfq_info.queue_type = 0 ∧
      (ptable_proc t3 np).mfq_info.last_exec_time = int_of_uint ticks ∧
      (ptable_proc t3 np).mfq_info.bjf.arrival_time = int_of_uint ticks ∧
      (ptable_proc t3 np).mfq_info.arrive_lcfs_queue_time = int_of_uint ticks := by
  have hnp := hfree.1
  unfold fork allocproc
  rw [lowest_unused_iff.mp hfree]
  have hsame : ∀ f : proc → proc, ptable_proc (update_slot t np f) np = f (ptable_proc t np) :=
    fun f => ptable_proc_update_same f hnp
  simp only [hk, hc, if_false, update_slot_twice, hsame]
  refine ⟨_, rfl, ?_, ?_, ?_⟩
  · exact length_update_slot _ _ _
  · intro j hj
    exact ptable_proc_update_other _ (Ne.symm hj)
  · rw [ptable_proc_update_same _ hnp]
    exact ⟨rfl, rfl, rfl, rfl, rfl, rfl, rfl⟩

/-- C10, as stated, fails. When `init` (pid 1) forks the first shell the child
gets pid 2 and `transfer_process_queue` overrides LCFS to RR, so the child is
in RR. When a lower slot already holds the pid being assigned (`dup_sample`),
the queue transfer hits that slot and the child stays in queue 0. -/
theorem fork_child_not_lcfs :
    lowest_unused boot_sample 1 ∧
    (fork 1000 2000 copy_name 7 2 boot_sample 0).1 = 2 ∧
    (ptable_proc (fork 1000 2000 copy_name 7 2 boot_sample 0).2.2 1).pid = 2 ∧
    (ptable_proc (fork 1000 2000 copy_name 7 2 boot_sample 0).2.2 1).mfq_info.queue_type = RR ∧
    lowest_unused dup_sample 1 ∧
    (fork 1000 2000 copy_name 7 5 dup_sample 0).1 = 5 ∧
    (ptable_proc (fork 1000 2000 copy_name 7 5 dup_sample 0).2.2 1).mfq_info.queue_type = 0 ∧
    (ptable_proc (fork 1000 2000 copy_name 7 5 dup_sample 0).2.2 0).mfq_info.queue_type = LCFS := by
  decide

/-- C10, amended: when `fork` succeeds (slot `np` is the lowest Unused slot,
`kalloc` and `copyuvm` succeed) it returns the pid it assigned to the child,
which is the previous value of `nextpid`, and afterwards the child slot is
Runnable, its parent is the caller, and its `arrival_time`,
`arrive_lcfs_queue_time` and `last_exec_time` hold the current tick as
converted to `int` (the tick itself while it is below 2^31). If no lower slot
holds the assigned pid, the child's queue type is LCFS when that pid is at
least 3 and RR when it is 1 or 2. -/
theorem fork_spec (kalloc copyuvm : Nat) (safestrcpy : List Nat → List Nat → List Nat)
    (ticks : Nat) (nextpid : Int) (t : List proc) (curproc np : Nat)
    (hfree : lowest_unused t np) (hk : kalloc ≠ 0) (hc : copyuvm ≠ 0) :
    (fork kalloc copyuvm safestrcpy ticks nextpid t curproc).1 = nextpid ∧
    (fork kalloc copyuvm safestrcpy ticks nextpid t curproc).2.1 = int_wrap (nextpid + 1) ∧
    (fork kalloc copyuvm safestrcpy ticks nextpid t curproc).2.2.length = t.length ∧
    (ptable_proc (fork kalloc copyuvm safestrcpy ticks nextpid t curproc).2.2 np).pid = nextpid ∧
    (ptable_proc (fork kalloc copyuvm safestrcpy ticks nextpid t curproc).2.2 np).state =
      procstate.RUNNABLE ∧
    (ptable_proc (fork kalloc copyuvm safestrcpy ticks nextpid t curproc).2.2 np).parent =
      some curproc ∧
    (ptable_proc (fork kalloc copyuvm safestrcpy ticks nextpid t curproc).2.2
      np).mfq_info.bjf.arrival_time = int_of_uint ticks ∧
    (ptable_proc (fork kalloc copyuvm safestrcpy ticks nextpid t curproc).2.2
      np).mfq_info.arrive_lcfs_queue_time = int_of_uint ticks ∧
    (ptable_proc (fork kalloc copyuvm safestrcpy ticks nextpid t curproc).2.2
      np).mfq_info.last_exec_time = int_of_uint ticks ∧
    (ticks < 2147483648 → int_of_uint ticks = (ticks : Int)) ∧
    ((∀ j, j < np → (ptable_proc t j).pid ≠ nextpid) →
      (3 ≤ nextpid →
        (ptable_proc (fork kalloc copyuvm safestrcpy ticks nextpid t curproc).2.2
          np).mfq_info.queue_type = LCFS) ∧
      (nextpid = 1 ∨ nextpid = 2 →
        (ptable_proc (fork kalloc copyuvm safestrcpy ticks nextpid t curproc).2.2
          np).mfq_info.queue_type = RR)) := by
  obtain ⟨t3, hfork, hlen, hother, hpid, hstate, hparent, hqueue, hlast, harrival, hstamp⟩ :=
    fork_before_transfer kalloc copyuvm safestrcpy ticks nextpid t curproc np hfree hk hc
  have hnp : np < t3.length := by rw [hlen]; exact hfree.1
  obtain ⟨hlen', hframe⟩ := transfer_process_queue_frame ticks t3 nextpid LCFS
  rw [hfork]
  simp only
  refine ⟨trivial, trivial, by rw [hlen', hlen], ?_, ?_, ?_, ?_, ?_, ?_, ?_, ?_⟩
  · obtain ⟨q, h | h⟩ := hframe np <;> rw [h] <;> exact hpid
  · obtain ⟨q, h | h⟩ := hframe np <;> rw [h] <;> exact hstate
  · obtain ⟨q, h | h⟩ := hframe np <;> rw [h] <;> exact hparent
  · obtain ⟨q, h | h⟩ := hframe np <;> rw [h] <;> exact harrival
  · obtain ⟨q, h | h⟩ := hframe np
    · rw [h]; exact hstamp
    · rw [h]; rfl
  · obtain ⟨q, h | h⟩ := hframe np <;> rw [h] <;> exact hlast
  · intro hlt
    have : ticks % 4294967296 = ticks := Nat.mod_eq_of_lt (by omega)
    simp [int_of_uint, this, hlt]
  · intro hlow
    have hholder : lowest_holder t3 nextpid np := by
      refine ⟨hnp, hpid, ?_⟩
      intro j hj
      rw [hother j (by omega)]
      exact hlow j hj
    have hq : ∀ nq : Int, (0 : Int) ≠ nq →
        (1 ≤ nextpid) → (if nextpid = 1 ∨ nextpid = 2 then RR else LCFS) = nq →
        (ptable_proc (transfer_process_queue ticks t3 nextpid LCFS).2 np).mfq_info.queue_type
          = nq := by
      intro nq h0 h1 hnq
      rw [transfer_process_queue_found ticks t3 nextpid LCFS np hholder h1, hnq, hqueue]
      simp only [h0, if_false]
      rw [ptable_proc_update_same _ (by
        by_cases hl : nq = LCFS
        · simp only [hl, if_true, length_update_slot]; exact hnp
        · simp only [hl, if_false]; exact hnp)]
      rfl
    constructor
    · intro h3
      apply hq LCFS (by decide) (by omega)
      have : ¬ (nextpid = 1 ∨ nextpid = 2) := by omega
      simp only [this, if_false]
    · intro h12
      apply hq RR (by decide) (by omega)
      simp only [h12, if_true]

/-- Witness for C10 (amended): a process with pid 3 in slot 0 forks at tick 7
with `nextpid = 4`; the child in slot 1 is in LCFS. -/
theorem fork_spec_witness :
    (fork 1000 2000 copy_name 7 4 [pid_proc 3 procstate.RUNNING RR 0, proc_zero] 0).1 = 4 ∧
    (ptable_proc (fork 1000 2000 copy_name 7 4 [pid_proc 3 procstate.RUNNING RR 0, proc_zero]
      0).2.2 1).mfq_info.queue_type = LCFS :=
  ⟨(fork_spec 1000 2000 copy_name 7 4 [pid_proc 3 procstate.RUNNING RR 0, proc_zero] 0 1
      (by decide) (by decide) (by decide)).1,
   ((fork_spec 1000 2000 copy_name 7 4 [pid_proc 3 procstate.RUNNING RR 0, proc_zero] 0 1
      (by decide) (by decide) (by decide)).2.2.2.2.2.2.2.2.2.2 (by decide)).1 (by decide)⟩

/-! ## `wakeup1` -/

theorem ptable_proc_ge {t : List proc} {i : Nat} (h : t.length ≤ i) :
    ptable_proc t i = proc_zero := by
  simp [ptable_proc, List.getD, List.getElem?_eq_none h]

theorem length_wakeup1 (t : List proc) (chan : Chan) : (wakeup1 t chan).length = t.length := by
  simp [wakeup1]

theorem ptable_proc_wakeup1 (t : List proc) (chan : Chan) (j : Nat) :
    ptable_proc (wakeup1 t chan) j = wake chan (ptable_proc t j) := by
  by_cases hj : j < t.length
  · have hj' : j < (wakeup1 t chan).length := by rw [length_wakeup1]; exact hj
    rw [ptable_proc_lt hj', ptable_proc_lt hj]
    simp [wakeup1]
  · rw [ptable_proc_ge (by rw [length_wakeup1]; omega), ptable_proc_ge (by omega)]
    rfl

/-- C19: `wakeup1(chan)` keeps the number of slots, turns every slot that is
Sleeping with channel `chan` into the same slot with state Runnable, and
leaves every other slot exactly as it was; in particular no pid, parent,
channel, killed flag or scheduling field is modified. -/
theorem wakeup1_spec (t : List proc) (chan : Chan) (j : Nat) :
    (wakeup1 t chan).length = t.length ∧
    ptable_proc (wakeup1 t chan) j =
      (if (ptable_proc t j).state = procstate.SLEEPING ∧ (ptable_proc t j).chan = chan then
        { ptable_proc t j with state := procstate.RUNNABLE }
      else ptable_proc t j) ∧
    (ptable_proc (wakeup1 t chan) j).pid = (ptable_proc t j).pid ∧
    (ptable_proc (wakeup1 t chan) j).parent = (ptable_proc t j).parent ∧
    (ptable_proc (wakeup1 t chan) j).chan = (ptable_proc t j).chan ∧
    (ptable_proc (wakeup1 t chan) j).killed = (ptable_proc t j).killed ∧
    (ptable_proc (wakeup1 t chan) j).mfq_info = (ptable_proc t j).mfq_info := by
  refine ⟨length_wakeup1 t chan, ?_, ?_⟩
  · rw [ptable_proc_wakeup1]; rfl
  · rw [ptable_proc_wakeup1]
    unfold wake
    split <;> exact ⟨rfl, rfl, rfl, rfl, rfl⟩

/-! ## `transfer_process_queue` on ordinary pids, `kill` on a pid no live process has -/

/-- C17: for `pid ≥ 3`, if the lowest-index slot holding `pid` has a queue type
other than the requested one, `transfer_process_queue` returns that queue
type, sets the slot's queue type to the requested queue, stamps its
`arrive_lcfs_queue_time` with the current tick when the requested queue is
LCFS and leaves it alone otherwise, and changes nothing else; if no slot holds
`pid` it returns -1 and the table is unchanged. -/
theorem transfer_process_queue_moves (ticks : Nat) (t : List proc) (pid q : Int)
    (h3 : 3 ≤ pid) :
    (∀ i, lowest_holder t pid i → (ptable_proc t i).mfq_info.queue_type ≠ q →
      (transfer_process_queue ticks t pid q).1 = (ptable_proc t i).mfq_info.queue_type ∧
      (transfer_process_queue ticks t pid q).2 =
        update_slot t i (fun p =>
          set_queue_type q (if q = LCFS then set_arrive_lcfs (int_of_uint ticks) p else p)) ∧
      (ptable_proc (transfer_process_queue ticks t pid q).2 i).mfq_info.queue_type = q ∧
      (ptable_proc (transfer_process_queue ticks t pid q).2 i).mfq_info.arrive_lcfs_queue_time =
        (if q = LCFS then int_of_uint ticks
          else (ptable_proc t i).mfq_info.arrive_lcfs_queue_time) ∧
      (∀ j, j ≠ i → ptable_proc (transfer_process_queue ticks t pid q).2 j = ptable_proc t j)) ∧
    ((∀ j, j < t.length → (ptable_proc t j).pid ≠ pid) →
      transfer_process_queue ticks t pid q = (-1, t)) := by
  constructor
  · intro i hlow hq
    have hi := hlow.1
    have hne : ¬ (pid = 1 ∨ pid = 2) := by omega
    have htab : transfer_process_queue ticks t pid q =
        ((ptable_proc t i).mfq_info.queue_type, update_slot t i (fun p =>
          set_queue_type q (if q = LCFS then set_arrive_lcfs (int_of_uint ticks) p else p))) := by
      rw [transfer_process_queue_found ticks t pid q i hlow (by omega)]
      simp only [hne, if_false, hq]
      by_cases hl : q = LCFS
      · simp only [hl, if_true]
        rw [update_slot_twice]
      · simp only [hl, if_false]
    rw [htab]
    simp only
    rw [ptable_proc_update_same _ hi]
    refine ⟨trivial, trivial, rfl, ?_, ?_⟩
    · by_cases hl : q = LCFS
      · simp only [hl, if_true]; rfl
      · simp only [hl, if_false]; rfl
    · intro j hj
      exact ptable_proc_update_other _ (Ne.symm hj)
  · intro hno
    unfold transfer_process_queue
    have hp : ¬ pid < 1 := by omega
    simp only [hp, if_false]
    rw [no_holder_iff.mp hno]

/-- Witness for C17: pid 5 in BJF is moved to LCFS at tick 7. -/
theorem transfer_process_queue_moves_witness :
    (transfer_process_queue 7 [pid_proc 5 procstate.RUNNABLE BJF 3] 5 LCFS).1 = BJF ∧
    (ptable_proc (transfer_process_queue 7 [pid_proc 5 procstate.RUNNABLE BJF 3] 5 LCFS).2
      0).mfq_info.arrive_lcfs_queue_time = 7 :=
  ⟨((transfer_process_queue_moves 7 [pid_proc 5 procstate.RUNNABLE BJF 3] 5 LCFS
      (by decide)).1 0 (by decide) (by decide)).1,
   ((transfer_process_queue_moves 7 [pid_proc 5 procstate.RUNNABLE BJF 3] 5 LCFS
      (by decide)).1 0 (by decide) (by decide)).2.2.2.1⟩

/-- C18 does not hold of the code: `kill` matches the pid of every slot,
whatever its state. In the table at boot, and in `kill_sample` after
`userinit`, no live process has pid 0, yet `kill(0)` returns 0 and sets the
killed flag of the first Unused slot, where `transfer_process_queue` refuses
a pid below 1. `allocproc` does not clear the flag: the child that the next
`fork` puts in that slot (pid 2) starts Runnable with `killed` set, and only
`wait` clears it when it frees a slot. The pid 1 left in an Unused slot by a
failed `allocproc` is hit by `kill(1)` in the same way. -/
theorem kill_hits_unused_slot :
    (∀ j, j < (boot_state 2).ptable.length →
      (ptable_proc (boot_state 2).ptable j).state = procstate.UNUSED) ∧
    (kill (boot_state 2).ptable 0).1 = 0 ∧
    (ptable_proc (boot_state 2).ptable 0).killed = 0 ∧
    (ptable_proc (kill (boot_state 2).ptable 0).2 0).killed = 1 ∧
    (∀ j, j < kill_sample.ptable.length →
      (ptable_proc kill_sample.ptable j).state ≠ procstate.UNUSED →
      (ptable_proc kill_sample.ptable j).pid ≠ 0) ∧
    (ptable_proc kill_sample.ptable 1).state = procstate.UNUSED ∧
    (kill kill_sample.ptable 0).1 = 0 ∧
    (ptable_proc (kill kill_sample.ptable 0).2 1).killed = 1 ∧
    transfer_process_queue 5 kill_sample.ptable 0 LCFS = (-1, kill_sample.ptable) ∧
    (ptable_proc (step (step kill_sample (kernel_op.kill 0))
      (kernel_op.fork 1000 2000 copy_name 7 0)).ptable 1).state = procstate.RUNNABLE ∧
    (ptable_proc (step (step kill_sample (kernel_op.kill 0))
      (kernel_op.fork 1000 2000 copy_name 7 0)).ptable 1).pid = 2 ∧
    (ptable_proc (step (step kill_sample (kernel_op.kill 0))
      (kernel_op.fork 1000 2000 copy_name 7 0)).ptable 1).killed = 1 ∧
    (ptable_proc (step (boot_state 2) (kernel_op.allocproc 0)).ptable 0).state
      = procstate.UNUSED ∧
    (kill (step (boot_state 2) (kernel_op.allocproc 0)).ptable 1).1 = 0 ∧
    (ptable_proc (kill (step (boot_state 2) (kernel_op.allocproc 0)).ptable 1).2 0).killed
      = 1 := by
  decide

/-- C11 does not hold of the code: from the table at boot, an `allocproc` whose
`kalloc` fails leaves slot 0 Unused with pid 1, and a `fork` whose `copyuvm`
fails leaves the slot it took Unused with the pid it was given; both states
are reachable. -/
theorem unused_slot_keeps_pid :
    reachable lifecycle_op 2 (step (boot_state 2) (kernel_op.allocproc 0)) ∧
    (ptable_proc (step (boot_state 2) (kernel_op.allocproc 0)).ptable 0).state
      = procstate.UNUSED ∧
    (ptable_proc (step (boot_state 2) (kernel_op.allocproc 0)).ptable 0).pid = 1 ∧
    reachable lifecycle_op 2
      (step (step (boot_state 2) (kernel_op.allocproc 1000))
        (kernel_op.fork 1000 0 copy_name 7 0)) ∧
    (ptable_proc (step (step (boot_state 2) (kernel_op.allocproc 1000))
        (kernel_op.fork 1000 0 copy_name 7 0)).ptable 1).state = procstate.UNUSED ∧
    (ptable_proc (step (step (boot_state 2) (kernel_op.allocproc 1000))
        (kernel_op.fork 1000 0 copy_name 7 0)).ptable 1).pid = 2 := by
  refine ⟨?_, by decide, by decide, ?_, by decide, by decide⟩
  · exact reachable.step _ _ reachable.boot trivial (by decide)
  · refine reachable.step _ _ (reachable.step _ _ reachable.boot trivial (by decide)) trivial ?_
    decide

/-! ## `exit` -/

theorem ptable_proc_update (t : List proc) (i j : Nat) (f : proc → proc) (hi : i < t.length) :
    ptable_proc (update_slot t i f) j = if j = i then f (ptable_proc t i) else ptable_proc t j := by
  by_cases h : j = i
  · subst h
    simp only [if_true]
    exact ptable_proc_update_same f hi
  · simp only [h, if_false]
    exact ptable_proc_update_other f (Ne.symm h)

/-- The reparenting loop of `exit` after `k` iterations. -/
theorem exit_loop_invariant (initproc : Option Nat) (t1 : List proc) (curproc k : Nat) :
    ((List.range k).foldl (exit_reparent_body curproc initproc) t1).length = t1.length ∧
    ∀ j, ptable_proc ((List.range k).foldl (exit_reparent_body curproc initproc) t1) j =
      exit_loop_slot initproc t1 curproc k j := by
  induction k with
  | zero =>
    refine ⟨rfl, fun j => ?_⟩
    simp [exit_loop_slot]
  | succ k ih =>
    rw [List.range_succ, List.foldl_append]
    simp only [List.foldl_cons, List.foldl_nil]
    generalize (List.range k).foldl (exit_reparent_body curproc initproc) t1 = T at ih ⊢
    obtain ⟨hlen, hslot⟩ := ih
    have hpk : (ptable_proc T k).parent = (ptable_proc t1 k).parent := by
      rw [hslot k]; simp [exit_loop_slot]
    unfold exit_reparent_body
    rw [hpk]
    by_cases hp : (ptable_proc t1 k).parent = some curproc
    · have hk : k < T.length := by
        by_contra hge
        rw [hlen] at hge
        rw [ptable_proc_ge (by omega)] at hp
        simp [proc_zero] at hp
      simp only [hp, if_true]
      rw [ptable_proc_update_same _ hk]
      have hstk : (ptable_proc T k).state = procstate.ZOMBIE ↔
          (ptable_proc t1 k).state = procstate.ZOMBIE := by
        rw [hslot k]
        simp only [exit_loop_slot]
        split
        · rename_i h; simp [h.2.1]
        · rfl
      by_cases hz : (ptable_proc t1 k).state = procstate.ZOMBIE
      · have hW : ∃ c, c < k + 1 ∧ zombie_child t1 curproc c := ⟨k, by omega, hp, hz⟩
        simp only [hstk.mpr hz, if_true]
        refine ⟨by rw [length_wakeup1, length_update_slot, hlen], fun j => ?_⟩
        rw [ptable_proc_wakeup1, ptable_proc_update _ _ _ _ hk]
        by_cases hj : j = k
        · subst hj
          rw [hslot j]
          simp [exit_loop_slot, wake, hp, hz, hW]
        · simp only [hj, if_false]
          rw [hslot j]
          have hlt : (j < k + 1 ∧ (ptable_proc t1 j).parent = some curproc) ↔
              (j < k ∧ (ptable_proc t1 j).parent = some curproc) := by
            constructor
            · rintro ⟨h1, h2⟩; exact ⟨by omega, h2⟩
            · rintro ⟨h1, h2⟩; exact ⟨by omega, h2⟩
          simp only [exit_loop_slot, wake, hlt, hW, true_and]
          by_cases hS : (ptable_proc t1 j).state = procstate.SLEEPING ∧
              (ptable_proc t1 j).chan = chan_of_ptr initproc
          · by_cases hWk : ∃ c, c < k ∧ zombie_child t1 curproc c
            · simp [hS, hWk]
            · simp [hS, hWk]
          · by_cases hWk : ∃ c, c < k ∧ zombie_child t1 curproc c
            · simp [hS, hWk]
            · simp [hS, hWk]
      · have hW : (∃ c, c < k + 1 ∧ zombie_child t1 curproc c) ↔
            (∃ c, c < k ∧ zombie_child t1 curproc c) := by
          constructor
          · rintro ⟨c, hc, hzc⟩
            have : c ≠ k := fun h => hz (h ▸ hzc.2)
            exact ⟨c, by omega, hzc⟩
          · rintro ⟨c, hc, hzc⟩; exact ⟨c, by omega, hzc⟩
        have hnz : ¬ (ptable_proc T k).state = procstate.ZOMBIE := fun h => hz (hstk.mp h)
        simp only [hnz, if_false]
        refine ⟨by rw [length_update_slot, hlen], fun j => ?_⟩
        rw [ptable_proc_update _ _ _ _ hk]
        by_cases hj : j = k
        · subst hj
          rw [hslot j]
          simp [exit_loop_slot, hp, hW]
        · simp only [hj, if_false]
          rw [hslot j]
          have hlt : (j < k + 1 ∧ (ptable_proc t1 j).parent = some curproc) ↔
              (j < k ∧ (ptable_proc t1 j).parent = some curproc) := by
            constructor
            · rintro ⟨h1, h2⟩; exact ⟨by omega, h2⟩
            · rintro ⟨h1, h2⟩; exact ⟨by omega, h2⟩
          simp only [exit_loop_slot, hlt, hW]
    · simp only [hp, if_false]
      refine ⟨hlen, fun j => ?_⟩
      rw [hslot j]
      have hlt : (j < k + 1 ∧ (ptable_proc t1 j).parent = some curproc) ↔
          (j < k ∧ (ptable_proc t1 j).parent = some curproc) := by
        constructor
        · rintro ⟨h1, h2⟩
          have : j ≠ k := fun h => hp (h ▸ h2)
          exact ⟨by omega, h2⟩
        · rintro ⟨h1, h2⟩; exact ⟨by omega, h2⟩
      have hW : (∃ c, c < k + 1 ∧ zombie_child t1 curproc c) ↔
          (∃ c, c < k ∧ zombie_child t1 curproc c) := by
        constructor
        · rintro ⟨c, hc, hzc⟩
          have : c ≠ k := fun h => hp (h ▸ hzc.1)
          exact ⟨c, by omega, hzc⟩
        · rintro ⟨c, hc, hzc⟩; exact ⟨c, by omega, hzc⟩
      simp only [exit_loop_slot, hlt, hW]

theorem wake_fields (chan : Chan) (p : proc) :
    (wake chan p).parent = p.parent ∧ (wake chan p).chan = p.chan ∧
    (wake chan p).pid = p.pid ∧
    ((wake chan p).state = procstate.ZOMBIE ↔ p.state = procstate.ZOMBIE) ∧
    (wake chan p).state =
      (if p.state = procstate.SLEEPING ∧ p.chan = chan then procstate.RUNNABLE else p.state) := by
  unfold wake
  split
  · rename_i h
    simp [h.1]
  · simp

/-- The table `exit` leaves, slot by slot: only `state` and `parent` fields
change, as `exit_state` and `exit_parent` say. -/
theorem exit_eq (initproc : Option Nat) (t : List proc) (curproc : Nat)
    (hcur : curproc < t.length) (hroot : initproc ≠ some curproc) :
    ∃ t', exit initproc t curproc = some t' ∧ t'.length = t.length ∧
      ∀ j, ptable_proc t' j =
        { ptable_proc t j with
          state := exit_state initproc t curproc j,
          parent := exit_parent initproc t curproc j } := by
  have hroot' : ¬ (some curproc = initproc) := fun h => hroot h.symm
  unfold exit
  simp only [hroot', if_false]
  obtain ⟨hlen, hslot⟩ := exit_loop_invariant initproc
    (wakeup1 t (chan_of_ptr (ptable_proc t curproc).parent)) curproc
    (wakeup1 t (chan_of_ptr (ptable_proc t curproc).parent)).length
  generalize hT : (List.range (wakeup1 t (chan_of_ptr (ptable_proc t curproc).parent)).length).foldl
    (exit_reparent_body curproc initproc)
    (wakeup1 t (chan_of_ptr (ptable_proc t curproc).parent)) = T at hlen hslot
  rw [length_wakeup1] at hlen
  have hcurT : curproc < T.length := by rw [hlen]; exact hcur
  refine ⟨_, rfl, by rw [length_update_slot, hlen], fun j => ?_⟩
  rw [ptable_proc_update _ _ _ _ hcurT, hslot j, hslot curproc]
  have hzc : ∀ c, zombie_child (wakeup1 t (chan_of_ptr (ptable_proc t curproc).parent)) curproc c ↔
      zombie_child t curproc c := by
    intro c
    unfold zombie_child
    rw [ptable_proc_wakeup1]
    obtain ⟨h1, _, _, h4, _⟩ := wake_fields (chan_of_ptr (ptable_proc t curproc).parent)
      (ptable_proc t c)
    rw [h1, h4]
  have hW : (∃ c, c < (wakeup1 t (chan_of_ptr (ptable_proc t curproc).parent)).length ∧
      zombie_child (wakeup1 t (chan_of_ptr (ptable_proc t curproc).parent)) curproc c) ↔
      has_zombie_child t curproc := by
    unfold has_zombie_child
    rw [length_wakeup1]
    constructor
    · rintro ⟨c, hc, h⟩; exact ⟨c, hc, (hzc c).mp h⟩
    · rintro ⟨c, hc, h⟩; exact ⟨c, hc, (hzc c).mpr h⟩
  have hpar : ∀ i, (i < (wakeup1 t (chan_of_ptr (ptable_proc t curproc).parent)).length ∧
      (ptable_proc t i).parent = some curproc) ↔ (ptable_proc t i).parent = some curproc := by
    intro i
    rw [length_wakeup1]
    constructor
    · exact fun h => h.2
    · intro h
      refine ⟨?_, h⟩
      by_contra hge
      rw [ptable_proc_ge (by omega)] at h
      simp [proc_zero] at h
  obtain ⟨w1, w2, _, _, w5⟩ := wake_fields (chan_of_ptr (ptable_proc t curproc).parent)
    (ptable_proc t j)
  have hparent : (if j < (wakeup1 t (chan_of_ptr (ptable_proc t curproc).parent)).length ∧
        (wake (chan_of_ptr (ptable_proc t curproc).parent) (ptable_proc t j)).parent = some curproc
      then initproc
      else (wake (chan_of_ptr (ptable_proc t curproc).parent) (ptable_proc t j)).parent) =
      exit_parent initproc t curproc j := by
    rw [w1]
    unfold exit_parent
    by_cases h : (ptable_proc t j).parent = some curproc
    · simp only [(hpar j).mpr h, h, and_self, if_true]
    · simp only [h, and_false, if_false]
  have hstate : j ≠ curproc →
      (if (∃ c, c < (wakeup1 t (chan_of_ptr (ptable_proc t curproc).parent)).length ∧
          zombie_child (wakeup1 t (chan_of_ptr (ptable_proc t curproc).parent)) curproc c) ∧
          (wake (chan_of_ptr (ptable_proc t curproc).parent) (ptable_proc t j)).state =
            procstate.SLEEPING ∧
          (wake (chan_of_ptr (ptable_proc t curproc).parent) (ptable_proc t j)).chan =
            chan_of_ptr initproc then procstate.RUNNABLE
      else (wake (chan_of_ptr (ptable_proc t curproc).parent) (ptable_proc t j)).state) =
      exit_state initproc t curproc j := by
    intro hj
    simp only [w2, w5, hW]
    unfold exit_state
    simp only [hj, if_false]
    by_cases hs : (ptable_proc t j).state = procstate.SLEEPING
    · by_cases hc : (ptable_proc t j).chan = chan_of_ptr (ptable_proc t curproc).parent
      · simp [hs, hc]
      · by_cases hz : has_zombie_child t curproc
        · by_cases hi : (ptable_proc t j).chan = chan_of_ptr initproc
          · simp [hs, hc, hz, hi]
          · simp [hs, hc, hz, hi]
        · simp [hs, hc, hz]
    · simp [hs]
  have hrec : ∀ (A : Option Nat) (B : procstate),
      ({ wake (chan_of_ptr (ptable_proc t curproc).parent) (ptable_proc t j) with
          parent := A, state := B } : proc) =
        { ptable_proc t j with state := B, parent := A } := by
    intro A B
    unfold wake
    split <;> rfl
  by_cases hj : j = curproc
  · subst hj
    simp only [if_true]
    unfold exit_loop_slot
    rw [ptable_proc_wakeup1]
    simp only
    rw [hparent]
    have hz : exit_state initproc t j j = procstate.ZOMBIE := by simp [exit_state]
    rw [hz]
    exact hrec _ _
  · simp only [hj, if_false]
    unfold exit_loop_slot
    rw [ptable_proc_wakeup1, hparent, hstate hj]
    exact hrec _ _

/-- C15, as stated, fails: in `exit_sample` the caller (slot 1) has a Zombie
child, so `exit` calls `wakeup1(initproc)`, which wakes every process sleeping
on the address of the root. Slot 3 is such a process: it is neither the
caller nor the root, it is not sleeping on the channel of the caller's parent
(slot 4), and yet its state changes from Sleeping to Runnable. -/
theorem exit_wakes_bystander :
    (ptable_proc exit_sample 3).state = procstate.SLEEPING ∧
    (ptable_proc exit_sample 3).chan ≠ chan_of_ptr (ptable_proc exit_sample 1).parent ∧
    (exit (some 0) exit_sample 1).map (fun t' => (ptable_proc t' 3).state)
      = some procstate.RUNNABLE := by
  decide

/-- C15, amended: for a caller other than the root, `exit` leaves a table in
which the caller is a Zombie; every slot whose parent was the caller has the
root as parent and no slot has the caller as parent; every other process that
was Sleeping on the channel of the caller's parent is Runnable; if some
reparented child is a Zombie, every other process that was Sleeping on the
address of the root, the root itself in particular, is Runnable; no pid
changes, no other parent and no other state changes, and every other field of
every slot is as it was. -/
theorem exit_spec (initproc : Option Nat) (t : List proc) (curproc : Nat)
    (hcur : curproc < t.length) (hroot : initproc ≠ some curproc) :
    ∃ t', exit initproc t curproc = some t' ∧ t'.length = t.length ∧
      (ptable_proc t' curproc).state = procstate.ZOMBIE ∧
      (∀ j, (ptable_proc t j).parent = some curproc → (ptable_proc t' j).parent = initproc) ∧
      (∀ j, (ptable_proc t' j).parent ≠ some curproc) ∧
      (∀ j, j ≠ curproc → (ptable_proc t j).state = procstate.SLEEPING →
        (ptable_proc t j).chan = chan_of_ptr (ptable_proc t curproc).parent →
        (ptable_proc t' j).state = procstate.RUNNABLE) ∧
      (∀ j, j ≠ curproc → (ptable_proc t j).state = procstate.SLEEPING →
        (ptable_proc t j).chan = chan_of_ptr initproc → has_zombie_child t curproc →
        (ptable_proc t' j).state = procstate.RUNNABLE) ∧
      (∀ r, initproc = some r → (ptable_proc t r).state = procstate.SLEEPING →
        (ptable_proc t r).chan = Chan.slot r → has_zombie_child t curproc →
        (ptable_proc t' r).state = procstate.RUNNABLE) ∧
      (∀ j, (ptable_proc t' j).pid = (ptable_proc t j).pid) ∧
      (∀ j, (ptable_proc t j).parent ≠ some curproc →
        (ptable_proc t' j).parent = (ptable_proc t j).parent) ∧
      (∀ j, j ≠ curproc →
        ¬ ((ptable_proc t j).state = procstate.SLEEPING ∧
          ((ptable_proc t j).chan = chan_of_ptr (ptable_proc t curproc).parent ∨
            ((ptable_proc t j).chan = chan_of_ptr initproc ∧ has_zombie_child t curproc))) →
        (ptable_proc t' j).state = (ptable_proc t j).state) ∧
      (∀ j, ptable_proc t' j =
        { ptable_proc t j with
          state := (ptable_proc t' j).state, parent := (ptable_proc t' j).parent }) := by
  obtain ⟨t', hexit, hlen, hslot⟩ := exit_eq initproc t curproc hcur hroot
  have hst : ∀ j, (ptable_proc t' j).state = exit_state initproc t curproc j := by
    intro j; rw [hslot j]
  have hpa : ∀ j, (ptable_proc t' j).parent = exit_parent initproc t curproc j := by
    intro j; rw [hslot j]
  have hwake : ∀ j, j ≠ curproc → (ptable_proc t j).state = procstate.SLEEPING →
      (ptable_proc t j).chan = chan_of_ptr initproc → has_zombie_child t curproc →
      (ptable_proc t' j).state = procstate.RUNNABLE := by
    intro j hj hs hc hz
    rw [hst j]
    simp [exit_state, hj, hs, hc, hz]
  refine ⟨t', hexit, hlen, ?_, ?_, ?_, ?_, hwake, ?_, ?_, ?_, ?_, ?_⟩
  · rw [hst]; simp [exit_state]
  · intro j hp
    rw [hpa]; simp [exit_parent, hp]
  · intro j
    rw [hpa]
    unfold exit_parent
    split
    · exact hroot
    · assumption
  · intro j hj hs hc
    rw [hst j]
    simp [exit_state, hj, hs, hc]
  · intro r hr hs hc hz
    have hrc : r ≠ curproc := by
      rintro rfl
      exact hroot hr
    exact hwake r hrc hs (by rw [hr]; exact hc) hz
  · intro j; rw [hslot j]
  · intro j hp
    rw [hpa]; simp [exit_parent, hp]
  · intro j hj hn
    rw [hst j]
    simp only [exit_state, hj, if_false, hn]
  · intro j
    rw [hst, hpa]
    exact hslot j

/-- Witness for C15 (amended): `exit` of the caller in slot 1 of `exit_sample`
with the root in slot 0. -/
theorem exit_spec_witness :
    ∃ t', exit (some 0) exit_sample 1 = some t' ∧ t'.length = exit_sample.length ∧
      (ptable_proc t' 1).state = procstate.ZOMBIE :=
  let ⟨t', h1, h2, h3, _⟩ := exit_spec (some 0) exit_sample 1 (by decide) (by decide)
  ⟨t', h1, h2, h3⟩

/-! ## `ageproc` -/

/-- The loop of `ageproc` after `k` iterations, when no two slots share a
positive pid. -/
theorem ageproc_invariant (now : Nat) (ticks : Int) (t : List proc)
    (huniq : unique_positive_pids t) (k : Nat) :
    ((List.range k).foldl (ageproc_body now ticks) t).length = t.length ∧
    ∀ j, ptable_proc ((List.range k).foldl (ageproc_body now ticks) t) j =
      ageproc_slot ticks t k j := by
  induction k with
  | zero =>
    refine ⟨rfl, fun j => ?_⟩
    simp [ageproc_slot]
  | succ k ih =>
    rw [List.range_succ, List.foldl_append]
    simp only [List.foldl_cons, List.foldl_nil]
    generalize (List.range k).foldl (ageproc_body now ticks) t = T at ih ⊢
    obtain ⟨hlen, hslot⟩ := ih
    have hTk : ptable_proc T k = ptable_proc t k := by
      rw [hslot k]; simp [ageproc_slot]
    have hpid : ∀ j, (ptable_proc T j).pid = (ptable_proc t j).pid := by
      intro j
      rw [hslot j]
      unfold ageproc_slot
      split <;> rfl
    unfold ageproc_body
    rw [hTk]
    by_cases hst : starved ticks (ptable_proc t k) ∧ 1 ≤ (ptable_proc t k).pid
    · obtain ⟨⟨hs1, hs2, hs3⟩, hp⟩ := hst
      have hk : k < t.length := by
        by_contra hge
        rw [ptable_proc_ge (by omega)] at hs1
        simp [proc_zero] at hs1
      have hlow : lowest_holder T (ptable_proc t k).pid k := by
        refine ⟨by rw [hlen]; exact hk, hpid k, ?_⟩
        intro j hj
        rw [hpid j]
        exact fun h => huniq k hk j (by omega) (by omega) hp h.symm
      have hcond : (ptable_proc t k).state = procstate.RUNNABLE ∧
          (ptable_proc t k).mfq_info.queue_type ≠ RR := ⟨hs1, hs2⟩
      have hne : RR ≠ LCFS := by decide
      have htr : (transfer_process_queue now T (ptable_proc t k).pid RR).2 =
          update_slot T k (set_queue_type RR) := by
        rw [transfer_process_queue_found now T _ RR k hlow hp]
        have hnq : (if (ptable_proc t k).pid = 1 ∨ (ptable_proc t k).pid = 2 then RR else RR)
            = RR := by
          split <;> rfl
        rw [hnq, hTk, if_neg hs2, if_neg hne]
      rw [if_pos hcond, if_pos hs3, htr]
      refine ⟨by rw [length_update_slot, hlen], fun j => ?_⟩
      rw [ptable_proc_update _ _ _ _ (by rw [hlen]; exact hk)]
      by_cases hj : j = k
      · subst hj
        simp only [if_true, hTk, ageproc_slot]
        have : j < j + 1 ∧ starved ticks (ptable_proc t j) ∧ 1 ≤ (ptable_proc t j).pid :=
          ⟨by omega, ⟨hs1, hs2, hs3⟩, hp⟩
        simp only [this, and_self, if_true]
      · simp only [hj, if_false]
        rw [hslot j]
        unfold ageproc_slot
        have hlt : (j < k + 1 ∧ starved ticks (ptable_proc t j) ∧ 1 ≤ (ptable_proc t j).pid) ↔
            (j < k ∧ starved ticks (ptable_proc t j) ∧ 1 ≤ (ptable_proc t j).pid) := by
          constructor
          · rintro ⟨h1, h2⟩; exact ⟨by omega, h2⟩
          · rintro ⟨h1, h2⟩; exact ⟨by omega, h2⟩
        simp only [hlt]
    · have hsame : (if (ptable_proc t k).state = procstate.RUNNABLE ∧
            (ptable_proc t k).mfq_info.queue_type ≠ RR then
          if WAITING_CYCLES_THRESHOLD < int_sub ticks (ptable_proc t k).mfq_info.last_exec_time then
            (transfer_process_queue now T (ptable_proc t k).pid RR).2
          else T
        else T) = T := by
        by_cases hc : (ptable_proc t k).state = procstate.RUNNABLE ∧
            (ptable_proc t k).mfq_info.queue_type ≠ RR
        · rw [if_pos hc]
          by_cases hw : WAITING_CYCLES_THRESHOLD <
              int_sub ticks (ptable_proc t k).mfq_info.last_exec_time
          · rw [if_pos hw]
            have hp : (ptable_proc t k).pid < 1 := by
              by_contra hge
              exact hst ⟨⟨hc.1, hc.2, hw⟩, by omega⟩
            have : transfer_process_queue now T (ptable_proc t k).pid RR = (-1, T) := by
              simp [transfer_process_queue, hp]
            rw [this]
          · rw [if_neg hw]
        · rw [if_neg hc]
      rw [hsame]
      refine ⟨hlen, fun j => ?_⟩
      rw [hslot j]
      unfold ageproc_slot
      have hlt : (j < k + 1 ∧ starved ticks (ptable_proc t j) ∧ 1 ≤ (ptable_proc t j).pid) ↔
          (j < k ∧ starved ticks (ptable_proc t j) ∧ 1 ≤ (ptable_proc t j).pid) := by
        constructor
        · rintro ⟨h1, h2⟩
          have : j ≠ k := fun h => hst (h ▸ h2)
          exact ⟨by omega, h2⟩
        · rintro ⟨h1, h2⟩; exact ⟨by omega, h2⟩
      simp only [hlt]

/-- C13, as stated, fails: `age_sample` has no two slots sharing a positive
pid; its slot 0 is Runnable, in BJF, has waited 9000 ticks at tick 9000, and
has pid 0. `transfer_process_queue` returns at once for a pid below 1, so the
slot is still in BJF after `ageproc(9000)`. -/
theorem ageproc_skips_pid_zero :
    unique_positive_pids age_sample ∧
    starved 9000 (ptable_proc age_sample 0) ∧
    9000 - (ptable_proc age_sample 0).mfq_info.last_exec_time > 8000 ∧
    (ptable_proc (ageproc 9000 9000 age_sample) 0).mfq_info.queue_type = BJF := by
  decide

/-- C13, amended: when no two slots share a positive pid, after `ageproc(t)`
every slot that was Runnable, not in RR, had `t - last_exec_time` (as the
32-bit `int` subtraction computes it) above 8000 and has a pid of at least 1 is
in RR, with no other field changed; every other slot, among them every slot
that was not Runnable, was already in RR or had waited at most 8000, is
unchanged. The `int` subtraction is the exact difference whenever that fits in
32 bits. -/
theorem ageproc_spec (now : Nat) (ticks : Int) (t : List proc)
    (huniq : unique_positive_pids t) :
    (ageproc now ticks t).length = t.length ∧
    (∀ j, starved ticks (ptable_proc t j) → 1 ≤ (ptable_proc t j).pid →
      (ptable_proc (ageproc now ticks t) j).mfq_info.queue_type = RR ∧
      ptable_proc (ageproc now ticks t) j = set_queue_type RR (ptable_proc t j)) ∧
    (∀ j, ¬ (starved ticks (ptable_proc t j) ∧ 1 ≤ (ptable_proc t j).pid) →
      ptable_proc (ageproc now ticks t) j = ptable_proc t j) ∧
    (∀ j, ((ptable_proc t j).state ≠ procstate.RUNNABLE ∨
        (ptable_proc t j).mfq_info.queue_type = RR ∨
        int_sub ticks (ptable_proc t j).mfq_info.last_exec_time ≤ WAITING_CYCLES_THRESHOLD) →
      ptable_proc (ageproc now ticks t) j = ptable_proc t j) ∧
    (∀ last : Int, -2147483648 ≤ ticks - last → ticks - last < 2147483648 →
      int_sub ticks last = ticks - last) := by
  obtain ⟨hlen, hslot⟩ := ageproc_invariant now ticks t huniq t.length
  have hin : ∀ j, starved ticks (ptable_proc t j) → j < t.length := by
    intro j hs
    by_contra hge
    have h1 := hs.1
    rw [ptable_proc_ge (by omega)] at h1
    simp [proc_zero] at h1
  have hno : ∀ j, ¬ (starved ticks (ptable_proc t j) ∧ 1 ≤ (ptable_proc t j).pid) →
      ptable_proc (ageproc now ticks t) j = ptable_proc t j := by
    intro j hn
    unfold ageproc
    rw [hslot j]
    unfold ageproc_slot
    have : ¬ (j < t.length ∧ starved ticks (ptable_proc t j) ∧ 1 ≤ (ptable_proc t j).pid) :=
      fun h => hn h.2
    simp only [this, if_false]
  refine ⟨hlen, ?_, hno, ?_, ?_⟩
  · intro j hs hp
    have heq : ptable_proc (ageproc now ticks t) j = set_queue_type RR (ptable_proc t j) := by
      unfold ageproc
      rw [hslot j]
      unfold ageproc_slot
      have : j < t.length ∧ starved ticks (ptable_proc t j) ∧ 1 ≤ (ptable_proc t j).pid :=
        ⟨hin j hs, hs, hp⟩
      simp only [this, and_self, if_true]
    rw [heq]
    exact ⟨rfl, rfl⟩
  · intro j hor
    apply hno
    rintro ⟨⟨h1, h2, h3⟩, _⟩
    rcases hor with h | h | h
    · exact h h1
    · exact h2 h
    · exact absurd h3 (not_lt.mpr h)
  · intro last h1 h2
    unfold int_sub int_wrap
    omega

/-- Witness for C13 (amended): slot 1 of `age_sample` (pid 5, Runnable, BJF,
last run at tick 0) is in RR after `ageproc(9000)`. -/
theorem ageproc_spec_witness :
    (ptable_proc (ageproc 9000 9000 age_sample) 1).mfq_info.queue_type = RR :=
  ((ageproc_spec 9000 9000 age_sample (by decide)).2.1 1 (by decide) (by decide)).1

/-! ## The pre-pass of `scheduler` -/

theorem cstring_cons (a : Nat) (rest : List Nat) :
    cstring (a :: rest) = if a = 0 then [] else a :: cstring rest := by
  unfold cstring
  by_cases ha : a = 0
  · rw [List.takeWhile_cons_of_neg (by simp [ha])]
    simp [ha]
  · rw [List.takeWhile_cons_of_pos (by simp [ha])]
    simp [ha]

theorem strcmp_sh (name : List Nat) :
    strcmp name sh_literal ≠ 0 ↔ cstring name = [115, 104] := by
  have hsh : strlen sh_literal = 2 := by decide
  unfold strcmp
  rw [hsh]
  by_cases hlen : strlen name = 2
  · rw [if_neg (by simpa using hlen), hlen]
    unfold strlen at hlen
    cases name with
    | nil => simp [cstring] at hlen
    | cons a rest =>
      rw [cstring_cons] at hlen ⊢
      by_cases ha : a = 0
      · simp [ha] at hlen
      · rw [if_neg ha] at hlen ⊢
        cases rest with
        | nil => simp [cstring] at hlen
        | cons b rest =>
          rw [cstring_cons] at hlen ⊢
          by_cases hb : b = 0
          · simp [hb] at hlen
          · rw [if_neg hb] at hlen ⊢
            have hrest : cstring rest = [] := by
              apply List.eq_nil_of_length_eq_zero
              simp only [List.length_cons] at hlen
              omega
            rw [hrest]
            have hfs : first_slot 2 (fun i => decide ((a :: b :: rest).getD i 0 ≠
                sh_literal.getD i 0)) = none ↔ (a = 115 ∧ b = 104) := by
              rw [first_slot_none]
              constructor
              · intro h
                have h0 := h 0 (by omega)
                have h1 := h 1 (by omega)
                simp [sh_literal] at h0 h1
                exact ⟨h0, h1⟩
              · rintro ⟨h0, h1⟩ i hi
                have : i = 0 ∨ i = 1 := by omega
                rcases this with rfl | rfl <;> simp [sh_literal, h0, h1]
            cases hf : first_slot 2 (fun i => decide ((a :: b :: rest).getD i 0 ≠
                sh_literal.getD i 0)) with
            | none =>
              obtain ⟨h0, h1⟩ := hfs.mp hf
              simp [h0, h1]
            | some i =>
              have hnot : ¬ (a = 115 ∧ b = 104) :=
                fun h => by rw [hfs.mpr h] at hf; cases hf
              simp only [ne_eq, not_true_eq_false, false_iff, List.cons.injEq, and_true]
              exact hnot
  · rw [if_pos (by simpa using hlen)]
    simp only [ne_eq, not_true_eq_false, false_iff]
    intro h
    apply hlen
    unfold strlen
    rw [h]
    rfl

theorem lowest_holder_unique {t : List proc} {pid : Int} {a b : Nat}
    (ha : lowest_holder t pid a) (hb : lowest_holder t pid b) : a = b := by
  rcases Nat.lt_trichotomy a b with h | h | h
  · exact absurd ha.2.1 (hb.2.2 a h)
  · exact h
  · exact absurd hb.2.1 (ha.2.2 b h)

theorem exists_lowest_holder {t : List proc} {pid : Int} {k : Nat} (hk : k < t.length)
    (hp : (ptable_proc t k).pid = pid) : ∃ h, lowest_holder t pid h := by
  cases hfs : first_slot t.length (fun j => decide ((ptable_proc t j).pid = pid)) with
  | none => exact absurd hp (no_holder_iff.mpr hfs k hk)
  | some h => exact ⟨h, lowest_holder_iff.mpr hfs⟩

theorem set_queue_type_same (p : proc) : set_queue_type p.mfq_info.queue_type p = p := rfl

/-- A request for RR on a held pid of at least 1 puts the lowest-index holder in
RR and changes nothing else. -/
theorem transfer_to_rr (ticks : Nat) (T : List proc) (pid : Int) (h : Nat)
    (hlow : lowest_holder T pid h) (hp : 1 ≤ pid) :
    (transfer_process_queue ticks T pid RR).2.length = T.length ∧
    ∀ j, ptable_proc (transfer_process_queue ticks T pid RR).2 j =
      if j = h then set_queue_type RR (ptable_proc T h) else ptable_proc T j := by
  rw [transfer_process_queue_found ticks T pid RR h hlow hp]
  have hnq : (if pid = 1 ∨ pid = 2 then RR else RR) = RR := by split <;> rfl
  have hne : RR ≠ LCFS := by decide
  rw [hnq, if_neg hne]
  by_cases hq : (ptable_proc T h).mfq_info.queue_type = RR
  · rw [if_pos hq]
    refine ⟨rfl, fun j => ?_⟩
    by_cases hj : j = h
    · subst hj
      rw [if_pos rfl, ← hq]
      rfl
    · rw [if_neg hj]
  · rw [if_neg hq]
    refine ⟨length_update_slot _ _ _, fun j => ?_⟩
    exact ptable_proc_update _ _ _ _ hlow.1

/-- The pre-pass of `scheduler` after `k` iterations. -/
theorem prepass_invariant (ticks : Nat) (t : List proc) (k : Nat) :
    ((List.range k).foldl (scheduler_prepass_body ticks) t).length = t.length ∧
    ∀ j, ptable_proc ((List.range k).foldl (scheduler_prepass_body ticks) t) j =
      prepass_slot t k j := by
  induction k with
  | zero =>
    refine ⟨rfl, fun j => ?_⟩
    simp [prepass_slot, sh_holds]
  | succ k ih =>
    rw [List.range_succ, List.foldl_append]
    simp only [List.foldl_cons, List.foldl_nil]
    generalize (List.range k).foldl (scheduler_prepass_body ticks) t = T at ih ⊢
    obtain ⟨hlen, hslot⟩ := ih
    have hpid : ∀ j, (ptable_proc T j).pid = (ptable_proc t j).pid := by
      intro j
      rw [hslot j]
      unfold prepass_slot
      split <;> rfl
    have hname : ∀ j, (ptable_proc T j).name = (ptable_proc t j).name := by
      intro j
      rw [hslot j]
      unfold prepass_slot
      split <;> rfl
    have hlowT : ∀ pid h, lowest_holder t pid h → lowest_holder T pid h := by
      rintro pid h ⟨h1, h2, h3⟩
      refine ⟨by rw [hlen]; exact h1, by rw [hpid]; exact h2, ?_⟩
      intro j hj
      rw [hpid]
      exact h3 j hj
    unfold scheduler_prepass_body
    rw [hname k, hpid k]
    by_cases hsh : named_sh (ptable_proc t k)
    · have hk : k < t.length := by
        by_contra hge
        rw [ptable_proc_ge (by omega)] at hsh
        revert hsh
        decide
      rw [if_pos ((strcmp_sh _).mpr hsh)]
      by_cases hp : 1 ≤ (ptable_proc t k).pid
      · obtain ⟨h, hlow⟩ := exists_lowest_holder hk rfl
        obtain ⟨hl, hs⟩ := transfer_to_rr ticks T _ h (hlowT _ h hlow) hp
        refine ⟨by rw [hl, hlen], fun j => ?_⟩
        rw [hs j]
        by_cases hj : j = h
        · subst hj
          rw [if_pos rfl, hslot j]
          have hcond : 1 ≤ (ptable_proc t j).pid ∧
              lowest_holder t (ptable_proc t j).pid j ∧
              sh_holds t (k + 1) (ptable_proc t j).pid := by
            have hpj : (ptable_proc t j).pid = (ptable_proc t k).pid := hlow.2.1
            rw [hpj]
            exact ⟨hp, hlow, k, by omega, hsh, rfl⟩
          unfold prepass_slot
          rw [if_pos hcond]
          split <;> rfl
        · rw [if_neg hj, hslot j]
          unfold prepass_slot
          have hiff : (1 ≤ (ptable_proc t j).pid ∧ lowest_holder t (ptable_proc t j).pid j ∧
              sh_holds t (k + 1) (ptable_proc t j).pid) ↔
              (1 ≤ (ptable_proc t j).pid ∧ lowest_holder t (ptable_proc t j).pid j ∧
              sh_holds t k (ptable_proc t j).pid) := by
            constructor
            · rintro ⟨h1, h2, i, hi, hn, hpi⟩
              refine ⟨h1, h2, i, ?_, hn, hpi⟩
              have : i ≠ k := by
                rintro rfl
                rw [← hpi] at h2
                exact hj (lowest_holder_unique h2 hlow)
              omega
            · rintro ⟨h1, h2, i, hi, hn, hpi⟩
              exact ⟨h1, h2, i, by omega, hn, hpi⟩
          simp only [hiff]
      · have htr : transfer_process_queue ticks T (ptable_proc t k).pid RR = (-1, T) := by
          have : (ptable_proc t k).pid < 1 := by omega
          simp [transfer_process_queue, this]
        rw [htr]
        refine ⟨hlen, fun j => ?_⟩
        rw [hslot j]
        unfold prepass_slot
        have hiff : (1 ≤ (ptable_proc t j).pid ∧ lowest_holder t (ptable_proc t j).pid j ∧
            sh_holds t (k + 1) (ptable_proc t j).pid) ↔
            (1 ≤ (ptable_proc t j).pid ∧ lowest_holder t (ptable_proc t j).pid j ∧
            sh_holds t k (ptable_proc t j).pid) := by
          constructor
          · rintro ⟨h1, h2, i, hi, hn, hpi⟩
            refine ⟨h1, h2, i, ?_, hn, hpi⟩
            have : i ≠ k := by
              rintro rfl
              rw [hpi] at hp
              exact hp h1
            omega
          · rintro ⟨h1, h2, i, hi, hn, hpi⟩
            exact ⟨h1, h2, i, by omega, hn, hpi⟩
        simp only [hiff]
    · rw [if_neg (fun h => hsh ((strcmp_sh _).mp h))]
      refine ⟨hlen, fun j => ?_⟩
      rw [hslot j]
      unfold prepass_slot
      have hiff : sh_holds t (k + 1) (ptable_proc t j).pid ↔
          sh_holds t k (ptable_proc t j).pid := by
        constructor
        · rintro ⟨i, hi, hn, hpi⟩
          have : i ≠ k := by
            rintro rfl
            exact hsh hn
          exact ⟨i, by omega, hn, hpi⟩
        · rintro ⟨i, hi, hn, hpi⟩
          exact ⟨i, by omega, hn, hpi⟩
      simp only [hiff]

/-- C20, as stated, fails: the `strcmp` of `proc.c` returns 1 when the strings
are equal, so the pre-pass transfers the processes that are named "sh". In
`prepass_sample` the process named "ls" (slot 1) is still in BJF after the
pre-pass, and the process named "sh" (slot 2) has been moved from LCFS to
RR. -/
theorem prepass_moves_only_sh :
    ¬ named_sh (ptable_proc prepass_sample 1) ∧
    (ptable_proc (scheduler_prepass 7 prepass_sample) 1).mfq_info.queue_type = BJF ∧
    named_sh (ptable_proc prepass_sample 2) ∧
    (ptable_proc prepass_sample 2).mfq_info.queue_type = LCFS ∧
    (ptable_proc (scheduler_prepass 7 prepass_sample) 2).mfq_info.queue_type = RR := by
  decide

/-- C20, amended: the pre-pass of `scheduler` puts into RR the lowest-index
holder of every pid of at least 1 that is held by a slot named "sh", changing
nothing but the queue type, and leaves every other slot as it was. When no two
slots share a positive pid, every slot named "sh" with a pid of at least 1 is
in RR afterwards, and every slot whose name is not "sh" is left as it was. -/
theorem scheduler_prepass_spec (ticks : Nat) (t : List proc) :
    (scheduler_prepass ticks t).length = t.length ∧
    (∀ j, 1 ≤ (ptable_proc t j).pid → lowest_holder t (ptable_proc t j).pid j →
      sh_holds t t.length (ptable_proc t j).pid →
      ptable_proc (scheduler_prepass ticks t) j = set_queue_type RR (ptable_proc t j) ∧
      (ptable_proc (scheduler_prepass ticks t) j).mfq_info.queue_type = RR) ∧
    (∀ j, ¬ (1 ≤ (ptable_proc t j).pid ∧ lowest_holder t (ptable_proc t j).pid j ∧
        sh_holds t t.length (ptable_proc t j).pid) →
      ptable_proc (scheduler_prepass ticks t) j = ptable_proc t j) ∧
    (unique_positive_pids t →
      (∀ j, j < t.length → named_sh (ptable_proc t j) → 1 ≤ (ptable_proc t j).pid →
        (ptable_proc (scheduler_prepass ticks t) j).mfq_info.queue_type = RR ∧
        ptable_proc (scheduler_prepass ticks t) j = set_queue_type RR (ptable_proc t j)) ∧
      (∀ j, ¬ named_sh (ptable_proc t j) →
        ptable_proc (scheduler_prepass ticks t) j = ptable_proc t j)) := by
  obtain ⟨hlen, hslot⟩ := prepass_invariant ticks t t.length
  have hyes : ∀ j, 1 ≤ (ptable_proc t j).pid → lowest_holder t (ptable_proc t j).pid j →
      sh_holds t t.length (ptable_proc t j).pid →
      ptable_proc (scheduler_prepass ticks t) j = set_queue_type RR (ptable_proc t j) ∧
      (ptable_proc (scheduler_prepass ticks t) j).mfq_info.queue_type = RR := by
    intro j h1 h2 h3
    have heq : ptable_proc (scheduler_prepass ticks t) j = set_queue_type RR (ptable_proc t j) := by
      unfold scheduler_prepass
      rw [hslot j]
      unfold prepass_slot
      rw [if_pos ⟨h1, h2, h3⟩]
    rw [heq]
    exact ⟨rfl, rfl⟩
  have hno : ∀ j, ¬ (1 ≤ (ptable_proc t j).pid ∧ lowest_holder t (ptable_proc t j).pid j ∧
        sh_holds t t.length (ptable_proc t j).pid) →
      ptable_proc (scheduler_prepass ticks t) j = ptable_proc t j := by
    intro j hn
    unfold scheduler_prepass
    rw [hslot j]
    unfold prepass_slot
    rw [if_neg hn]
  refine ⟨hlen, hyes, hno, ?_⟩
  intro huniq
  constructor
  · intro j hj hsh hp
    have hlow : lowest_holder t (ptable_proc t j).pid j := by
      refine ⟨hj, rfl, ?_⟩
      intro i hi
      exact Ne.symm (huniq j hj i (by omega) (by omega) hp)
    obtain ⟨h1, h2⟩ := hyes j hp hlow ⟨j, hj, hsh, rfl⟩
    exact ⟨h2, h1⟩
  · intro j hnsh
    apply hno
    rintro ⟨h1, h2, i, hi, hn, hpi⟩
    have hij : i ≠ j := by
      rintro rfl
      exact hnsh hn
    exact huniq j h2.1 i hi (Ne.symm hij) h1 hpi.symm

/-- Witness for C20 (amended): `prepass_sample` has no two slots sharing a
positive pid; its slot named "sh" is in RR after the pre-pass and its slot
named "ls" is unchanged. -/
theorem scheduler_prepass_spec_witness :
    (ptable_proc (scheduler_prepass 7 prepass_sample) 2).mfq_info.queue_type = RR ∧
    ptable_proc (scheduler_prepass 7 prepass_sample) 1 = ptable_proc prepass_sample 1 :=
  ⟨(((scheduler_prepass_spec 7 prepass_sample).2.2.2 (by decide)).1 2 (by decide) (by decide)
      (by decide)).1,
   ((scheduler_prepass_spec 7 prepass_sample).2.2.2 (by decide)).2 1 (by decide)⟩

/-! ## What each call does to the identity of the slots -/

theorem same_identity_refl (p : proc) : same_identity p p := ⟨rfl, rfl, rfl⟩

theorem same_identity_trans {p q r : proc} (h1 : same_identity p q) (h2 : same_identity q r) :
    same_identity p r :=
  ⟨h2.1.trans h1.1, h2.2.1.trans h1.2.1, h2.2.2.trans h1.2.2⟩

theorem queue_change_identity {ticks : Nat} {p p' : proc} (h : queue_change ticks p p') :
    same_identity p p' := by
  obtain ⟨q, h | h⟩ := h <;> rw [h] <;> exact ⟨rfl, rfl, rfl⟩

/-- The function `transfer_process_queue` changes no state, pid or parent. -/
theorem transfer_process_queue_identity (ticks : Nat) (t : List proc) (pid q : Int) :
    (transfer_process_queue ticks t pid q).2.length = t.length ∧
    ∀ j, same_identity (ptable_proc t j)
      (ptable_proc (transfer_process_queue ticks t pid q).2 j) :=
  ⟨(transfer_process_queue_frame ticks t pid q).1,
    fun j => queue_change_identity ((transfer_process_queue_frame ticks t pid q).2 j)⟩

/-- The function `ageproc` changes no state, pid or parent. -/
theorem ageproc_identity (now : Nat) (ticks : Int) (t : List proc) :
    (ageproc now ticks t).length = t.length ∧
    ∀ j, same_identity (ptable_proc t j) (ptable_proc (ageproc now ticks t) j) := by
  have key : ∀ k, ((List.range k).foldl (ageproc_body now ticks) t).length = t.length ∧
      ∀ j, same_identity (ptable_proc t j)
        (ptable_proc ((List.range k).foldl (ageproc_body now ticks) t) j) := by
    intro k
    induction k with
    | zero => exact ⟨rfl, fun j => same_identity_refl _⟩
    | succ k ih =>
      rw [List.range_succ, List.foldl_append]
      simp only [List.foldl_cons, List.foldl_nil]
      generalize (List.range k).foldl (ageproc_body now ticks) t = T at ih ⊢
      obtain ⟨hlen, hid⟩ := ih
      unfold ageproc_body
      split
      · split
        · obtain ⟨h1, h2⟩ := transfer_process_queue_identity now T (ptable_proc T k).pid RR
          exact ⟨by rw [h1, hlen], fun j => same_identity_trans (hid j) (h2 j)⟩
        · exact ⟨hlen, hid⟩
      · exact ⟨hlen, hid⟩
  exact key t.length

/-- What `kill` does to the identity of the slots: at most a Sleeping slot
becomes Runnable. -/
theorem kill_frame (t : List proc) (pid : Int) :
    (kill t pid).2.length = t.length ∧
    ∀ j, (ptable_proc (kill t pid).2 j).pid = (ptable_proc t j).pid ∧
      (ptable_proc (kill t pid).2 j).parent = (ptable_proc t j).parent ∧
      ((ptable_proc (kill t pid).2 j).state = (ptable_proc t j).state ∨
        ((ptable_proc t j).state = procstate.SLEEPING ∧
          (ptable_proc (kill t pid).2 j).state = procstate.RUNNABLE)) := by
  unfold kill
  cases hfs : first_slot t.length (fun i => decide ((ptable_proc t i).pid = pid)) with
  | none => exact ⟨rfl, fun j => ⟨rfl, rfl, Or.inl rfl⟩⟩
  | some i =>
    have hi := (lowest_holder_iff.mpr hfs).1
    simp only
    rw [ptable_proc_update_same _ hi]
    by_cases hs : (ptable_proc t i).state = procstate.SLEEPING
    · simp only [hs, if_true]
      rw [update_slot_twice]
      refine ⟨length_update_slot _ _ _, fun j => ?_⟩
      rw [ptable_proc_update _ _ _ _ hi]
      by_cases hj : j = i
      · subst hj
        rw [if_pos rfl]
        exact ⟨rfl, rfl, Or.inr ⟨hs, rfl⟩⟩
      · rw [if_neg hj]
        exact ⟨rfl, rfl, Or.inl rfl⟩
    · simp only [hs, if_false]
      refine ⟨length_update_slot _ _ _, fun j => ?_⟩
      rw [ptable_proc_update _ _ _ _ hi]
      by_cases hj : j = i
      · subst hj
        rw [if_pos rfl]
        exact ⟨rfl, rfl, Or.inl rfl⟩
      · rw [if_neg hj]
        exact ⟨rfl, rfl, Or.inl rfl⟩

/-- The three ways a pass of `wait` can end. -/
theorem wait_cases (t : List proc) (curproc : Nat) :
    (wait t curproc = (wait_result.returned (-1), t) ∧
      ∀ j, j < t.length → ¬ zombie_child t curproc j) ∨
    (∃ z, z < t.length ∧ zombie_child t curproc z ∧
      (∀ j, j < z → ¬ zombie_child t curproc j) ∧
      wait t curproc = (wait_result.returned (ptable_proc t z).pid, update_slot t z reap)) ∨
    (wait t curproc =
        (wait_result.sleeping, update_slot t curproc (go_to_sleep (Chan.slot curproc))) ∧
      (∀ j, j < t.length → ¬ zombie_child t curproc j) ∧
      (∃ j, j < t.length ∧ (ptable_proc t j).parent = some curproc) ∧
      (ptable_proc t curproc).killed = 0) := by
  by_cases hz : ∃ j, j < t.length ∧ zombie_child t curproc j
  · obtain ⟨z, hk, hscan, h1, h2, h3⟩ := wait_scan_found t curproc hz
    right; left
    refine ⟨z, h1, h2, h3, ?_⟩
    unfold wait
    rw [hscan]
  · have hnz : ∀ j, j < t.length → ¬ zombie_child t curproc j :=
      fun j hj h => hz ⟨j, hj, h⟩
    obtain ⟨hk, hscan, hkids⟩ := wait_scan_not_found t curproc hnz
    by_cases hret : hk = false ∨ (ptable_proc t curproc).killed ≠ 0
    · left
      refine ⟨?_, hnz⟩
      unfold wait
      rw [hscan]
      simp only
      rw [if_pos hret]
    · right; right
      have hk1 : hk = true := by
        cases hk with
        | false => exact absurd (Or.inl rfl) hret
        | true => rfl
      have hkilled : (ptable_proc t curproc).killed = 0 := by
        by_contra h
        exact hret (Or.inr h)
      refine ⟨?_, hnz, hkids.mp hk1, hkilled⟩
      unfold wait
      rw [hscan]
      simp only
      rw [if_neg hret]

theorem no_unused_iff {t : List proc} :
    (∀ j, j < t.length → (ptable_proc t j).state ≠ procstate.UNUSED) ↔
      first_slot t.length (fun j => decide ((ptable_proc t j).state = procstate.UNUSED))
        = none := by
  rw [first_slot_none]
  simp

/-- What `allocproc` does: nothing when no slot is Unused; otherwise it gives
the lowest Unused slot the pid `nextpid`, increments the counter, and leaves
the slot Embryo, or Unused again when `kalloc` fails. -/
theorem allocproc_cases (kalloc : Nat) (nextpid : Int) (t : List proc) :
    ((∀ j, j < t.length → (ptable_proc t j).state ≠ procstate.UNUSED) ∧
      allocproc kalloc nextpid t = (none, nextpid, t)) ∨
    (∃ np, lowest_unused t np ∧
      (allocproc kalloc nextpid t).2.1 = int_wrap (nextpid + 1) ∧
      (allocproc kalloc nextpid t).2.2.length = t.length ∧
      (∀ j, j ≠ np → ptable_proc (allocproc kalloc nextpid t).2.2 j = ptable_proc t j) ∧
      (ptable_proc (allocproc kalloc nextpid t).2.2 np).pid = nextpid ∧
      (ptable_proc (allocproc kalloc nextpid t).2.2 np).parent = (ptable_proc t np).parent ∧
      ((kalloc = 0 ∧ (allocproc kalloc nextpid t).1 = none ∧
          (ptable_proc (allocproc kalloc nextpid t).2.2 np).state = procstate.UNUSED) ∨
        (kalloc ≠ 0 ∧ (allocproc kalloc nextpid t).1 = some np ∧
          (ptable_proc (allocproc kalloc nextpid t).2.2 np).state = procstate.EMBRYO))) := by
  cases hfs : first_slot t.length
      (fun j => decide ((ptable_proc t j).state = procstate.UNUSED)) with
  | none =>
    left
    refine ⟨no_unused_iff.mpr hfs, ?_⟩
    unfold allocproc
    rw [hfs]
  | some np =>
    right
    have hlow := lowest_unused_iff.mpr hfs
    have hnp := hlow.1
    refine ⟨np, hlow, ?_⟩
    unfold allocproc
    rw [hfs]
    simp only [update_slot_twice]
    by_cases hk : kalloc = 0
    · simp only [hk, if_true]
      refine ⟨trivial, length_update_slot _ _ _, ?_, ?_, ?_, ?_⟩
      · intro j hj
        exact ptable_proc_update_other _ (Ne.symm hj)
      · rw [ptable_proc_update_same _ hnp]
      · rw [ptable_proc_update_same _ hnp]
      · left
        rw [ptable_proc_update_same _ hnp]
        exact ⟨trivial, trivial, rfl⟩
    · simp only [hk, if_false]
      refine ⟨trivial, length_update_slot _ _ _, ?_, ?_, ?_, ?_⟩
      · intro j hj
        exact ptable_proc_update_other _ (Ne.symm hj)
      · rw [ptable_proc_update_same _ hnp]
      · rw [ptable_proc_update_same _ hnp]
      · right
        rw [ptable_proc_update_same _ hnp]
        exact ⟨hk, trivial, rfl⟩

/-- What `fork` does to the identity of the slots: nothing when no slot is
Unused; otherwise the lowest Unused slot gets the pid `nextpid` and ends either
Unused again (a failed allocation) or Runnable with the caller as parent, and
no other slot changes its state, pid or parent. -/
theorem fork_cases (kalloc copyuvm : Nat) (safestrcpy : List Nat → List Nat → List Nat)
    (ticks : Nat) (nextpid : Int) (t : List proc) (curproc : Nat) :
    ((∀ j, j < t.length → (ptable_proc t j).state ≠ procstate.UNUSED) ∧
      fork kalloc copyuvm safestrcpy ticks nextpid t curproc = (-1, nextpid, t)) ∨
    (∃ np, lowest_unused t np ∧
      (fork kalloc copyuvm safestrcpy ticks nextpid t curproc).2.1 = int_wrap (nextpid + 1) ∧
      (fork kalloc copyuvm safestrcpy ticks nextpid t curproc).2.2.length = t.length ∧
      (∀ j, j ≠ np → same_identity (ptable_proc t j)
        (ptable_proc (fork kalloc copyuvm safestrcpy ticks nextpid t curproc).2.2 j)) ∧
      (ptable_proc (fork kalloc copyuvm safestrcpy ticks nextpid t curproc).2.2 np).pid
        = nextpid ∧
      (((kalloc = 0 ∨ copyuvm = 0) ∧
          (fork kalloc copyuvm safestrcpy ticks nextpid t curproc).1 = -1 ∧
          (ptable_proc (fork kalloc copyuvm safestrcpy ticks nextpid t curproc).2.2 np).state
            = procstate.UNUSED ∧
          (ptable_proc (fork kalloc copyuvm safestrcpy ticks nextpid t curproc).2.2 np).parent
            = (ptable_proc t np).parent) ∨
        (kalloc ≠ 0 ∧ copyuvm ≠ 0 ∧
          (fork kalloc copyuvm safestrcpy ticks nextpid t curproc).1 = nextpid ∧
          (ptable_proc (fork kalloc copyuvm safestrcpy ticks nextpid t curproc).2.2 np).state
            = procstate.RUNNABLE ∧
          (ptable_proc (fork kalloc copyuvm safestrcpy ticks nextpid t curproc).2.2 np).parent
            = some curproc))) := by
  rcases allocproc_cases kalloc nextpid t with ⟨hno, hal⟩ | ⟨np, hlow, h1, h2, h3, h4, h5, h6⟩
  · left
    refine ⟨hno, ?_⟩
    unfold fork
    rw [hal]
  · right
    refine ⟨np, hlow, ?_⟩
    have hnp := hlow.1
    by_cases hk : kalloc = 0
    · have hret : (allocproc kalloc nextpid t).1 = none := by
        rcases h6 with ⟨_, h, _⟩ | ⟨h, _, _⟩
        · exact h
        · exact absurd hk h
      have hst : (ptable_proc (allocproc kalloc nextpid t).2.2 np).state = procstate.UNUSED := by
        rcases h6 with ⟨_, _, h⟩ | ⟨h, _, _⟩
        · exact h
        · exact absurd hk h
      have hf : fork kalloc copyuvm safestrcpy ticks nextpid t curproc =
          (-1, (allocproc kalloc nextpid t).2.1, (allocproc kalloc nextpid t).2.2) := by
        unfold fork
        generalize allocproc kalloc nextpid t = a at hret
        obtain ⟨r, n1, t1⟩ := a
        simp only at hret
        subst hret
        rfl
      rw [hf]
      refine ⟨h1, h2, ?_, h4, Or.inl ⟨Or.inl hk, rfl, hst, h5⟩⟩
      intro j hj
      simp only
      rw [h3 j hj]
      exact same_identity_refl _
    · by_cases hc : copyuvm = 0
      · have hret : (allocproc kalloc nextpid t).1 = some np := by
          rcases h6 with ⟨h, _, _⟩ | ⟨_, h, _⟩
          · exact absurd h hk
          · exact h
        have hf : fork kalloc copyuvm safestrcpy ticks nextpid t curproc =
            (-1, (allocproc kalloc nextpid t).2.1,
              update_slot (allocproc kalloc nextpid t).2.2 np
                (fun p => { p with pgdir := 0, kstack := 0, state := procstate.UNUSED })) := by
          unfold fork
          generalize allocproc kalloc nextpid t = a at hret
          obtain ⟨r, n1, t1⟩ := a
          simp only at hret
          subst hret
          simp only [hc, if_true]
        rw [hf]
        have hnp1 : np < (allocproc kalloc nextpid t).2.2.length := by rw [h2]; exact hnp
        simp only
        refine ⟨h1, by rw [length_update_slot, h2], ?_, ?_, Or.inl ⟨Or.inr hc, trivial, ?_, ?_⟩⟩
        · intro j hj
          rw [ptable_proc_update_other _ (Ne.symm hj), h3 j hj]
          exact same_identity_refl _
        · rw [ptable_proc_update_same _ hnp1]
          exact h4
        · rw [ptable_proc_update_same _ hnp1]
        · rw [ptable_proc_update_same _ hnp1]
          exact h5
      · obtain ⟨t3, hfork, hlen, hother, hpid, hstate, hparent, _⟩ :=
          fork_before_transfer kalloc copyuvm safestrcpy ticks nextpid t curproc np hlow hk hc
        obtain ⟨hl, hid⟩ := transfer_process_queue_identity ticks t3 nextpid LCFS
        rw [hfork]
        simp only
        refine ⟨trivial, by rw [hl, hlen], ?_, ?_, Or.inr ⟨hk, hc, trivial, ?_, ?_⟩⟩
        · intro j hj
          have := hid j
          rw [hother j hj] at this
          exact this
        · rw [(hid np).2.1]; exact hpid
        · rw [(hid np).1]; exact hstate
        · rw [(hid np).2.2]; exact hparent

/-- What a successful `userinit` does to the identity of the slots: the lowest
Unused slot becomes `initproc`, Runnable, with the pid `nextpid` and the parent
field it had. -/
theorem userinit_cases (kalloc setupkvm pgsize : Nat)
    (safestrcpy : List Nat → List Nat → List Nat) (ticks : Nat) (s : kstate) (np : Nat)
    (hlow : lowest_unused s.ptable np) (hk : kalloc ≠ 0) (hs : setupkvm ≠ 0) :
    ∃ s', userinit kalloc setupkvm pgsize safestrcpy ticks s = some s' ∧
      s'.nextpid = int_wrap (s.nextpid + 1) ∧ s'.initproc = some np ∧
      s'.ptable.length = s.ptable.length ∧
      (∀ j, j ≠ np → same_identity (ptable_proc s.ptable j) (ptable_proc s'.ptable j)) ∧
      (ptable_proc s'.ptable np).pid = s.nextpid ∧
      (ptable_proc s'.ptable np).state = procstate.RUNNABLE ∧
      (ptable_proc s'.ptable np).parent = (ptable_proc s.ptable np).parent := by
  have hnp := hlow.1
  have hsame : ∀ f : proc → proc,
      ptable_proc (update_slot s.ptable np f) np = f (ptable_proc s.ptable np) :=
    fun f => ptable_proc_update_same f hnp
  unfold userinit allocproc
  rw [lowest_unused_iff.mp hlow]
  simp only [hk, hs, if_false, update_slot_twice, hsame]
  refine ⟨_, rfl, rfl, rfl, ?_⟩
  simp only
  obtain ⟨hl, hid⟩ := transfer_process_queue_identity ticks
    (update_slot s.ptable np fun p =>
      { p with
        sz := pgsize, pgdir := setupkvm, kstack := kalloc, state := procstate.RUNNABLE,
        pid := s.nextpid, name := safestrcpy p.name initcode_literal,
        mfq_info := mfq_info_init }) s.nextpid RR
  refine ⟨by rw [hl, length_update_slot], ?_, ?_, ?_, ?_⟩
  · intro j hj
    have := hid j
    rw [ptable_proc_update_other _ (Ne.symm hj)] at this
    exact this
  · rw [(hid np).2.1, hsame]
  · rw [(hid np).1, hsame]
  · rw [(hid np).2.2, hsame]

/-! ## The pid invariant -/

theorem int_wrap_succ {n : Int} (h1 : 1 ≤ n) (h2 : no_wrap n) : int_wrap (n + 1) = n + 1 := by
  unfold no_wrap at h2
  unfold int_wrap
  omega

/-- A call that frees slots or changes live slots without touching their pid
keeps the pid invariant. -/
theorem pid_inv_keep {t t' : List proc} {n : Int} {ip ip' : Option Nat}
    (hinv : pid_inv ⟨t, n, ip⟩) (hlen : t'.length = t.length)
    (hkeep : ∀ j, (ptable_proc t' j).state ≠ procstate.UNUSED →
      (ptable_proc t j).state ≠ procstate.UNUSED ∧ (ptable_proc t' j).pid = (ptable_proc t j).pid) :
    pid_inv ⟨t', n, ip'⟩ := by
  obtain ⟨h1, h2, h3⟩ := hinv
  simp only at h1 h2 h3
  refine ⟨h1, ?_, ?_⟩
  · intro i hi hs
    simp only at hi hs ⊢
    obtain ⟨ha, hb⟩ := hkeep i hs
    rw [hb]
    exact h2 i (by rw [← hlen]; exact hi) ha
  · intro i hi j hj hij hsi hsj
    simp only at hi hj hsi hsj ⊢
    obtain ⟨ha, hb⟩ := hkeep i hsi
    obtain ⟨hc, hd⟩ := hkeep j hsj
    rw [hb, hd]
    exact h3 i (by rw [← hlen]; exact hi) j (by rw [← hlen]; exact hj) hij ha hc

/-- A call that hands the pid `nextpid` to one slot and increments the counter
keeps the pid invariant. -/
theorem pid_inv_alloc {t t' : List proc} {n : Int} {ip ip' : Option Nat} {np : Nat}
    (hinv : pid_inv ⟨t, n, ip⟩) (hwrap : no_wrap n) (hlen : t'.length = t.length)
    (hkeep : ∀ j, j ≠ np → (ptable_proc t' j).state ≠ procstate.UNUSED →
      (ptable_proc t j).state ≠ procstate.UNUSED ∧ (ptable_proc t' j).pid = (ptable_proc t j).pid)
    (hpid : (ptable_proc t' np).pid = n) :
    pid_inv ⟨t', int_wrap (n + 1), ip'⟩ := by
  obtain ⟨h1, h2, h3⟩ := hinv
  simp only at h1 h2 h3
  rw [int_wrap_succ h1 hwrap]
  have hold : ∀ j, j < t'.length → j ≠ np → (ptable_proc t' j).state ≠ procstate.UNUSED →
      1 ≤ (ptable_proc t' j).pid ∧ (ptable_proc t' j).pid < n := by
    intro j hj hne hs
    obtain ⟨ha, hb⟩ := hkeep j hne hs
    rw [hb]
    exact h2 j (by rw [← hlen]; exact hj) ha
  refine ⟨by simp only; omega, ?_, ?_⟩
  · intro i hi hs
    simp only at hi hs ⊢
    by_cases hinp : i = np
    · subst hinp
      rw [hpid]
      omega
    · have := hold i hi hinp hs
      omega
  · intro i hi j hj hij hsi hsj
    simp only at hi hj hsi hsj ⊢
    by_cases hinp : i = np
    · subst hinp
      have := hold j hj (Ne.symm hij) hsj
      rw [hpid]
      omega
    · by_cases hjnp : j = np
      · subst hjnp
        have := hold i hi hinp hsi
        rw [hpid]
        omega
      · obtain ⟨ha, hb⟩ := hkeep i hinp hsi
        obtain ⟨hc, hd⟩ := hkeep j hjnp hsj
        rw [hb, hd]
        exact h3 i (by rw [← hlen]; exact hi) j (by rw [← hlen]; exact hj) hij ha hc

theorem pid_inv_boot (nproc : Nat) : pid_inv (boot_state nproc) := by
  have hz : ∀ i, (ptable_proc (boot_state nproc).ptable i).state = procstate.UNUSED := by
    intro i
    by_cases hi : i < (boot_state nproc).ptable.length
    · rw [ptable_proc_lt hi]
      simp [boot_state, proc_zero]
    · rw [ptable_proc_ge (by omega)]
      rfl
  refine ⟨by simp [boot_state], ?_, ?_⟩
  · intro i _ hs
    exact absurd (hz i) hs
  · intro i _ j _ _ hs
    exact absurd (hz i) hs

/-- One enabled call keeps the pid invariant. -/
theorem pid_inv_step (s : kstate) (op : kernel_op) (hinv : pid_inv s) (hen : enabled s op) :
    pid_inv (step s op) := by
  obtain ⟨t, n, ip⟩ := s
  cases op with
  | allocproc kalloc =>
    simp only [step]
    rcases allocproc_cases kalloc n t with ⟨_, hal⟩ | ⟨np, hlow, h1, h2, h3, h4, _, _⟩
    · rw [hal]; exact hinv
    · rw [h1]
      refine pid_inv_alloc hinv hen h2 ?_ h4
      intro j hj hs
      rw [h3 j hj] at hs ⊢
      exact ⟨hs, rfl⟩
  | userinit kalloc setupkvm pgsize safestrcpy ticks =>
    obtain ⟨hw, hk, hs, j, hj, hju⟩ := hen
    simp only at hw hj hju
    obtain ⟨np, hlow⟩ : ∃ np, lowest_unused t np := by
      cases hfs : first_slot t.length
          (fun j => decide ((ptable_proc t j).state = procstate.UNUSED)) with
      | none => exact absurd hju (no_unused_iff.mpr hfs j hj)
      | some np => exact ⟨np, lowest_unused_iff.mpr hfs⟩
    obtain ⟨s', hu, h1, _, h3, h4, h5, _⟩ :=
      userinit_cases kalloc setupkvm pgsize safestrcpy ticks ⟨t, n, ip⟩ np hlow hk hs
    simp only [step, hu, Option.getD_some]
    obtain ⟨t', n', ip'⟩ := s'
    simp only at h1 h3 h4 h5
    rw [h1]
    refine pid_inv_alloc hinv hw h3 ?_ h5
    intro j hj hs
    obtain ⟨ha, hb, _⟩ := h4 j hj
    rw [ha] at hs
    exact ⟨hs, hb⟩
  | fork kalloc copyuvm safestrcpy ticks curproc =>
    simp only [step]
    rcases fork_cases kalloc copyuvm safestrcpy ticks n t curproc with
      ⟨_, hf⟩ | ⟨np, hlow, h1, h2, h3, h4, _⟩
    · rw [hf]; exact hinv
    · rw [h1]
      refine pid_inv_alloc hinv hen.1 h2 ?_ h4
      intro j hj hs
      obtain ⟨ha, hb, _⟩ := h3 j hj
      rw [ha] at hs
      exact ⟨hs, hb⟩
  | exit curproc =>
    obtain ⟨⟨hc, hlive, _⟩, hroot⟩ := hen
    simp only at hc hlive hroot
    obtain ⟨t', hexit, hlen, hslot⟩ := exit_eq ip t curproc hc hroot
    simp only [step, hexit, Option.getD_some]
    refine pid_inv_keep hinv hlen ?_
    intro j hs
    rw [hslot j] at hs ⊢
    refine ⟨?_, rfl⟩
    simp only [exit_state] at hs
    by_cases hj : j = curproc
    · subst hj; exact hlive
    · simp only [hj, if_false] at hs
      split at hs
      · rename_i h
        rw [h.1]
        decide
      · exact hs
  | wait curproc =>
    obtain ⟨hc, hlive, _⟩ := hen
    simp only at hc hlive
    simp only [step]
    rcases wait_cases t curproc with ⟨hw, _⟩ | ⟨z, hz, _, _, hw⟩ | ⟨hw, _⟩
    · rw [hw]; exact hinv
    · rw [hw]
      refine pid_inv_keep hinv (length_update_slot _ _ _) ?_
      intro j hs
      simp only at hs ⊢
      rw [ptable_proc_update _ _ _ _ hz] at hs ⊢
      by_cases hj : j = z
      · rw [if_pos hj] at hs
        exact absurd rfl hs
      · rw [if_neg hj] at hs ⊢
        exact ⟨hs, rfl⟩
    · rw [hw]
      refine pid_inv_keep hinv (length_update_slot _ _ _) ?_
      intro j hs
      simp only at hs ⊢
      rw [ptable_proc_update _ _ _ _ hc] at hs ⊢
      by_cases hj : j = curproc
      · rw [if_pos hj]
        subst hj
        exact ⟨hlive, rfl⟩
      · rw [if_neg hj] at hs ⊢
        exact ⟨hs, rfl⟩
  | kill pid =>
    simp only [step]
    obtain ⟨hlen, hfr⟩ := kill_frame t pid
    refine pid_inv_keep hinv hlen ?_
    intro j hs
    obtain ⟨hp, _, hst | ⟨hsl, _⟩⟩ := hfr j
    · rw [hst] at hs
      exact ⟨hs, hp⟩
    · refine ⟨?_, hp⟩
      rw [hsl]
      decide
  | transfer_process_queue ticks pid q =>
    simp only [step]
    obtain ⟨hlen, hid⟩ := transfer_process_queue_identity ticks t pid q
    refine pid_inv_keep hinv hlen ?_
    intro j hs
    obtain ⟨ha, hb, _⟩ := hid j
    rw [ha] at hs
    exact ⟨hs, hb⟩
  | ageproc now ticks =>
    simp only [step]
    obtain ⟨hlen, hid⟩ := ageproc_identity now ticks t
    refine pid_inv_keep hinv hlen ?_
    intro j hs
    obtain ⟨ha, hb, _⟩ := hid j
    rw [ha] at hs
    exact ⟨hs, hb⟩

/-- The pid invariant holds in every reachable state, whatever calls are
allowed. -/
theorem pid_inv_reachable (allowed : kernel_op → Prop) (nproc : Nat) (s : kstate)
    (h : reachable allowed nproc s) : pid_inv s := by
  induction h with
  | boot => exact pid_inv_boot nproc
  | step s op _ _ hen ih => exact pid_inv_step s op ih hen

/-- C12: in every state reachable from boot (all slots zero, `nextpid = 1`) by
calls made one at a time while `nextpid` does not wrap - in particular by
`allocproc`, `fork`, `exit`, `wait` and `kill` - the pids of the non-Unused
slots are at least 1, below `nextpid` and pairwise distinct; and an
`allocproc` that succeeds there gives the new slot the pid `nextpid` and
leaves the counter at `nextpid + 1`. -/
theorem pids_unique_spec (allowed : kernel_op → Prop) (nproc : Nat) (s : kstate)
    (h : reachable allowed nproc s) :
    (∀ i, i < s.ptable.length → (ptable_proc s.ptable i).state ≠ procstate.UNUSED →
      1 ≤ (ptable_proc s.ptable i).pid ∧ (ptable_proc s.ptable i).pid < s.nextpid) ∧
    (∀ i, i < s.ptable.length → ∀ j, j < s.ptable.length → i ≠ j →
      (ptable_proc s.ptable i).state ≠ procstate.UNUSED →
      (ptable_proc s.ptable j).state ≠ procstate.UNUSED →
      (ptable_proc s.ptable i).pid ≠ (ptable_proc s.ptable j).pid) ∧
    (∀ kalloc np, no_wrap s.nextpid →
      (allocproc kalloc s.nextpid s.ptable).1 = some np →
      (ptable_proc (allocproc kalloc s.nextpid s.ptable).2.2 np).pid = s.nextpid ∧
      (allocproc kalloc s.nextpid s.ptable).2.1 = s.nextpid + 1) := by
  obtain ⟨h1, h2, h3⟩ := pid_inv_reachable allowed nproc s h
  refine ⟨h2, h3, ?_⟩
  intro kalloc np hw hret
  rcases allocproc_cases kalloc s.nextpid s.ptable with
    ⟨_, hal⟩ | ⟨np', _, g1, _, _, g4, _, g6⟩
  · rw [hal] at hret
    cases hret
  · rcases g6 with ⟨_, g, _⟩ | ⟨_, g, _⟩
    · rw [g] at hret
      cases hret
    · rw [g] at hret
      cases hret
      exact ⟨g4, by rw [g1]; exact int_wrap_succ h1 hw⟩

/-- Witness for C12: the state after one successful `allocproc` from boot is
reachable by the calls of `pid_op`; the next `allocproc` hands out pid 2. -/
theorem pids_unique_spec_witness :
    (ptable_proc (allocproc 1000 (step (boot_state 2) (kernel_op.allocproc 1000)).nextpid
      (step (boot_state 2) (kernel_op.allocproc 1000)).ptable).2.2 1).pid =
      (step (boot_state 2) (kernel_op.allocproc 1000)).nextpid ∧
    (allocproc 1000 (step (boot_state 2) (kernel_op.allocproc 1000)).nextpid
      (step (boot_state 2) (kernel_op.allocproc 1000)).ptable).2.1 =
      (step (boot_state 2) (kernel_op.allocproc 1000)).nextpid + 1 :=
  (pids_unique_spec pid_op 2 (step (boot_state 2) (kernel_op.allocproc 1000))
    (reachable.step _ _ reachable.boot trivial (by decide))).2.2 1000 1 (by decide) (by decide)

/-! ## The family tree -/

theorem fam_inv_boot (nproc : Nat) : fam_inv (boot_state nproc) := by
  have hz : ∀ i, ptable_proc (boot_state nproc).ptable i = proc_zero := by
    intro i
    by_cases hi : i < (boot_state nproc).ptable.length
    · rw [ptable_proc_lt hi]
      simp [boot_state]
    · exact ptable_proc_ge (by omega)
  refine ⟨?_, ?_, ?_, ⟨fun _ => 0, ?_, ?_⟩⟩
  · intro i _; rw [hz]; rfl
  · intro i j h; rw [hz] at h; cases h
  · intro r h; cases h
  · intro i j h; rw [hz] at h; cases h
  · intro r h; cases h

/-- A call that changes no parent and at most wakes Sleeping slots keeps the
shape of the family tree. -/
theorem fam_inv_steady {t t' : List proc} {n n' : Int} {ip : Option Nat}
    (hinv : fam_inv ⟨t, n, ip⟩) (hlen : t'.length = t.length)
    (h : ∀ j, (ptable_proc t' j).parent = (ptable_proc t j).parent ∧
      ((ptable_proc t' j).state = (ptable_proc t j).state ∨
        ((ptable_proc t j).state = procstate.SLEEPING ∧
          (ptable_proc t' j).state = procstate.RUNNABLE))) :
    fam_inv ⟨t', n', ip⟩ := by
  obtain ⟨i1, i2, i3, rank, i4, i5⟩ := hinv
  simp only at i1 i2 i3 i4 i5
  have hlive : ∀ j, (ptable_proc t j).state ≠ procstate.UNUSED →
      (ptable_proc t j).state ≠ procstate.ZOMBIE →
      (ptable_proc t' j).state ≠ procstate.UNUSED ∧
        (ptable_proc t' j).state ≠ procstate.ZOMBIE := by
    intro j h1 h2
    rcases (h j).2 with hs | ⟨_, hs⟩
    · rw [hs]; exact ⟨h1, h2⟩
    · rw [hs]; exact ⟨by decide, by decide⟩
  refine ⟨?_, ?_, ?_, ⟨rank, ?_, i5⟩⟩
  · intro i hs
    simp only at hs ⊢
    rw [(h i).1]
    apply i1
    rcases (h i).2 with h' | ⟨_, h'⟩
    · rw [← h']; exact hs
    · rw [h'] at hs; cases hs
  · intro i j hp
    simp only at hp ⊢
    rw [(h i).1] at hp
    obtain ⟨a, b, c⟩ := i2 i j hp
    exact ⟨by rw [hlen]; exact a, hlive j b c⟩
  · intro r hr
    simp only at hr ⊢
    obtain ⟨a, b, c, d⟩ := i3 r hr
    exact ⟨by rw [hlen]; exact a, (hlive r b c).1, (hlive r b c).2, by rw [(h r).1]; exact d⟩
  · intro i j hp
    simp only at hp
    rw [(h i).1] at hp
    exact i4 i j hp

/-- A call that only touches an Unused slot, keeping its parent field, keeps
the shape of the family tree. -/
theorem fam_inv_alloc {t t' : List proc} {n n' : Int} {ip : Option Nat} {np : Nat}
    (hinv : fam_inv ⟨t, n, ip⟩) (hlen : t'.length = t.length)
    (hnp : (ptable_proc t np).state = procstate.UNUSED)
    (hother : ∀ j, j ≠ np → same_identity (ptable_proc t j) (ptable_proc t' j))
    (hparent : (ptable_proc t' np).parent = (ptable_proc t np).parent) :
    fam_inv ⟨t', n', ip⟩ := by
  obtain ⟨i1, i2, i3, rank, i4, i5⟩ := hinv
  simp only at i1 i2 i3 i4 i5
  have hpar : ∀ j, (ptable_proc t' j).parent = (ptable_proc t j).parent := by
    intro j
    by_cases hj : j = np
    · subst hj; exact hparent
    · exact (hother j hj).2.2
  have hlive : ∀ j, (ptable_proc t j).state ≠ procstate.UNUSED →
      j ≠ np ∧ (ptable_proc t' j).state = (ptable_proc t j).state := by
    intro j h1
    have hj : j ≠ np := by
      rintro rfl
      exact h1 hnp
    exact ⟨hj, (hother j hj).1⟩
  refine ⟨?_, ?_, ?_, ⟨rank, ?_, i5⟩⟩
  · intro i hs
    simp only at hs ⊢
    rw [hpar i]
    by_cases hi : i = np
    · subst hi; exact i1 i hnp
    · rw [(hother i hi).1] at hs
      exact i1 i hs
  · intro i j hp
    simp only at hp ⊢
    rw [hpar i] at hp
    obtain ⟨a, b, c⟩ := i2 i j hp
    rw [(hlive j b).2]
    exact ⟨by rw [hlen]; exact a, b, c⟩
  · intro r hr
    simp only at hr ⊢
    obtain ⟨a, b, c, d⟩ := i3 r hr
    rw [(hlive r b).2, hpar r]
    exact ⟨by rw [hlen]; exact a, b, c, d⟩
  · intro i j hp
    simp only at hp
    rw [hpar i] at hp
    exact i4 i j hp

/-- A call that turns an Unused slot into a live child of a process that can
make calls keeps the shape of the family tree. -/
theorem fam_inv_child {t t' : List proc} {n n' : Int} {ip : Option Nat} {np curproc : Nat}
    (hinv : fam_inv ⟨t, n, ip⟩) (hlen : t'.length = t.length)
    (hnp : (ptable_proc t np).state = procstate.UNUSED)
    (hother : ∀ j, j ≠ np → same_identity (ptable_proc t j) (ptable_proc t' j))
    (hstate : (ptable_proc t' np).state = procstate.RUNNABLE)
    (hparent : (ptable_proc t' np).parent = some curproc)
    (hcall : can_call t curproc) :
    fam_inv ⟨t', n', ip⟩ := by
  obtain ⟨i1, i2, i3, rank, i4, i5⟩ := hinv
  simp only at i1 i2 i3 i4 i5
  obtain ⟨hc1, hc2, hc3⟩ := hcall
  have hcn : curproc ≠ np := by
    rintro rfl
    exact hc2 hnp
  have hlive : ∀ j, (ptable_proc t j).state ≠ procstate.UNUSED →
      j ≠ np ∧ (ptable_proc t' j).state = (ptable_proc t j).state := by
    intro j h1
    have hj : j ≠ np := by
      rintro rfl
      exact h1 hnp
    exact ⟨hj, (hother j hj).1⟩
  refine ⟨?_, ?_, ?_, ⟨Function.update rank np (rank curproc + 1), ?_, ?_⟩⟩
  · intro i hs
    simp only at hs ⊢
    by_cases hi : i = np
    · subst hi
      rw [hstate] at hs
      cases hs
    · rw [(hother i hi).2.2]
      rw [(hother i hi).1] at hs
      exact i1 i hs
  · intro i j hp
    simp only at hp ⊢
    by_cases hi : i = np
    · subst hi
      rw [hparent] at hp
      cases hp
      rw [(hlive curproc hc2).2]
      exact ⟨by rw [hlen]; exact hc1, hc2, hc3⟩
    · rw [(hother i hi).2.2] at hp
      obtain ⟨a, b, c⟩ := i2 i j hp
      rw [(hlive j b).2]
      exact ⟨by rw [hlen]; exact a, b, c⟩
  · intro r hr
    simp only at hr ⊢
    obtain ⟨a, b, c, d⟩ := i3 r hr
    rw [(hlive r b).2, (hother r (hlive r b).1).2.2]
    exact ⟨by rw [hlen]; exact a, b, c, d⟩
  · intro i j hp
    simp only at hp
    by_cases hi : i = np
    · subst hi
      rw [hparent] at hp
      cases hp
      rw [Function.update_same, Function.update_noteq hcn]
      omega
    · rw [(hother i hi).2.2] at hp
      obtain ⟨_, b, _⟩ := i2 i j hp
      rw [Function.update_noteq hi, Function.update_noteq (hlive j b).1]
      exact i4 i j hp
  · intro r hr
    simp only at hr
    obtain ⟨_, b, _⟩ := i3 r hr
    rw [Function.update_noteq (hlive r b).1]
    exact i5 r hr

/-- A call that turns an Unused slot into a live `initproc`, keeping its parent
field, keeps the shape of the family tree. -/
theorem fam_inv_root {t t' : List proc} {n n' : Int} {ip : Option Nat} {np : Nat}
    (hinv : fam_inv ⟨t, n, ip⟩) (hlen : t'.length = t.length) (hlt : np < t.length)
    (hnp : (ptable_proc t np).state = procstate.UNUSED)
    (hother : ∀ j, j ≠ np → same_identity (ptable_proc t j) (ptable_proc t' j))
    (hstate : (ptable_proc t' np).state = procstate.RUNNABLE)
    (hparent : (ptable_proc t' np).parent = (ptable_proc t np).parent) :
    fam_inv ⟨t', n', some np⟩ := by
  obtain ⟨i1, i2, i3, rank, i4, i5⟩ := hinv
  simp only at i1 i2 i3 i4 i5
  have hpn : (ptable_proc t' np).parent = none := by rw [hparent]; exact i1 np hnp
  have hlive : ∀ j, (ptable_proc t j).state ≠ procstate.UNUSED →
      j ≠ np ∧ (ptable_proc t' j).state = (ptable_proc t j).state := by
    intro j h1
    have hj : j ≠ np := by
      rintro rfl
      exact h1 hnp
    exact ⟨hj, (hother j hj).1⟩
  refine ⟨?_, ?_, ?_, ⟨Function.update rank np 0, ?_, ?_⟩⟩
  · intro i hs
    simp only at hs ⊢
    by_cases hi : i = np
    · subst hi; exact hpn
    · rw [(hother i hi).2.2]
      rw [(hother i hi).1] at hs
      exact i1 i hs
  · intro i j hp
    simp only at hp ⊢
    by_cases hi : i = np
    · subst hi
      rw [hpn] at hp
      cases hp
    · rw [(hother i hi).2.2] at hp
      obtain ⟨a, b, c⟩ := i2 i j hp
      rw [(hlive j b).2]
      exact ⟨by rw [hlen]; exact a, b, c⟩
  · intro r hr
    simp only [Option.some.injEq] at hr ⊢
    subst hr
    rw [hstate]
    exact ⟨by rw [hlen]; exact hlt, by decide, by decide, hpn⟩
  · intro i j hp
    simp only at hp
    by_cases hi : i = np
    · subst hi
      rw [hpn] at hp
      cases hp
    · rw [(hother i hi).2.2] at hp
      obtain ⟨_, b, _⟩ := i2 i j hp
      rw [Function.update_noteq hi, Function.update_noteq (hlive j b).1]
      exact i4 i j hp
  · intro r hr
    simp only [Option.some.injEq] at hr
    subst hr
    exact Function.update_same _ _ _

theorem exit_state_live (initproc : Option Nat) (t : List proc) (curproc j : Nat)
    (hj : j ≠ curproc) (h1 : (ptable_proc t j).state ≠ procstate.UNUSED)
    (h2 : (ptable_proc t j).state ≠ procstate.ZOMBIE) :
    exit_state initproc t curproc j ≠ procstate.UNUSED ∧
    exit_state initproc t curproc j ≠ procstate.ZOMBIE := by
  unfold exit_state
  rw [if_neg hj]
  split
  · exact ⟨by decide, by decide⟩
  · exact ⟨h1, h2⟩

theorem exit_state_unused (initproc : Option Nat) (t : List proc) (curproc j : Nat)
    (h : exit_state initproc t curproc j = procstate.UNUSED) :
    (ptable_proc t j).state = procstate.UNUSED := by
  unfold exit_state at h
  split at h
  · cases h
  · split at h
    · cases h
    · exact h

/-- The function `exit`, called by a process other than `initproc`, keeps the
shape of the family tree. -/
theorem fam_inv_exit {t t' : List proc} {n : Int} {ip : Option Nat} {curproc : Nat}
    (hinv : fam_inv ⟨t, n, ip⟩) (hroot : ip ≠ some curproc)
    (hlen : t'.length = t.length)
    (hslot : ∀ j, ptable_proc t' j =
      { ptable_proc t j with
        state := exit_state ip t curproc j, parent := exit_parent ip t curproc j }) :
    fam_inv ⟨t', n, ip⟩ := by
  obtain ⟨i1, i2, i3, rank, i4, i5⟩ := hinv
  simp only at i1 i2 i3 i4 i5
  have hst : ∀ j, (ptable_proc t' j).state = exit_state ip t curproc j := by
    intro j; rw [hslot j]
  have hpa : ∀ j, (ptable_proc t' j).parent = exit_parent ip t curproc j := by
    intro j; rw [hslot j]
  have hrlive : ∀ r, ip = some r →
      r < t.length ∧ exit_state ip t curproc r ≠ procstate.UNUSED ∧
        exit_state ip t curproc r ≠ procstate.ZOMBIE := by
    intro r hr
    obtain ⟨a, b, c, _⟩ := i3 r hr
    have hrc : r ≠ curproc := by
      rintro rfl
      exact hroot hr
    exact ⟨a, exit_state_live ip t curproc r hrc b c⟩
  refine ⟨?_, ?_, ?_, ⟨rank, ?_, i5⟩⟩
  · intro i hs
    simp only at hs ⊢
    rw [hst] at hs
    rw [hpa]
    have hu := exit_state_unused ip t curproc i hs
    have hn := i1 i hu
    unfold exit_parent
    rw [hn]
    simp
  · intro i j hp
    simp only at hp ⊢
    rw [hpa] at hp
    rw [hst, hlen]
    unfold exit_parent at hp
    split at hp
    · exact hrlive j hp
    · obtain ⟨a, b, c⟩ := i2 i j hp
      have hjc : j ≠ curproc := by
        rintro rfl
        rename_i hne
        exact hne hp
      exact ⟨a, exit_state_live ip t curproc j hjc b c⟩
  · intro r hr
    simp only at hr ⊢
    obtain ⟨_, _, _, d⟩ := i3 r hr
    rw [hst, hpa, hlen]
    obtain ⟨a, b, c⟩ := hrlive r hr
    refine ⟨a, b, c, ?_⟩
    unfold exit_parent
    rw [d]
    simp
  · intro i j hp
    simp only at hp
    rw [hpa] at hp
    unfold exit_parent at hp
    split at hp
    · rename_i hc
      have := i4 i curproc hc
      rw [i5 j hp]
      omega
    · exact i4 i j hp

/-- A pass of `wait` by a process that can make calls keeps the shape of the
family tree. -/
theorem fam_inv_wait {t : List proc} {n : Int} {ip : Option Nat} {curproc : Nat}
    (hinv : fam_inv ⟨t, n, ip⟩) (hcall : can_call t curproc) :
    fam_inv ⟨(wait t curproc).2, n, ip⟩ := by
  obtain ⟨hc1, hc2, hc3⟩ := hcall
  rcases wait_cases t curproc with ⟨hw, _⟩ | ⟨z, hz, hzc, _, hw⟩ | ⟨hw, _⟩
  · rw [hw]; exact hinv
  · rw [hw]
    obtain ⟨i1, i2, i3, rank, i4, i5⟩ := hinv
    simp only at i1 i2 i3 i4 i5 ⊢
    have hnotz : ∀ j, (ptable_proc t j).state ≠ procstate.ZOMBIE → j ≠ z := by
      rintro j h rfl
      exact h hzc.2
    refine ⟨?_, ?_, ?_, ⟨rank, ?_, i5⟩⟩
    · intro i hs
      simp only at hs ⊢
      rw [ptable_proc_update _ _ _ _ hz] at hs ⊢
      by_cases hi : i = z
      · rw [if_pos hi]; rfl
      · rw [if_neg hi] at hs ⊢
        exact i1 i hs
    · intro i j hp
      simp only at hp ⊢
      rw [ptable_proc_update _ _ _ _ hz] at hp
      rw [length_update_slot]
      by_cases hi : i = z
      · rw [if_pos hi] at hp
        cases hp
      · rw [if_neg hi] at hp
        obtain ⟨a, b, c⟩ := i2 i j hp
        rw [ptable_proc_update_other _ (Ne.symm (hnotz j c))]
        exact ⟨a, b, c⟩
    · intro r hr
      simp only at hr ⊢
      obtain ⟨a, b, c, d⟩ := i3 r hr
      rw [length_update_slot, ptable_proc_update_other _ (Ne.symm (hnotz r c))]
      exact ⟨a, b, c, d⟩
    · intro i j hp
      simp only at hp
      rw [ptable_proc_update _ _ _ _ hz] at hp
      by_cases hi : i = z
      · rw [if_pos hi] at hp
        cases hp
      · rw [if_neg hi] at hp
        exact i4 i j hp
  · rw [hw]
    obtain ⟨i1, i2, i3, rank, i4, i5⟩ := hinv
    simp only at i1 i2 i3 i4 i5 ⊢
    have hpar : ∀ j, (ptable_proc (update_slot t curproc (go_to_sleep (Chan.slot curproc)))
        j).parent = (ptable_proc t j).parent := by
      intro j
      rw [ptable_proc_update _ _ _ _ hc1]
      split
      · rename_i h; rw [h]; rfl
      · rfl
    have hlive : ∀ j, (ptable_proc t j).state ≠ procstate.UNUSED →
        (ptable_proc t j).state ≠ procstate.ZOMBIE →
        (ptable_proc (update_slot t curproc (go_to_sleep (Chan.slot curproc))) j).state
          ≠ procstate.UNUSED ∧
        (ptable_proc (update_slot t curproc (go_to_sleep (Chan.slot curproc))) j).state
          ≠ procstate.ZOMBIE := by
      intro j h1 h2
      rw [ptable_proc_update _ _ _ _ hc1]
      split
      · exact ⟨by simp [go_to_sleep], by simp [go_to_sleep]⟩
      · exact ⟨h1, h2⟩
    refine ⟨?_, ?_, ?_, ⟨rank, ?_, i5⟩⟩
    · intro i hs
      simp only at hs ⊢
      rw [hpar]
      rw [ptable_proc_update _ _ _ _ hc1] at hs
      by_cases hi : i = curproc
      · rw [if_pos hi] at hs
        simp [go_to_sleep] at hs
      · rw [if_neg hi] at hs
        exact i1 i hs
    · intro i j hp
      simp only at hp ⊢
      rw [hpar] at hp
      obtain ⟨a, b, c⟩ := i2 i j hp
      rw [length_update_slot]
      exact ⟨a, hlive j b c⟩
    · intro r hr
      simp only at hr ⊢
      obtain ⟨a, b, c, d⟩ := i3 r hr
      rw [length_update_slot, hpar]
      exact ⟨a, (hlive r b c).1, (hlive r b c).2, d⟩
    · intro i j hp
      simp only at hp
      rw [hpar] at hp
      exact i4 i j hp

/-- One enabled call keeps the shape of the family tree. -/
theorem fam_inv_step (s : kstate) (op : kernel_op) (hinv : fam_inv s) (hen : enabled s op) :
    fam_inv (step s op) := by
  obtain ⟨t, n, ip⟩ := s
  cases op with
  | allocproc kalloc =>
    simp only [step]
    rcases allocproc_cases kalloc n t with ⟨_, hal⟩ | ⟨np, hlow, _, h2, h3, _, h5, _⟩
    · rw [hal]; exact hinv
    · refine fam_inv_alloc hinv h2 hlow.2.1 ?_ h5
      intro j hj
      rw [h3 j hj]
      exact same_identity_refl _
  | userinit kalloc setupkvm pgsize safestrcpy ticks =>
    obtain ⟨_, hk, hs, j, hj, hju⟩ := hen
    simp only at hj hju
    obtain ⟨np, hlow⟩ : ∃ np, lowest_unused t np := by
      cases hfs : first_slot t.length
          (fun j => decide ((ptable_proc t j).state = procstate.UNUSED)) with
      | none => exact absurd hju (no_unused_iff.mpr hfs j hj)
      | some np => exact ⟨np, lowest_unused_iff.mpr hfs⟩
    obtain ⟨s', hu, _, h2, h3, h4, _, h6, h7⟩ :=
      userinit_cases kalloc setupkvm pgsize safestrcpy ticks ⟨t, n, ip⟩ np hlow hk hs
    simp only [step, hu, Option.getD_some]
    obtain ⟨t', n', ip'⟩ := s'
    simp only at h2 h3 h4 h6 h7
    subst h2
    exact fam_inv_root hinv h3 hlow.1 hlow.2.1 h4 h6 h7
  | fork kalloc copyuvm safestrcpy ticks curproc =>
    simp only [step]
    rcases fork_cases kalloc copyuvm safestrcpy ticks n t curproc with
      ⟨_, hf⟩ | ⟨np, hlow, _, h2, h3, _, ⟨_, _, _, h7⟩ | ⟨_, _, _, h6, h7⟩⟩
    · rw [hf]; exact hinv
    · exact fam_inv_alloc hinv h2 hlow.2.1 h3 h7
    · exact fam_inv_child hinv h2 hlow.2.1 h3 h6 h7 hen.2
  | exit curproc =>
    obtain ⟨⟨hc, _, _⟩, hroot⟩ := hen
    simp only at hc hroot
    obtain ⟨t', hexit, hlen, hslot⟩ := exit_eq ip t curproc hc hroot
    simp only [step, hexit, Option.getD_some]
    exact fam_inv_exit hinv hroot hlen hslot
  | wait curproc =>
    simp only [step]
    exact fam_inv_wait hinv hen
  | kill pid =>
    simp only [step]
    obtain ⟨hlen, hfr⟩ := kill_frame t pid
    exact fam_inv_steady hinv hlen (fun j => ⟨(hfr j).2.1, (hfr j).2.2⟩)
  | transfer_process_queue ticks pid q =>
    simp only [step]
    obtain ⟨hlen, hid⟩ := transfer_process_queue_identity ticks t pid q
    exact fam_inv_steady hinv hlen (fun j => ⟨(hid j).2.2, Or.inl (hid j).1⟩)
  | ageproc now ticks =>
    simp only [step]
    obtain ⟨hlen, hid⟩ := ageproc_identity now ticks t
    exact fam_inv_steady hinv hlen (fun j => ⟨(hid j).2.2, Or.inl (hid j).1⟩)

/-- The shape of the family tree holds in every reachable state, whatever calls
are allowed. -/
theorem fam_inv_reachable (allowed : kernel_op → Prop) (nproc : Nat) (s : kstate)
    (h : reachable allowed nproc s) : fam_inv s := by
  induction h with
  | boot => exact fam_inv_boot nproc
  | step s op _ _ hen ih => exact fam_inv_step s op ih hen

/-- Along `parent` pointers the rank goes down. -/
theorem ancestor_rank (t : List proc) (rank : Nat → Nat)
    (hrank : ∀ i j, (ptable_proc t i).parent = some j → rank j < rank i) :
    ∀ k i j, 1 ≤ k → ancestor t k i = some j → rank j < rank i := by
  intro k
  induction k with
  | zero => intro i j h; omega
  | succ k ih =>
    intro i j _ ha
    unfold ancestor at ha
    cases hp : (ptable_proc t i).parent with
    | none => rw [hp] at ha; cases ha
    | some m =>
      rw [hp] at ha
      simp only [Option.bind] at ha
      have hm := hrank i m hp
      by_cases hk : k = 0
      · subst hk
        simp only [ancestor, Option.some.injEq] at ha
        subst ha
        exact hm
      · have := ih m j (by omega) ha
        omega

/-- C16: in every state reachable from boot by calls made by processes that
have neither been freed nor exited - in particular by `userinit`, `fork` with
its failure paths, `exit` by processes other than `initproc`, and `wait` - no
non-Unused process is its own parent, no chain of `parent` pointers leads from
a slot back to itself, and the parent of a non-Unused process is a slot of the
table that is not Unused. -/
theorem family_tree_spec (allowed : kernel_op → Prop) (nproc : Nat) (s : kstate)
    (h : reachable allowed nproc s) :
    (∀ i, i < s.ptable.length → (ptable_proc s.ptable i).state ≠ procstate.UNUSED →
      (ptable_proc s.ptable i).parent ≠ some i) ∧
    (∀ i k, 1 ≤ k → ancestor s.ptable k i ≠ some i) ∧
    (∀ i, i < s.ptable.length → (ptable_proc s.ptable i).state ≠ procstate.UNUSED →
      ∀ j, (ptable_proc s.ptable i).parent = some j →
        j < s.ptable.length ∧ (ptable_proc s.ptable j).state ≠ procstate.UNUSED) := by
  obtain ⟨_, i2, _, rank, i4, _⟩ := fam_inv_reachable allowed nproc s h
  refine ⟨?_, ?_, ?_⟩
  · intro i _ _ hp
    have := i4 i i hp
    omega
  · intro i k hk ha
    have := ancestor_rank s.ptable rank i4 k i i hk ha
    omega
  · intro i _ _ j hp
    obtain ⟨a, b, _⟩ := i2 i j hp
    exact ⟨a, b⟩

/-- Witness for C16: in `family_sample`, reached by `userinit` and a `fork`, the
child in slot 1 is not its own parent and its parent is not Unused. -/
theorem family_tree_spec_witness :
    (ptable_proc family_sample.ptable 1).parent ≠ some 1 ∧
    (∀ j, (ptable_proc family_sample.ptable 1).parent = some j →
      j < family_sample.ptable.length ∧
        (ptable_proc family_sample.ptable j).state ≠ procstate.UNUSED) :=
  ⟨(family_tree_spec family_op 3 family_sample
      (reachable.step _ _ (reachable.step _ _ reachable.boot trivial (by decide)) trivial
        (by decide))).1 1 (by decide) (by decide),
   (family_tree_spec family_op 3 family_sample
      (reachable.step _ _ (reachable.step _ _ reachable.boot trivial (by decide)) trivial
        (by decide))).2.2 1 (by decide) (by decide)⟩

/-! ## A parent forks, its children exit, the parent waits -/

theorem lowest_unused_unique {t : List proc} {a b : Nat}
    (ha : lowest_unused t a) (hb : lowest_unused t b) : a = b := by
  rcases Nat.lt_trichotomy a b with h | h | h
  · exact absurd ha.2.1 (hb.2.2 a h)
  · exact h
  · exact absurd hb.2.1 (ha.2.2 b h)

theorem parent_lt {t : List proc} {i P : Nat} (h : (ptable_proc t i).parent = some P) :
    i < t.length := by
  by_contra hge
  rw [ptable_proc_ge (by omega)] at h
  cases h

theorem mem_map_fst {K : List (Nat × Int)} {i : Nat} :
    i ∈ K.map Prod.fst ↔ ∃ x, x ∈ K ∧ x.1 = i := by
  simp

/-- While `P` forks, the slots collected are exactly its children. -/
theorem fork_phase_inv (P : Nat) (s0 : kstate) (K : List (Nat × Int)) (s : kstate)
    (hP : ∀ i, (ptable_proc s0.ptable i).parent ≠ some P) (hpid : 1 ≤ s0.nextpid)
    (h : fork_phase P s0 K s) : forked_inv P K s := by
  induction h with
  | start =>
    refine ⟨fun i => ?_, List.nodup_nil, List.nodup_nil, by simp, hpid, by simp⟩
    simp [hP i]
  | fork K s kalloc copyuvm safestrcpy ticks np _ hen hlow hk hc ih =>
    obtain ⟨k1, k2, k3, k4, k5, k6⟩ := ih
    obtain ⟨hw, hcall⟩ := hen
    obtain ⟨t, n, ip⟩ := s
    simp only at k1 k5 k6 hw hcall hlow
    rcases fork_cases kalloc copyuvm safestrcpy ticks n t P with
      ⟨hno, _⟩ | ⟨np', hlow', h1, h2, h3, h4, hfail | ⟨_, _, h5, h6, h7⟩⟩
    · exact absurd hlow.2.1 (hno np hlow.1)
    · rcases hfail.1 with h | h
      · exact absurd h hk
      · exact absurd h hc
    · have hnp : np' = np := lowest_unused_unique hlow' hlow
      subst hnp
      have hnotin : np' ∉ K.map Prod.fst := by
        intro hmem
        obtain ⟨x, hx, hx1⟩ := mem_map_fst.mp hmem
        have := (k6 x hx).2.1
        rw [hx1] at this
        exact this hlow.2.1
      have hPnp : P ≠ np' := by
        rintro rfl
        exact hcall.2.1 hlow.2.1
      simp only [step, h5, h1]
      rw [int_wrap_succ k5 hw]
      refine ⟨?_, ?_, ?_, ?_, by simp only; omega, ?_⟩
      · intro i
        simp only [List.map_cons, List.mem_cons]
        by_cases hi : i = np'
        · subst hi
          simp [h7]
        · rw [(h3 i hi).2.2, k1 i]
          simp [hi]
      · simp only [List.map_cons]
        exact List.nodup_cons.mpr ⟨hnotin, k2⟩
      · simp only [List.map_cons]
        refine List.nodup_cons.mpr ⟨?_, k3⟩
        intro hmem
        obtain ⟨x, hx, hx2⟩ := List.mem_map.mp hmem
        have := (k6 x hx).2.2
        omega
      · simp only [List.map_cons, List.mem_cons, not_or]
        exact ⟨hPnp, k4⟩
      · intro x hx
        simp only [List.mem_cons] at hx
        simp only
        rcases hx with rfl | hx
        · simp only
          rw [h4, h6]
          exact ⟨rfl, by decide, by omega⟩
        · have hx1 : x.1 ≠ np' := by
            intro h
            exact hnotin (mem_map_fst.mpr ⟨x, hx, h⟩)
          obtain ⟨a, b, c⟩ := k6 x hx
          rw [(h3 x.1 hx1).2.1, (h3 x.1 hx1).1]
          exact ⟨a, b, by omega⟩
  | other K s s' _ hby ih =>
    obtain ⟨k1, k2, k3, k4, k5, k6⟩ := ih
    obtain ⟨hn, hstep⟩ := hby
    refine ⟨?_, k2, k3, k4, by omega, ?_⟩
    · intro i
      rw [(hstep i).1, k1 i]
    · intro x hx
      obtain ⟨a, b, c⟩ := k6 x hx
      have hkid : (ptable_proc s.ptable x.1).parent = some P :=
        (k1 x.1).mpr (mem_map_fst.mpr ⟨x, hx, rfl⟩)
      obtain ⟨p1, p2, _⟩ := (hstep x.1).2 hkid
      exact ⟨by rw [p1]; exact a, p2 b, by omega⟩

/-- While the children of `P` exit, they stay its children, keep their pids,
and those that have exited are Zombies. -/
theorem exit_phase_inv (P : Nat) (K : List (Nat × Int)) (s1 : kstate) (done : List Nat)
    (s : kstate) (h1 : forked_inv P K s1)
    (h : exit_phase P (K.map Prod.fst) s1 done s) : exited_inv P K done s := by
  induction h with
  | start =>
    obtain ⟨k1, _, _, k4, _, k6⟩ := h1
    exact ⟨k1, k4, fun x hx => ⟨(k6 x hx).1, (k6 x hx).2.1⟩, by simp⟩
  | exit done s c _ hc hen hside ih =>
    obtain ⟨e1, e2, e3, e4⟩ := ih
    obtain ⟨⟨hc1, hc2, hc3⟩, hroot⟩ := hen
    obtain ⟨t, n, ip⟩ := s
    simp only at e1 e3 e4 hc1 hc2 hc3 hroot hside
    obtain ⟨t', hexit, hlen, hslot⟩ := exit_eq ip t c hc1 hroot
    have hst : ∀ j, (ptable_proc t' j).state = exit_state ip t c j := by
      intro j; rw [hslot j]
    have hpa : ∀ j, (ptable_proc t' j).parent = exit_parent ip t c j := by
      intro j; rw [hslot j]
    have hpi : ∀ j, (ptable_proc t' j).pid = (ptable_proc t j).pid := by
      intro j; rw [hslot j]
    have hcP : c ≠ P := by
      rintro rfl
      exact e2 hc
    simp only [step, hexit, Option.getD_some]
    refine ⟨?_, e2, ?_, ?_⟩
    · intro i
      simp only
      rw [hpa, ← e1 i]
      unfold exit_parent
      by_cases hp : (ptable_proc t i).parent = some c
      · rw [if_pos hp]
        constructor
        · intro hip
          exact absurd hp (hside hip i)
        · intro hiP
          rw [hp] at hiP
          exact absurd (Option.some.inj hiP) hcP
      · rw [if_neg hp]
    · intro x hx
      simp only
      obtain ⟨a, b⟩ := e3 x hx
      rw [hpi, hst]
      refine ⟨a, ?_⟩
      intro hu
      exact b (exit_state_unused ip t c x.1 hu)
    · intro d hd hdK
      simp only [List.mem_cons] at hd
      simp only
      rw [hst]
      unfold exit_state
      by_cases hdc : d = c
      · rw [if_pos hdc]
      · rw [if_neg hdc]
        have hz : (ptable_proc t d).state = procstate.ZOMBIE := by
          rcases hd with h | h
          · exact absurd h hdc
          · exact e4 d h hdK
        rw [hz]
        simp
  | other done s s' _ hby ih =>
    obtain ⟨e1, e2, e3, e4⟩ := ih
    obtain ⟨_, hstep⟩ := hby
    refine ⟨?_, e2, ?_, ?_⟩
    · intro i
      rw [(hstep i).1, e1 i]
    · intro x hx
      obtain ⟨a, b⟩ := e3 x hx
      have hkid : (ptable_proc s.ptable x.1).parent = some P :=
        (e1 x.1).mpr (mem_map_fst.mpr ⟨x, hx, rfl⟩)
      obtain ⟨p1, p2, _⟩ := (hstep x.1).2 hkid
      exact ⟨by rw [p1]; exact a, p2 b⟩
    · intro d hd hdK
      have hkid : (ptable_proc s.ptable d).parent = some P := (e1 d).mpr hdK
      exact ((hstep d).2 hkid).2.2 (e4 d hd hdK)

/-- While `P` waits, each pass of `wait` reaps one more child and returns its
pid, until no child is left and `wait` returns -1; it never sleeps. -/
theorem wait_phase_inv (P : Nat) (K : List (Nat × Int)) (s2 : kstate)
    (R : List wait_result) (s : kstate) (hK : (K.map Prod.fst).Nodup)
    (h2 : waited_inv P K [] s2) (h : wait_phase P s2 R s) : waited_inv P K R s := by
  induction h with
  | start => exact h2
  | wait R s _ ih =>
    obtain ⟨reaped, extra, w1, w2, w3, w4, w5, w6⟩ := ih
    obtain ⟨t, n, ip⟩ := s
    simp only at w3 w4 w5 w6
    have hzombie : ∀ i, (ptable_proc t i).parent = some P → zombie_child t P i := by
      intro i hi
      obtain ⟨x, hx, hx1⟩ := mem_map_fst.mp (w5 i hi)
      rcases w4 x hx with hr | ⟨_, hz, _⟩
      · have := (w3 x hr).2
        rw [hx1] at this
        exact absurd hi this
      · rw [hx1] at hz
        exact ⟨hi, hz⟩
    simp only [step]
    rcases wait_cases t P with ⟨hw, hnz⟩ | ⟨z, hz, hzc, _, hw⟩ | ⟨hw, hnz, ⟨j, hj, hjp⟩, _⟩
    · rw [hw]
      refine ⟨reaped, extra + 1, ?_, w2, w3, w4, w5, ?_⟩
      · rw [w1, List.append_assoc, List.replicate_succ']
      · intro _ i hi
        exact hnz i (parent_lt hi) (hzombie i hi)
    · rw [hw]
      obtain ⟨x, hx, hx1⟩ := mem_map_fst.mp (w5 z hzc.1)
      have hxr : x ∉ reaped := by
        intro hr
        have := (w3 x hr).2
        rw [hx1] at this
        exact this hzc.1
      have hxpid : (ptable_proc t z).pid = x.2 := by
        rcases w4 x hx with hr | ⟨_, _, hp⟩
        · exact absurd hr hxr
        · rw [hx1] at hp
          exact hp
      have hextra : extra = 0 := by
        by_contra hne
        exact w6 (by omega) z hzc.1
      subst hextra
      have hslot : ∀ i, ptable_proc (update_slot t z reap) i =
          if i = z then reap (ptable_proc t z) else ptable_proc t i :=
        fun i => ptable_proc_update t z i reap hz
      have huniq : ∀ y, y ∈ K → y.1 = z → y = x := by
        intro y hy hy1
        have hinj := List.inj_on_of_nodup_map hK
        exact hinj hy hx (by rw [hy1, hx1])
      refine ⟨reaped ++ [x], 0, ?_, ?_, ?_, ?_, ?_, ?_⟩
      · simp only
        rw [w1, hxpid]
        simp
      · exact List.Nodup.append w2 (List.nodup_singleton x) (by simpa using hxr)
      · intro y hy
        simp only [List.mem_append, List.mem_singleton] at hy
        simp only
        rw [hslot]
        rcases hy with hy | rfl
        · refine ⟨(w3 y hy).1, ?_⟩
          by_cases hyz : y.1 = z
          · rw [if_pos hyz]
            simp [reap]
          · rw [if_neg hyz]
            exact (w3 y hy).2
        · refine ⟨hx, ?_⟩
          rw [if_pos hx1]
          simp [reap]
      · intro y hy
        simp only
        rw [hslot]
        by_cases hyz : y.1 = z
        · left
          rw [huniq y hy hyz]
          simp
        · rw [if_neg hyz]
          rcases w4 y hy with hr | hkid
          · left
            simp [hr]
          · right
            exact hkid
      · intro i hi
        simp only at hi
        rw [hslot] at hi
        by_cases hiz : i = z
        · rw [if_pos hiz] at hi
          simp [reap] at hi
        · rw [if_neg hiz] at hi
          exact w5 i hi
      · intro h0
        omega
    · exact absurd (hzombie j hjp) (hnz j hj)
  | other R s s' _ hby ih =>
    obtain ⟨reaped, extra, w1, w2, w3, w4, w5, w6⟩ := ih
    obtain ⟨_, hstep⟩ := hby
    refine ⟨reaped, extra, w1, w2, ?_, ?_, ?_, ?_⟩
    · intro x hx
      refine ⟨(w3 x hx).1, ?_⟩
      intro hp
      exact (w3 x hx).2 ((hstep x.1).1.mp hp)
    · intro x hx
      rcases w4 x hx with hr | ⟨a, b, c⟩
      · exact Or.inl hr
      · right
        obtain ⟨p1, _, p3⟩ := (hstep x.1).2 a
        exact ⟨(hstep x.1).1.mpr a, p3 b, by rw [p1]; exact c⟩
    · intro i hi
      exact w5 i ((hstep i).1.mp hi)
    · intro h0 i hi
      exact w6 h0 i ((hstep i).1.mp hi)

/-- The calls `kill` and `transfer_process_queue` are activity that does not
interfere with the children of any process. -/
theorem bystander_kill_transfer (P : Nat) (s : kstate) :
    (∀ pid, bystander_step P s (step s (kernel_op.kill pid))) ∧
    (∀ ticks pid q,
      bystander_step P s (step s (kernel_op.transfer_process_queue ticks pid q))) := by
  constructor
  · intro pid
    obtain ⟨_, hfr⟩ := kill_frame s.ptable pid
    refine ⟨le_refl _, fun i => ?_⟩
    obtain ⟨h1, h2, h3⟩ := hfr i
    simp only [step]
    rw [h2, h1]
    refine ⟨Iff.rfl, fun _ => ⟨rfl, ?_, ?_⟩⟩
    · intro hu
      rcases h3 with h | ⟨_, h⟩
      · rw [h]; exact hu
      · rw [h]; decide
    · intro hz
      rcases h3 with h | ⟨h, _⟩
      · rw [h]; exact hz
      · rw [hz] at h; cases h
  · intro ticks pid q
    obtain ⟨_, hid⟩ := transfer_process_queue_identity ticks s.ptable pid q
    refine ⟨le_refl _, fun i => ?_⟩
    obtain ⟨h1, h2, h3⟩ := hid i
    simp only [step]
    rw [h3, h2, h1]
    exact ⟨Iff.rfl, fun _ => ⟨rfl, id, id⟩⟩

/-- C14: in a reachable state let the process in slot `P` have no children.
If `P` forks successfully (the list `K` collects the child slots and the pids
`fork` returned), every one of these children then calls `exit`, and `P` then
makes `K.length + 1` passes of `wait`, while the rest of the system adds no
child to `P`, reaps none and passes none on to `P`, then no pass of `wait`
sleeps, the first `K.length` passes return pids that are a permutation of the
pids `fork` returned, these pids are pairwise distinct, and the last pass
returns -1. -/
theorem fork_exit_wait_spec (allowed : kernel_op → Prop) (nproc P : Nat)
    (s0 s1 s2 s3 : kstate) (K : List (Nat × Int)) (done : List Nat) (R : List wait_result)
    (hreach : reachable allowed nproc s0)
    (hP : ∀ i, (ptable_proc s0.ptable i).parent ≠ some P)
    (hf : fork_phase P s0 K s1)
    (he : exit_phase P (K.map Prod.fst) s1 done s2)
    (hall : ∀ c, c ∈ K.map Prod.fst → c ∈ done)
    (hw : wait_phase P s2 R s3)
    (hR : R.length = K.length + 1) :
    ∃ pids : List Int,
      R = pids.map wait_result.returned ++ [wait_result.returned (-1)] ∧
      pids.Perm (K.map Prod.snd) ∧ (K.map Prod.snd).Nodup ∧ pids.length = K.length := by
  have hpid : 1 ≤ s0.nextpid := (pid_inv_reachable allowed nproc s0 hreach).1
  have hforked := fork_phase_inv P s0 K s1 hP hpid hf
  obtain ⟨e1, _, e3, e4⟩ := exit_phase_inv P K s1 done s2 hforked he
  obtain ⟨_, k2, k3, _⟩ := hforked
  have hstart : waited_inv P K [] s2 := by
    refine ⟨[], 0, by simp, List.nodup_nil, by simp, ?_, ?_, by simp⟩
    · intro x hx
      right
      have hmem : x.1 ∈ K.map Prod.fst := mem_map_fst.mpr ⟨x, hx, rfl⟩
      exact ⟨(e1 x.1).mpr hmem, e4 x.1 (hall x.1 hmem) hmem, (e3 x hx).1⟩
    · intro i hi
      exact (e1 i).mp hi
  obtain ⟨reaped, extra, w1, w2, w3, w4, _, w6⟩ := wait_phase_inv P K s2 R s3 k2 hstart hw
  have hKnodup : K.Nodup := List.Nodup.of_map Prod.fst k2
  have hsub : reaped ⊆ K := fun x hx => (w3 x hx).1
  have hle : reaped.length ≤ K.length := (List.subperm_of_subset w2 hsub).length_le
  have hlenR : R.length = reaped.length + extra := by
    rw [w1]; simp
  have hextra : 0 < extra := by omega
  have hperm : reaped.Perm K := by
    refine (List.perm_ext_iff_of_nodup w2 hKnodup).mpr (fun x => ⟨fun hx => hsub hx, fun hx => ?_⟩)
    rcases w4 x hx with h | ⟨h, _⟩
    · exact h
    · exact absurd h (w6 hextra x.1)
  have hlen : reaped.length = K.length := hperm.length_eq
  have hone : extra = 1 := by omega
  refine ⟨reaped.map Prod.snd, ?_, hperm.map Prod.snd, k3, by simp [hlen]⟩
  rw [w1, hone]
  simp [List.map_map, Function.comp]

/-- Witness for C14: from `family_sample`, where `initproc` in slot 0 has
forked the process in slot 1, take `P` to be slot 1: it has no children, forks
a child into slot 2, the child exits, and `P` waits twice. -/
theorem fork_exit_wait_spec_witness :
    ∃ pids : List Int,
      [(wait (step (step family_sample (kernel_op.fork 1000 2000 copy_name 9 1))
            (kernel_op.exit 2)).ptable 1).1,
        (wait (step (step (step family_sample (kernel_op.fork 1000 2000 copy_name 9 1))
            (kernel_op.exit 2)) (kernel_op.wait 1)).ptable 1).1] =
        pids.map wait_result.returned ++ [wait_result.returned (-1)] ∧
      pids.Perm [(fork 1000 2000 copy_name 9 family_sample.nextpid family_sample.ptable 1).1] ∧
      (fork 1000 2000 copy_name 9 family_sample.nextpid family_sample.ptable 1).1 = 3 ∧
      (wait (step (step family_sample (kernel_op.fork 1000 2000 copy_name 9 1))
        (kernel_op.exit 2)).ptable 1).1 = wait_result.returned 3 :=
  let ⟨pids, h1, h2, _⟩ :=
    fork_exit_wait_spec family_op 3 1 family_sample
      (step family_sample (kernel_op.fork 1000 2000 copy_name 9 1))
      (step (step family_sample (kernel_op.fork 1000 2000 copy_name 9 1)) (kernel_op.exit 2))
      (step (step (step (step family_sample (kernel_op.fork 1000 2000 copy_name 9 1))
        (kernel_op.exit 2)) (kernel_op.wait 1)) (kernel_op.wait 1))
      [(2, (fork 1000 2000 copy_name 9 family_sample.nextpid family_sample.ptable 1).1)]
      [2]
      [(wait (step (step family_sample (kernel_op.fork 1000 2000 copy_name 9 1))
            (kernel_op.exit 2)).ptable 1).1,
        (wait (step (step (step family_sample (kernel_op.fork 1000 2000 copy_name 9 1))
            (kernel_op.exit 2)) (kernel_op.wait 1)).ptable 1).1]
      (reachable.step _ _ (reachable.step _ _ reachable.boot trivial (by decide)) trivial
        (by decide))
      (by
        intro i
        by_cases hi : i < family_sample.ptable.length
        · have hi3 : i = 0 ∨ i = 1 ∨ i = 2 := by
            have : family_sample.ptable.length = 3 := by decide
            omega
          rcases hi3 with rfl | rfl | rfl <;> decide
        · rw [ptable_proc_ge (by omega)]
          decide)
      (fork_phase.fork _ _ _ 1000 2000 copy_name 9 2 (fork_phase.start _) (by decide)
        (by decide) (by decide) (by decide))
      (exit_phase.exit _ _ _ 2 (exit_phase.start _) (by decide) (by decide)
        (fun h => absurd h (by decide)))
      (by decide)
      (wait_phase.wait _ _ _ (wait_phase.wait _ _ _ (wait_phase.start _)))
      (by decide)
  ⟨pids, h1, h2, by decide, by decide⟩

/-! ## `roundrobin` does not repeat its pick -/

/-- The circular order ends with `last`, and `last` occurs nowhere before. -/
theorem circular_order_last (n last : Nat) (hl : last < n) :
    circular_order n last =
      (List.range' (last + 1) (n - (last + 1)) ++ List.range last) ++ [last] := by
  rw [circular_order_explicit n last hl, List.range_succ, List.append_assoc]

/-- C21: for a valid slot `last`, if `roundrobin(last)` returns `last` itself
then no other slot of the table is Runnable and in the RR queue; and whenever
some other slot is Runnable and in the RR queue, `roundrobin(last)` returns a
slot different from `last` (a Runnable RR slot of the table). -/
theorem roundrobin_not_twice (t : List proc) (last : Nat) (hl : last < t.length) :
    (roundrobin t last = some (some last) →
      ∀ i, i < t.length → i ≠ last → ¬ runnable_in RR (ptable_proc t i)) ∧
    ((∃ i, i < t.length ∧ i ≠ last ∧ runnable_in RR (ptable_proc t i)) →
      ∃ r, roundrobin t last = some (some r) ∧ r ≠ last ∧ r < t.length ∧
        runnable_in RR (ptable_proc t r)) := by
  have hrr := roundrobin_returns t last hl
  rw [circular_order_last _ _ hl, List.find?_append] at hrr
  have hmem : ∀ i, i ∈ List.range' (last + 1) (t.length - (last + 1)) ++ List.range last ↔
      i < t.length ∧ i ≠ last := by
    intro i
    simp only [List.mem_append, List.mem_range'_1, List.mem_range]
    omega
  cases hfind : (List.range' (last + 1) (t.length - (last + 1)) ++ List.range last).find?
      (fun i => decide (runnable_in RR (ptable_proc t i))) with
  | none =>
    have hnone := List.find?_eq_none.mp hfind
    constructor
    · intro _ i hi hne hrun
      exact hnone i ((hmem i).mpr ⟨hi, hne⟩) (by simpa using hrun)
    · rintro ⟨i, hi, hne, hrun⟩
      exact absurd (by simpa using hrun) (hnone i ((hmem i).mpr ⟨hi, hne⟩))
  | some r =>
    have hr := (hmem r).mp (List.mem_of_find?_eq_some hfind)
    have hp : runnable_in RR (ptable_proc t r) := by simpa using List.find?_some hfind
    rw [hfind] at hrr
    have hret : roundrobin t last = some (some r) := by
      rw [hrr]; rfl
    constructor
    · intro h
      rw [hret] at h
      simp only [Option.some.injEq] at h
      exact absurd h hr.2
    · intro _
      exact ⟨r, hret, hr.2, hr.1, hp⟩

/-- Witness for C21: with slots 1 and 2 Runnable in RR and `last = 1`, slot 2
is another Runnable RR slot, and `roundrobin` returns slot 2, not slot 1. -/
theorem roundrobin_not_twice_witness :
    ∃ r, roundrobin [sample_proc LCFS 0, sample_proc RR 0, sample_proc RR 0] 1 = some (some r) ∧
      r ≠ 1 ∧ r < 3 ∧
      runnable_in RR (ptable_proc [sample_proc LCFS 0, sample_proc RR 0, sample_proc RR 0] r) :=
  (roundrobin_not_twice [sample_proc LCFS 0, sample_proc RR 0, sample_proc RR 0] 1
    (by decide)).2 ⟨2, by decide, by decide, by decide⟩

/-! ## The selection step picks a Runnable process -/

/-- A Runnable slot lies inside the table: beyond its end the zero-filled slot
is read, which is Unused. -/
theorem runnable_lt {t : List proc} {i : Nat}
    (h : (ptable_proc t i).state = procstate.RUNNABLE) : i < t.length := by
  by_contra hge
  rw [ptable_proc_ge (by omega)] at h
  exact absurd h (by decide)

/-- C24: for a valid `last_RR` and any `last_LCFS`, the selection step of
`scheduler` returns; a process it picks is a slot of the table in state
Runnable (so the assignment `p->state = RUNNING` that follows hits a Runnable
slot only); and whenever some slot is Runnable and in the RR queue, a process
is picked and it is Runnable and in the RR queue. -/
theorem scheduler_select_runnable (t : List proc) (last_RR : Nat) (last_LCFS : Option Nat)
    (hl : last_RR < t.length) :
    ∃ pick, scheduler_select t last_RR last_LCFS = some pick ∧
      (∀ p, pick.p = some p →
        p < t.length ∧ (ptable_proc t p).state = procstate.RUNNABLE ∧
        (ptable_proc t p).state ≠ procstate.UNUSED ∧
        (ptable_proc t p).state ≠ procstate.EMBRYO ∧
        (ptable_proc t p).state ≠ procstate.SLEEPING ∧
        (ptable_proc t p).state ≠ procstate.RUNNING ∧
        (ptable_proc t p).state ≠ procstate.ZOMBIE) ∧
      ((∃ i, i < t.length ∧ runnable_in RR (ptable_proc t i)) →
        ∃ p, pick.p = some p ∧ p < t.length ∧ runnable_in RR (ptable_proc t p)) := by
  have hstates : ∀ p, (ptable_proc t p).state = procstate.RUNNABLE →
      p < t.length ∧ (ptable_proc t p).state = procstate.RUNNABLE ∧
      (ptable_proc t p).state ≠ procstate.UNUSED ∧
      (ptable_proc t p).state ≠ procstate.EMBRYO ∧
      (ptable_proc t p).state ≠ procstate.SLEEPING ∧
      (ptable_proc t p).state ≠ procstate.RUNNING ∧
      (ptable_proc t p).state ≠ procstate.ZOMBIE := by
    intro p hp
    refine ⟨runnable_lt hp, hp, ?_, ?_, ?_, ?_, ?_⟩ <;> (rw [hp]; decide)
  have hrr := roundrobin_returns t last_RR hl
  cases hfind : (circular_order t.length last_RR).find?
      (fun i => decide (runnable_in RR (ptable_proc t i))) with
  | some r =>
    rw [hfind] at hrr
    have hp : runnable_in RR (ptable_proc t r) := by simpa using List.find?_some hfind
    refine ⟨⟨some r, r, last_LCFS⟩, by simp only [scheduler_select, hrr], ?_, ?_⟩
    · intro p hpick
      simp only [Option.some.injEq] at hpick
      subst hpick
      exact hstates _ hp.1
    · intro _
      exact ⟨r, rfl, runnable_lt hp.1, hp⟩
  | none =>
    rw [hfind] at hrr
    have hnone : ∀ i, i < t.length → ¬ runnable_in RR (ptable_proc t i) := by
      intro i hi hrun
      exact List.find?_eq_none.mp hfind i ((mem_circular_order _ _ _ hl).mpr hi)
        (by simpa using hrun)
    have hno : ¬ ∃ i, i < t.length ∧ runnable_in RR (ptable_proc t i) :=
      fun ⟨i, hi, hrun⟩ => hnone i hi hrun
    have hbjf : ∀ b, best_job_first t = some b →
        (ptable_proc t b).state = procstate.RUNNABLE := by
      intro b hb
      exact ((best_job_first_invariant t t.length).2 b hb).2.1.1
    have hlcfs : ∀ b, lcfs t = some b → (ptable_proc t b).state = procstate.RUNNABLE :=
      fun b hb => (lcfs_some t b hb).2.1.1
    by_cases hcont : last_LCFS ≠ none ∧ state_at t last_LCFS = some procstate.RUNNABLE
    · obtain ⟨l, rfl⟩ : ∃ l, last_LCFS = some l := by
        cases last_LCFS with
        | none => exact absurd rfl hcont.1
        | some l => exact ⟨l, rfl⟩
      have hrun : (ptable_proc t l).state = procstate.RUNNABLE := by
        simpa [state_at] using hcont.2
      refine ⟨⟨some l, last_RR, some l⟩, ?_, ?_, fun h => absurd h hno⟩
      · simp [scheduler_select, hrr, hcont.2]
      · intro p hpick
        simp only [Option.some.injEq] at hpick
        subst hpick
        exact hstates _ hrun
    · by_cases hskip : last_LCFS = none ∨ state_at t last_LCFS ≠ some procstate.RUNNING
      · cases hq : lcfs t with
        | some q =>
          refine ⟨⟨some q, last_RR, some q⟩, ?_, ?_, fun h => absurd h hno⟩
          · simp only [scheduler_select, hrr, hcont, hskip, if_true, if_false, hq]
          · intro p hpick
            simp only [Option.some.injEq] at hpick
            subst hpick
            exact hstates _ (hlcfs _ hq)
        | none =>
          refine ⟨⟨best_job_first t, last_RR, last_LCFS⟩, ?_, ?_, fun h => absurd h hno⟩
          · simp only [scheduler_select, hrr, hcont, hskip, if_true, if_false, hq]
          · intro p hpick
            exact hstates _ (hbjf _ hpick)
      · refine ⟨⟨best_job_first t, last_RR, last_LCFS⟩, ?_, ?_, fun h => absurd h hno⟩
        · simp only [scheduler_select, hrr, hcont, hskip, if_false]
        · intro p hpick
          exact hstates _ (hbjf _ hpick)

/-- Witness for C24: in `sched_sample` with `last_RR = 2` the selection step
picks a process, and the picked slot is Runnable. -/
theorem scheduler_select_runnable_witness :
    ∃ pick, scheduler_select sched_sample 2 (some 0) = some pick ∧
      ∀ p, pick.p = some p →
        p < sched_sample.length ∧ (ptable_proc sched_sample p).state = procstate.RUNNABLE :=
  let ⟨pick, h1, h2, _⟩ := scheduler_select_runnable sched_sample 2 (some 0) (by decide)
  ⟨pick, h1, fun p hp => ⟨(h2 p hp).1, (h2 p hp).2.1⟩⟩

/-! ## The rank and the size of the address space -/

theorem bit_length_loop_zero (fuel : Nat) : bit_length_loop fuel 0 = 0 := by
  cases fuel <;> simp [bit_length_loop]

theorem bit_length_loop_spec (fuel : Nat) :
    ∀ n, n ≠ 0 → n < 2 ^ fuel →
      2 ^ (bit_length_loop fuel n - 1) ≤ n ∧ n < 2 ^ bit_length_loop fuel n := by
  induction fuel with
  | zero =>
    intro n h0 hlt
    simp at hlt
    exact absurd hlt h0
  | succ f ih =>
    intro n h0 hlt
    rw [bit_length_loop, if_neg h0, Nat.add_sub_cancel]
    by_cases h2 : n / 2 = 0
    · have h1 : n = 1 := by omega
      subst h1
      simp [bit_length_loop_zero]
    · have hlt2 : n / 2 < 2 ^ f := by
        rw [Nat.pow_succ] at hlt
        omega
      obtain ⟨hlo, hhi⟩ := ih (n / 2) h2 hlt2
      have hpos : 1 ≤ bit_length_loop f (n / 2) := by
        by_contra hc
        have hz : bit_length_loop f (n / 2) = 0 := by omega
        rw [hz] at hhi
        simp at hhi
        exact h2 hhi
      constructor
      · have : 2 ^ bit_length_loop f (n / 2) = 2 ^ (bit_length_loop f (n / 2) - 1) * 2 := by
          rw [← Nat.pow_succ]
          congr 1
          omega
        omega
      · rw [Nat.pow_succ]
        omega

theorem bit_length_words_spec (fuel : Nat) :
    ∀ n, n ≠ 0 → n < fuel →
      2 ^ (bit_length_words fuel n - 1) ≤ n ∧ n < 2 ^ bit_length_words fuel n := by
  induction fuel with
  | zero => intro n _ hlt; omega
  | succ f ih =>
    intro n h0 hlt
    rw [bit_length_words]
    by_cases hsmall : n < 4294967296
    · rw [if_pos hsmall]
      exact bit_length_loop_spec 32 n h0 (by norm_num; exact hsmall)
    · rw [if_neg hsmall, Nat.add_sub_assoc]
      · have hq0 : n / 4294967296 ≠ 0 := by omega
        obtain ⟨hlo, hhi⟩ := ih (n / 4294967296) hq0 (by omega)
        generalize bit_length_words f (n / 4294967296) = W at hlo hhi ⊢
        have hpos : 1 ≤ W := by
          by_contra hc
          have hz : W = 0 := by omega
          rw [hz] at hhi
          simp at hhi
          exact hq0 hhi
        have hK : (4294967296 : Nat) = 2 ^ 32 := by norm_num
        have e1 : 2 ^ (W + (32 - 1)) = 2 ^ (W - 1) * 2 ^ 32 := by
          rw [← Nat.pow_add]
          congr 1
          omega
        have e2 : 2 ^ (W + 32) = 2 ^ W * 2 ^ 32 := Nat.pow_add 2 W 32
        rw [e1, e2, ← hK]
        constructor
        · calc 2 ^ (W - 1) * 4294967296
              ≤ n / 4294967296 * 4294967296 := Nat.mul_le_mul_right _ hlo
            _ ≤ n := Nat.div_mul_le_self n 4294967296
        · calc n < (n / 4294967296 + 1) * 4294967296 :=
                (Nat.div_lt_iff_lt_mul (by norm_num)).mp (Nat.lt_succ_self _)
            _ ≤ 2 ^ W * 4294967296 := Nat.mul_le_mul_right _ hhi
      · norm_num

theorem bit_length_spec (n : Nat) (h : n ≠ 0) :
    2 ^ (bit_length n - 1) ≤ n ∧ n < 2 ^ bit_length n :=
  bit_length_words_spec (n + 1) n h (Nat.lt_succ_self n)

/-- When `M * 2^E` has the form `m * 2^e` with `m < 2^24` and `e ≤ 253`,
rounding is exact. -/
theorem round_of_exact (neg : Bool) (M : Nat) (E : Int) (hM : M ≠ 0) (m e : Nat)
    (hm : m < 16777216) (he : e ≤ 253) (heq : (M : ℚ) * 2 ^ E = (m : ℚ) * 2 ^ e) :
    ∃ m1 e1, float.round neg M E = float.finite neg m1 e1 ∧
      (m1 : ℚ) * 2 ^ e1 = (M : ℚ) * 2 ^ E := by
  obtain ⟨a, b, hE, hab⟩ : ∃ a b : Nat, E = (a : Int) - b ∧ (a = 0 ∨ b = 0) := by
    cases E with
    | ofNat n => exact ⟨n, 0, by simp, Or.inr rfl⟩
    | negSucc n => exact ⟨0, n + 1, by simp [Int.negSucc_eq], Or.inl rfl⟩
  subst hE
  have h2 : (2 : ℚ) ≠ 0 := by norm_num
  rw [zpow_sub₀ h2, zpow_natCast, zpow_natCast] at heq ⊢
  have hnat : M * 2 ^ a = m * 2 ^ (e + b) := by
    have h := heq
    field_simp at h
    rw [pow_add, ← mul_assoc]
    exact_mod_cast h
  obtain ⟨hlo, hhi⟩ := bit_length_spec M hM
  have hbl1 : 1 ≤ bit_length M := by
    by_contra hc
    have hz : bit_length M = 0 := by omega
    rw [hz] at hhi
    simp at hhi
    exact hM hhi
  have hF : bit_length M + a < 25 + (e + b) := by
    have h1 : 2 ^ (bit_length M - 1) * 2 ^ a ≤ M * 2 ^ a := Nat.mul_le_mul_right _ hlo
    have h3 : m * 2 ^ (e + b) < 16777216 * 2 ^ (e + b) :=
      Nat.mul_lt_mul_of_pos_right hm (Nat.pow_pos (by norm_num))
    have h4 : 2 ^ (bit_length M - 1 + a) < 2 ^ (24 + (e + b)) := by
      rw [Nat.pow_add, Nat.pow_add 2 24]
      calc 2 ^ (bit_length M - 1) * 2 ^ a ≤ M * 2 ^ a := h1
        _ = m * 2 ^ (e + b) := hnat
        _ < 16777216 * 2 ^ (e + b) := h3
        _ = 2 ^ 24 * 2 ^ (e + b) := by norm_num
    have h5 := (Nat.pow_lt_pow_iff_right (by norm_num : 1 < 2)).mp h4
    omega
  unfold float.round
  rw [if_neg hM]
  dsimp only
  generalize hmax : max ((a : Int) - b + (bit_length M : Int) - 24) 0 = e0
  have he0 : 0 ≤ e0 ∧ e0 ≤ 253 := by omega
  obtain ⟨d, hd⟩ : ∃ d : Nat, e0 = d := ⟨e0.toNat, by omega⟩
  subst hd
  by_cases hle : (d : Int) ≤ (a : Int) - b
  · rw [if_pos hle, if_neg (by omega)]
    refine ⟨_, _, rfl, ?_⟩
    obtain ⟨c, hc⟩ : ∃ c : Nat, ((a : Int) - b - d).toNat = c := ⟨_, rfl⟩
    rw [hc, Int.toNat_ofNat]
    have hadd : c + d + b = a := by omega
    have hpow : (2 : ℚ) ^ c * 2 ^ d * 2 ^ b = 2 ^ a := by
      rw [← pow_add, ← pow_add, hadd]
    push_cast
    field_simp
    linear_combination (M : ℚ) * hpow
  · rw [if_neg hle]
    obtain ⟨k, hk⟩ : ∃ k : Nat, ((d : Int) - ((a : Int) - b)).toNat = k := ⟨_, rfl⟩
    rw [hk]
    have hk1 : 1 ≤ k := by omega
    have hak : a + k ≤ e + b := by omega
    have hdvd : M = m * 2 ^ (e + b - a - k) * 2 ^ k := by
      have h6 : m * 2 ^ (e + b) = m * 2 ^ (e + b - a - k) * 2 ^ k * 2 ^ a := by
        rw [mul_assoc, mul_assoc, ← Nat.pow_add, ← Nat.pow_add]
        congr 2
        omega
      exact Nat.eq_of_mul_eq_mul_right (Nat.pow_pos (by norm_num : 0 < 2)) (hnat.trans h6)
    have hpk : 0 < 2 ^ k := Nat.pow_pos (by norm_num)
    have hr : M % 2 ^ k = 0 := by
      rw [hdvd]
      exact Nat.mul_mod_left _ _
    have hq : M / 2 ^ k = m * 2 ^ (e + b - a - k) := by
      rw [hdvd]
      exact Nat.mul_div_cancel _ hpk
    have hq24 : M / 2 ^ k < 16777216 := by
      rw [Nat.div_lt_iff_lt_mul hpk]
      calc M < 2 ^ bit_length M := hhi
        _ ≤ 2 ^ (24 + k) := Nat.pow_le_pow_right (by norm_num) (by omega)
        _ = 16777216 * 2 ^ k := by rw [Nat.pow_add]
    have hcond : ¬ (2 ^ (k - 1) < M % 2 ^ k ∨ (M % 2 ^ k = 2 ^ (k - 1) ∧ M / 2 ^ k % 2 = 1)) := by
      rw [hr]
      have : 0 < 2 ^ (k - 1) := Nat.pow_pos (by norm_num)
      rintro (h | ⟨h, _⟩) <;> omega
    have hne : M / 2 ^ k ≠ 16777216 := by omega
    rw [if_neg hcond, if_neg hne, if_neg hne, if_neg (by omega), Int.toNat_ofNat]
    refine ⟨_, _, rfl, ?_⟩
    rw [hq]
    have hadd : e + b - a - k + d + b + a + k = e + b + (a + k) + (d + b) - (a + k) := by omega
    have hdk : d + b = a + k := by omega
    have hM' : (M : ℚ) = m * 2 ^ (e + b - a - k) * 2 ^ k := by exact_mod_cast hdvd
    have hpow : (2 : ℚ) ^ d * 2 ^ b = 2 ^ k * 2 ^ a := by
      rw [← pow_add, ← pow_add, hdk, Nat.add_comm]
    rw [hM']
    push_cast
    field_simp
    linear_combination (m : ℚ) * 2 ^ (e + b - a - k) * hpow

/-- Rounding a number that is a finite `float` gives that number. -/
theorem round_exact (neg : Bool) (M : Nat) (E : Int)
    (h : representable ((if neg then -1 else 1) * (M : ℚ) * 2 ^ E / 2 ^ 149)) :
    (float.round neg M E).val = some ((if neg then -1 else 1) * (M : ℚ) * 2 ^ E / 2 ^ 149) := by
  by_cases hM : M = 0
  · subst hM
    simp [float.round, float.val]
  · obtain ⟨neg1, m, e, hm, he, hv⟩ := h
    simp only [float.val, Option.some.injEq] at hv
    have hpos : (0 : ℚ) < (M : ℚ) * 2 ^ E :=
      mul_pos (by exact_mod_cast Nat.pos_of_ne_zero hM) (zpow_pos (by norm_num) E)
    have hnn : (0 : ℚ) ≤ (m : ℚ) * 2 ^ e := by positivity
    have heq : (M : ℚ) * 2 ^ E = (m : ℚ) * 2 ^ e := by
      have h149 : (2 : ℚ) ^ 149 ≠ 0 := by positivity
      rw [div_left_inj' h149] at hv
      cases neg <;> cases neg1 <;> simp at hv <;> linarith
    obtain ⟨m1, e1, hr, hval⟩ := round_of_exact neg M E hM m e hm he heq
    rw [hr]
    simp only [float.val, Option.some.injEq]
    rw [mul_assoc, mul_assoc, hval]

theorem of_uint_exact (n : Nat) (h : representable (n : ℚ)) :
    (float.of_uint n).val = some (n : ℚ) := by
  have e : ((if false = true then -1 else 1) * (n : ℚ) * 2 ^ (149 : Int) / 2 ^ 149) = (n : ℚ) := by
    norm_num
  have := round_exact false n 149 (by rw [e]; exact h)
  rw [e] at this
  exact this

theorem of_int_exact (i : Int) (h : representable (i : ℚ)) :
    (float.of_int i).val = some (i : ℚ) := by
  have e : ((if decide (i < 0) = true then -1 else 1) * (i.natAbs : ℚ) * 2 ^ (149 : Int) / 2 ^ 149)
      = (i : ℚ) := by
    have h2 : ((i.natAbs : Nat) : ℚ) = |(i : ℚ)| := by
      rw [Nat.cast_natAbs, Int.cast_abs]
    rw [h2]
    by_cases hi : i < 0
    · have : (i : ℚ) < 0 := by exact_mod_cast hi
      simp only [hi, decide_True, if_true]
      rw [abs_of_neg this]
      norm_num
    · have : (0 : ℚ) ≤ (i : ℚ) := by exact_mod_cast (not_lt.mp hi)
      simp only [hi, decide_False, Bool.false_eq_true, if_false]
      rw [abs_of_nonneg this]
      norm_num
  have := round_exact (decide (i < 0)) i.natAbs 149 (by rw [e]; exact h)
  rw [e] at this
  exact this

theorem mul_exact (x y : float) (a b : ℚ) (hx : x.val = some a) (hy : y.val = some b)
    (h : representable (a * b)) : (x.mul y).val = some (a * b) := by
  cases x with
  | inf s => simp [float.val] at hx
  | nan => simp [float.val] at hx
  | finite s1 m1 e1 =>
    cases y with
    | inf s => simp [float.val] at hy
    | nan => simp [float.val] at hy
    | finite s2 m2 e2 =>
      simp only [float.val, Option.some.injEq] at hx hy
      have e : ((if xor s1 s2 = true then -1 else 1) * ((m1 * m2 : Nat) : ℚ) *
          2 ^ ((e1 : Int) + (e2 : Int) - 149) / 2 ^ 149) = a * b := by
        rw [← hx, ← hy, zpow_sub₀ (by norm_num : (2 : ℚ) ≠ 0), zpow_add₀ (by norm_num : (2 : ℚ) ≠ 0)]
        push_cast
        cases s1 <;> cases s2 <;> simp <;> field_simp <;> ring
      have := round_exact (xor s1 s2) (m1 * m2) ((e1 : Int) + (e2 : Int) - 149)
        (by rw [e]; exact h)
      rw [e] at this
      exact this

theorem key_val (s : Bool) (m e : Nat) :
    ((float.key s m e : Int) : ℚ) / 2 ^ 149 = (if s then -1 else 1) * (m : ℚ) * 2 ^ e / 2 ^ 149 := by
  cases s <;> simp [float.key]

theorem add_exact (x y : float) (a b : ℚ) (hx : x.val = some a) (hy : y.val = some b)
    (h : representable (a + b)) : (x.add y).val = some (a + b) := by
  cases x with
  | inf s => simp [float.val] at hx
  | nan => simp [float.val] at hx
  | finite s1 m1 e1 =>
    cases y with
    | inf s => simp [float.val] at hy
    | nan => simp [float.val] at hy
    | finite s2 m2 e2 =>
      simp only [float.val, Option.some.injEq] at hx hy
      have hsum : (((float.key s1 m1 e1 + float.key s2 m2 e2 : Int)) : ℚ) / 2 ^ 149 = a + b := by
        rw [← hx, ← hy, ← key_val, ← key_val]
        push_cast
        ring
      unfold float.add
      dsimp only
      by_cases hz : float.key s1 m1 e1 + float.key s2 m2 e2 = 0
      · rw [if_pos hz]
        rw [hz] at hsum
        simp only [float.val, Option.some.injEq]
        rw [← hsum]
        simp
      · rw [if_neg hz]
        generalize float.key s1 m1 e1 + float.key s2 m2 e2 = S at hz hsum ⊢
        have e : ((if decide (S < 0) = true then -1 else 1) * (S.natAbs : ℚ) * 2 ^ (0 : Int)
            / 2 ^ 149) = a + b := by
          rw [← hsum]
          have h2 : ((S.natAbs : Nat) : ℚ) = |(S : ℚ)| := by
            rw [Nat.cast_natAbs, Int.cast_abs]
          rw [h2]
          by_cases hi : S < 0
          · have : (S : ℚ) < 0 := by exact_mod_cast hi
            simp only [hi, decide_True, if_true]
            rw [abs_of_neg this]
            norm_num
          · have : (0 : ℚ) ≤ (S : ℚ) := by exact_mod_cast (not_lt.mp hi)
            simp only [hi, decide_False, Bool.false_eq_true, if_false]
            rw [abs_of_nonneg this]
            norm_num
        have := round_exact (decide (S < 0)) S.natAbs 0 (by rw [e]; exact h)
        rw [e] at this
        exact this


/-- A natural number below `2^24` is a finite `float`. -/
theorem representable_nat (n : Nat) (h : n < 16777216) : representable (n : ℚ) :=
  ⟨false, n, 149, h, by norm_num, by simp [float.val]⟩

/-- When no step is rounded, the rank is the exact weighted sum of `priority`,
`arrival_time`, `executed_cycle` and the size `sz`. -/
theorem calc_bjf_rank_exact (p : proc) (h : rank_unrounded p) :
    (calc_bjf_rank p).val = exact_rank p ∧ exact_rank p ≠ none := by
  obtain ⟨pr, ar, ec, er, sr, h1, h2, h3, h4, h5, r1, r2, r3, m1, m2, m3, m4, s1, s2, s3⟩ := h
  have hexact : exact_rank p = some ((p.mfq_info.bjf.priority : ℚ) * pr +
      (p.mfq_info.bjf.arrival_time : ℚ) * ar + ec * er + (p.sz : ℚ) * sr) := by
    unfold exact_rank
    rw [h1, h2, h3, h4, h5]
    rfl
  rw [hexact]
  refine ⟨?_, by simp⟩
  unfold calc_bjf_rank
  exact add_exact _ _ _ _
    (add_exact _ _ _ _
      (add_exact _ _ _ _
        (mul_exact _ _ _ _ (of_int_exact _ r1) h1 m1)
        (mul_exact _ _ _ _ (of_int_exact _ r2) h2 m2) s1)
      (mul_exact _ _ _ _ h3 h4 m3) s2)
    (mul_exact _ _ _ _ (of_uint_exact _ r3) h5 m4) s3

/-- With the ratios `allocproc` sets (all 1), no executed cycles, and a
priority, arrival time and size that are natural numbers of sum below `2^24`,
no step of the rank computation is rounded. -/
theorem rank_unrounded_of_small (p : proc) (a b c : Nat)
    (hpri : p.mfq_info.bjf.priority = a) (harr : p.mfq_info.bjf.arrival_time = b)
    (hsz : p.sz = c)
    (hpr : p.mfq_info.bjf.priority_ratio = float.of_uint 1)
    (har : p.mfq_info.bjf.arrival_time_ratio = float.of_uint 1)
    (hec : p.mfq_info.bjf.executed_cycle = float.of_uint 0)
    (her : p.mfq_info.bjf.executed_cycle_ratio = float.of_uint 1)
    (hsr : p.mfq_info.bjf.process_size_ratio = float.of_uint 1)
    (hsmall : a + b + c < 16777216) : rank_unrounded p := by
  have v1 : (float.of_uint 1).val = some 1 := by
    simpa using of_uint_exact 1 (representable_nat 1 (by norm_num))
  have v0 : (float.of_uint 0).val = some 0 := by
    simpa using of_uint_exact 0 (representable_nat 0 (by norm_num))
  refine ⟨1, 1, 0, 1, 1, by rw [hpr]; exact v1, by rw [har]; exact v1, by rw [hec]; exact v0,
    by rw [her]; exact v1, by rw [hsr]; exact v1, ?_, ?_, ?_, ?_, ?_, ?_, ?_, ?_, ?_, ?_⟩
  all_goals try simp only [hpri, harr, hsz]
  · simpa using representable_nat a (by omega)
  · simpa using representable_nat b (by omega)
  · exact representable_nat c (by omega)
  · simpa using representable_nat a (by omega)
  · simpa using representable_nat b (by omega)
  · simpa using representable_nat 0 (by omega)
  · simpa using representable_nat c (by omega)
  · simpa using representable_nat (a + b) (by omega)
  · simpa using representable_nat (a + b) (by omega)
  · simpa using representable_nat (a + b + c) (by omega)

/-- The stated sum of a slot whose rank inputs are `q`. -/
theorem claimed_rank_of_inputs {p : proc} {q : queue_info} (hq : p.mfq_info.bjf = q) :
    claimed_rank p = weighted_sum (some (q.priority : ℚ)) q.priority_ratio.val
      (some (q.arrival_time : ℚ)) q.arrival_time_ratio.val
      q.executed_cycle.val q.executed_cycle_ratio.val
      q.process_size.val q.process_size_ratio.val := by
  subst hq
  rfl

set_option maxRecDepth 4000 in
/-- C22, as stated, fails. `calc_bjf_rank` multiplies the ratio with the live
size `p->sz`, not with the rank input `process_size`, and computes in `float`.
The child `fork` made in `family_sample` (slot 1, rank inputs 2, 7, 0 and 4096,
ratios 1) has rank 4105; after `growproc(4096)` succeeds its rank inputs are
the same, the stated sum is still 4105, and its rank is 8201. A process with
priority `2^24 + 1`, ratios 1 and nothing else has the stated sum `2^24 + 1`
and the rank `2^24`. In `bjf_sample` the choice of `best_job_first` moves from
slot 0 to slot 1 when slot 0 grows by 8192 bytes. -/
theorem calc_bjf_rank_reads_sz :
    calc_bjf_rank (ptable_proc family_sample.ptable 1) = 4105 ∧
    (growproc resize_ok resize_ok 4096 family_sample.ptable 1).1 = 0 ∧
    (ptable_proc (growproc resize_ok resize_ok 4096 family_sample.ptable 1).2 1).mfq_info.bjf =
      (ptable_proc family_sample.ptable 1).mfq_info.bjf ∧
    (ptable_proc (growproc resize_ok resize_ok 4096 family_sample.ptable 1).2
      1).mfq_info.bjf.process_size = 4096 ∧
    claimed_rank (ptable_proc (growproc resize_ok resize_ok 4096 family_sample.ptable 1).2 1) =
      some 4105 ∧
    calc_bjf_rank (ptable_proc (growproc resize_ok resize_ok 4096 family_sample.ptable 1).2 1) =
      8201 ∧
    (calc_bjf_rank (ptable_proc (growproc resize_ok resize_ok 4096 family_sample.ptable 1).2
      1)).val = some 8201 ∧
    claimed_rank (sample_proc BJF 16777217) = some 16777217 ∧
    (calc_bjf_rank (sample_proc BJF 16777217)).val = some 16777216 ∧
    best_job_first bjf_sample = some 0 ∧
    (growproc resize_ok resize_ok 8192 bjf_sample 0).1 = 0 ∧
    best_job_first (growproc resize_ok resize_ok 8192 bjf_sample 0).2 = some 1 := by
  have v1 : (float.of_uint 1).val = some 1 := by
    simpa using of_uint_exact 1 (representable_nat 1 (by norm_num))
  have v0 : (float.of_uint 0).val = some 0 := by
    simpa using of_uint_exact 0 (representable_nat 0 (by norm_num))
  have v4096 : (float.of_uint 4096).val = some 4096 := by
    simpa using of_uint_exact 4096 (representable_nat 4096 (by norm_num))
  have hgrown : calc_bjf_rank
      (ptable_proc (growproc resize_ok resize_ok 4096 family_sample.ptable 1).2 1) =
      float.of_uint 8201 := by decide
  have hbig : calc_bjf_rank (sample_proc BJF 16777217) = float.finite false 8388608 150 := by
    decide
  refine ⟨by decide, by decide, by decide, by decide, ?_, by decide, ?_, ?_, ?_, by decide,
    by decide, by decide⟩
  · rw [claimed_rank_of_inputs (by decide :
      (ptable_proc (growproc resize_ok resize_ok 4096 family_sample.ptable 1).2 1).mfq_info.bjf =
        ⟨2, float.of_uint 1, 7, float.of_uint 1, float.of_uint 0, float.of_uint 1,
          float.of_uint 4096, float.of_uint 1⟩)]
    simp only [v1, v0, v4096, weighted_sum]
    norm_num
  · rw [hgrown]
    simpa using of_uint_exact 8201 (representable_nat 8201 (by norm_num))
  · rw [claimed_rank_of_inputs (by decide : (sample_proc BJF 16777217).mfq_info.bjf =
      ⟨16777217, float.of_uint 1, 0, float.of_uint 1, float.of_uint 0, float.of_uint 1,
        float.of_uint 0, float.of_uint 1⟩)]
    simp only [v1, v0, weighted_sum]
    norm_num
  · rw [hbig]
    simp only [float.val]
    norm_num

/-- C22, amended: the rank `best_job_first` holds in `min_bjf_rank` is the
`float` `calc_bjf_rank` computes for the slot it returns; that rank does not
depend on the rank input `process_size`; when no step of
its `float` computation is rounded it equals `priority * priority_ratio +
arrival_time * arrival_time_ratio + executed_cycle * executed_cycle_ratio +
sz * process_size_ratio` taken exactly, `sz` being the current size of the
address space; and a `growproc` that succeeds changes the size of the caller
and nothing else, so that the caller then has the rank computed from its new
size, while a `growproc` that fails changes nothing. -/
theorem calc_bjf_rank_spec (p : proc) (t : List proc) (curproc : Nat)
    (allocuvm deallocuvm : Nat → Nat → Nat) (n : Int) (hcur : curproc < t.length) :
    (∀ u b, best_job_first u = some b →
      ((List.range u.length).foldl (best_job_first_body u) (none, 0)).2 =
        calc_bjf_rank (ptable_proc u b)) ∧
    (∀ v, calc_bjf_rank (set_process_size v p) = calc_bjf_rank p) ∧
    (rank_unrounded p → (calc_bjf_rank p).val = exact_rank p ∧ exact_rank p ≠ none) ∧
    ((growproc allocuvm deallocuvm n t curproc).1 = 0 →
      ∃ sz1, (growproc allocuvm deallocuvm n t curproc).2 =
          update_slot t curproc (fun q => { q with sz := sz1 }) ∧
        sz1 = (if 0 < n then allocuvm (ptable_proc t curproc).sz
            (uint_add_int (ptable_proc t curproc).sz n)
          else if n < 0 then deallocuvm (ptable_proc t curproc).sz
            (uint_add_int (ptable_proc t curproc).sz n)
          else (ptable_proc t curproc).sz) ∧
        calc_bjf_rank (ptable_proc (growproc allocuvm deallocuvm n t curproc).2 curproc) =
          calc_bjf_rank { ptable_proc t curproc with sz := sz1 }) ∧
    ((growproc allocuvm deallocuvm n t curproc).1 ≠ 0 →
      (growproc allocuvm deallocuvm n t curproc).2 = t) := by
  refine ⟨fun u b hb => ((best_job_first_invariant u u.length).2 b hb).2.2.1, fun _ => rfl,
    calc_bjf_rank_exact p, ?_, ?_⟩
  · intro h0
    unfold growproc at h0 ⊢
    dsimp only at h0 ⊢
    by_cases hn : n > 0
    · have hn' : 0 < n := hn
      rw [if_pos hn] at h0 ⊢
      rw [if_pos hn']
      by_cases ha : allocuvm (ptable_proc t curproc).sz (uint_add_int (ptable_proc t curproc).sz n)
          = 0
      · rw [if_pos ha] at h0
        exact absurd h0 (by simp)
      · rw [if_neg ha]
        refine ⟨_, rfl, rfl, ?_⟩
        dsimp only
        rw [ptable_proc_update_same _ hcur]
    · have hn' : ¬ 0 < n := hn
      rw [if_neg hn] at h0 ⊢
      rw [if_neg hn']
      by_cases hneg : n < 0
      · rw [if_pos hneg] at h0 ⊢
        rw [if_pos hneg]
        by_cases hd : deallocuvm (ptable_proc t curproc).sz
            (uint_add_int (ptable_proc t curproc).sz n) = 0
        · rw [if_pos hd] at h0
          exact absurd h0 (by simp)
        · rw [if_neg hd]
          refine ⟨_, rfl, rfl, ?_⟩
          dsimp only
          rw [ptable_proc_update_same _ hcur]
      · rw [if_neg hneg]
        rw [if_neg hneg]
        refine ⟨_, rfl, rfl, ?_⟩
        dsimp only
        rw [ptable_proc_update_same _ hcur]
  · intro h0
    unfold growproc at h0 ⊢
    dsimp only at h0 ⊢
    by_cases hn : n > 0
    · rw [if_pos hn] at h0 ⊢
      by_cases ha : allocuvm (ptable_proc t curproc).sz (uint_add_int (ptable_proc t curproc).sz n)
          = 0
      · rw [if_pos ha]
      · rw [if_neg ha] at h0
        exact absurd rfl h0
    · rw [if_neg hn] at h0 ⊢
      by_cases hneg : n < 0
      · rw [if_pos hneg] at h0 ⊢
        by_cases hd : deallocuvm (ptable_proc t curproc).sz
            (uint_add_int (ptable_proc t curproc).sz n) = 0
        · rw [if_pos hd]
        · rw [if_neg hd] at h0
          exact absurd rfl h0
      · rw [if_neg hneg] at h0
        exact absurd rfl h0

set_option maxRecDepth 4000 in
/-- Witness for C22 (amended): the child `fork` made in `family_sample` has
priority 2, arrival time 7, size 4096 and ratios 1: no step is rounded and its
rank is the exact sum 4105; after `growproc(4096)` its size is 8192. -/
theorem calc_bjf_rank_spec_witness :
    ((calc_bjf_rank (ptable_proc family_sample.ptable 1)).val =
        exact_rank (ptable_proc family_sample.ptable 1) ∧
      exact_rank (ptable_proc family_sample.ptable 1) ≠ none) ∧
    ∃ sz1, (growproc resize_ok resize_ok 4096 family_sample.ptable 1).2 =
        update_slot family_sample.ptable 1 (fun q => { q with sz := sz1 }) ∧
      sz1 = 8192 :=
  ⟨(calc_bjf_rank_spec (ptable_proc family_sample.ptable 1) family_sample.ptable 1
      resize_ok resize_ok 4096 (by decide)).2.2.1
      (rank_unrounded_of_small _ 2 7 4096 (by decide) (by decide) (by decide) (by decide)
        (by decide) (by decide) (by decide) (by decide) (by norm_num)),
    let ⟨sz1, h1, h2, _⟩ :=
      (calc_bjf_rank_spec (ptable_proc family_sample.ptable 1) family_sample.ptable 1
        resize_ok resize_ok 4096 (by decide)).2.2.2.1 (by decide)
    ⟨sz1, h1, h2.trans (by decide)⟩⟩

/-! ## The queue types in the table -/

/-- A request on a held pid of at least 1 leaves the lowest-index holder in the
queue asked for (RR for pid 1 and 2) and every other slot as it was. -/
theorem transfer_process_queue_holder (ticks : Nat) (t : List proc) (pid q : Int) (h : Nat)
    (hlow : lowest_holder t pid h) (hp : 1 ≤ pid) :
    (ptable_proc (transfer_process_queue ticks t pid q).2 h).mfq_info.queue_type =
      (if pid = 1 ∨ pid = 2 then RR else q) ∧
    ∀ j, j ≠ h → ptable_proc (transfer_process_queue ticks t pid q).2 j = ptable_proc t j := by
  have hi := hlow.1
  rw [transfer_process_queue_found ticks t pid q h hlow hp]
  generalize (if pid = 1 ∨ pid = 2 then RR else q) = nq
  by_cases hl : nq = LCFS
  · subst hl
    by_cases hq : (ptable_proc t h).mfq_info.queue_type = LCFS
    · rw [if_pos hq, if_pos rfl]
      refine ⟨?_, fun j hj => ptable_proc_update_other _ (Ne.symm hj)⟩
      rw [ptable_proc_update_same _ hi]
      exact hq
    · rw [if_neg hq, if_pos rfl, update_slot_twice]
      dsimp only
      refine ⟨?_, fun j hj => ptable_proc_update_other _ (Ne.symm hj)⟩
      rw [ptable_proc_update_same _ hi]
      rfl
  · by_cases hq : (ptable_proc t h).mfq_info.queue_type = nq
    · rw [if_pos hq, if_neg hl]
      exact ⟨hq, fun _ _ => rfl⟩
    · rw [if_neg hq, if_neg hl]
      dsimp only
      refine ⟨?_, fun j hj => ptable_proc_update_other _ (Ne.symm hj)⟩
      rw [ptable_proc_update_same _ hi]
      rfl

/-- After `transfer_process_queue`, the queue type of a slot is the one it had,
or RR, or the queue asked for. -/
theorem transfer_process_queue_class (ticks : Nat) (t : List proc) (pid q : Int) (j : Nat) :
    (ptable_proc (transfer_process_queue ticks t pid q).2 j).mfq_info.queue_type =
      (ptable_proc t j).mfq_info.queue_type ∨
    (ptable_proc (transfer_process_queue ticks t pid q).2 j).mfq_info.queue_type = RR ∨
    (ptable_proc (transfer_process_queue ticks t pid q).2 j).mfq_info.queue_type = q := by
  by_cases hp : pid < 1
  · have : transfer_process_queue ticks t pid q = (-1, t) := by
      simp [transfer_process_queue, hp]
    rw [this]
    exact Or.inl rfl
  · cases hfs : first_slot t.length (fun j => decide ((ptable_proc t j).pid = pid)) with
    | none =>
      have : transfer_process_queue ticks t pid q = (-1, t) := by
        simp [transfer_process_queue, hp, hfs]
      rw [this]
      exact Or.inl rfl
    | some h =>
      obtain ⟨hq, hoth⟩ :=
        transfer_process_queue_holder ticks t pid q h (lowest_holder_iff.mpr hfs) (by omega)
      by_cases hj : j = h
      · subst hj
        rw [hq]
        split
        · exact Or.inr (Or.inl rfl)
        · exact Or.inr (Or.inr rfl)
      · rw [hoth j hj]
        exact Or.inl rfl

/-- A `transfer_process_queue` that asks for one of the three queues keeps the
queue invariant. -/
theorem queue_inv_transfer {t : List proc} {n : Int} {ip : Option Nat} (ticks : Nat)
    (pid q : Int) (hinv : queue_inv ⟨t, n, ip⟩) (hq : valid_queue q) :
    queue_inv ⟨(transfer_process_queue ticks t pid q).2, n, ip⟩ := by
  obtain ⟨h1, h2, h3, h4⟩ := hinv
  simp only at h1 h2 h3 h4
  obtain ⟨_, hid⟩ := transfer_process_queue_identity ticks t pid q
  have hcls : ∀ j,
      (ptable_proc (transfer_process_queue ticks t pid q).2 j).mfq_info.queue_type =
        (ptable_proc t j).mfq_info.queue_type ∨
      valid_queue (ptable_proc (transfer_process_queue ticks t pid q).2 j).mfq_info.queue_type := by
    intro j
    rcases transfer_process_queue_class ticks t pid q j with h | h | h
    · exact Or.inl h
    · exact Or.inr (by rw [h]; exact Or.inl rfl)
    · exact Or.inr (by rw [h]; exact hq)
  refine ⟨h1, ?_, ?_, ?_⟩
  · intro i
    simp only
    rw [(hid i).2.1]
    exact h2 i
  · intro i
    simp only
    rcases hcls i with h | h
    · rw [h]; exact h3 i
    · exact Or.inr h
  · intro i hs he
    simp only at hs he ⊢
    rcases hcls i with h | h
    · rw [h]
      rw [(hid i).1] at hs he
      exact h4 i hs he
    · exact h

/-- The aging sweep keeps the queue invariant. -/
theorem queue_inv_ageproc {t : List proc} {n : Int} {ip : Option Nat} (now : Nat) (ticks : Int)
    (hinv : queue_inv ⟨t, n, ip⟩) : queue_inv ⟨ageproc now ticks t, n, ip⟩ := by
  have key : ∀ k, queue_inv ⟨(List.range k).foldl (ageproc_body now ticks) t, n, ip⟩ := by
    intro k
    induction k with
    | zero => exact hinv
    | succ k ih =>
      rw [List.range_succ, List.foldl_append]
      simp only [List.foldl_cons, List.foldl_nil]
      generalize (List.range k).foldl (ageproc_body now ticks) t = T at ih ⊢
      unfold ageproc_body
      split
      · split
        · exact queue_inv_transfer now _ RR ih (Or.inl rfl)
        · exact ih
      · exact ih
  exact key t.length

/-- A call that hands the pid `nextpid` to slot `np`, leaves it with queue type
0 or one of the three queues - one of the three unless it ends Unused or
Embryo - and leaves every other slot as it was, keeps the queue invariant. -/
theorem queue_inv_alloc {t t' : List proc} {n : Int} {ip ip' : Option Nat} {np : Nat}
    (hinv : queue_inv ⟨t, n, ip⟩) (hwrap : no_wrap n)
    (hother : ∀ j, j ≠ np → ptable_proc t' j = ptable_proc t j)
    (hpid : (ptable_proc t' np).pid = n)
    (hq : (ptable_proc t' np).mfq_info.queue_type = 0 ∨
      valid_queue (ptable_proc t' np).mfq_info.queue_type)
    (hst : (ptable_proc t' np).state ≠ procstate.UNUSED →
      (ptable_proc t' np).state ≠ procstate.EMBRYO →
      valid_queue (ptable_proc t' np).mfq_info.queue_type) :
    queue_inv ⟨t', int_wrap (n + 1), ip'⟩ := by
  obtain ⟨h1, h2, h3, h4⟩ := hinv
  simp only at h1 h2 h3 h4
  rw [int_wrap_succ h1 hwrap]
  refine ⟨by simp only; omega, ?_, ?_, ?_⟩
  · intro i
    simp only
    by_cases hi : i = np
    · subst hi
      rw [hpid]
      omega
    · rw [hother i hi]
      have := h2 i
      omega
  · intro i
    simp only
    by_cases hi : i = np
    · subst hi
      exact hq
    · rw [hother i hi]
      exact h3 i
  · intro i hs he
    simp only at hs he ⊢
    by_cases hi : i = np
    · subst hi
      exact hst hs he
    · rw [hother i hi] at hs he ⊢
      exact h4 i hs he

/-- A call that builds a new process with the pid `nextpid` in slot `np` and
then asks `transfer_process_queue` to put that pid in one of the three queues
keeps the queue invariant: the new slot is the only holder of its pid. -/
theorem queue_inv_create {t t3 : List proc} {n : Int} {ip ip' : Option Nat} {np : Nat}
    (ticks : Nat) (q : Int) (hinv : queue_inv ⟨t, n, ip⟩) (hwrap : no_wrap n)
    (hq : valid_queue q) (hnp : np < t3.length)
    (hother : ∀ j, j ≠ np → ptable_proc t3 j = ptable_proc t j)
    (hpid : (ptable_proc t3 np).pid = n) :
    queue_inv ⟨(transfer_process_queue ticks t3 n q).2, int_wrap (n + 1), ip'⟩ := by
  have h1 := hinv.1
  have h2 := hinv.2.1
  simp only at h1 h2
  have hlow : lowest_holder t3 n np := by
    refine ⟨hnp, hpid, ?_⟩
    intro j hj
    rw [hother j (by omega)]
    have := h2 j
    omega
  obtain ⟨hqt, hoth⟩ := transfer_process_queue_holder ticks t3 n q np hlow h1
  obtain ⟨_, hid⟩ := transfer_process_queue_identity ticks t3 n q
  have hvalid : valid_queue
      (ptable_proc (transfer_process_queue ticks t3 n q).2 np).mfq_info.queue_type := by
    rw [hqt]
    split
    · exact Or.inl rfl
    · exact hq
  refine queue_inv_alloc hinv hwrap ?_ ?_ (Or.inr hvalid) (fun _ _ => hvalid)
  · intro j hj
    rw [hoth j hj, hother j hj]
  · rw [(hid np).2.1]
    exact hpid

/-- What `allocproc` leaves in the slot it takes: the pid `nextpid`, state
Unused or Embryo, and the scheduling fields the slot had (when `kalloc` fails)
or the initial ones. -/
theorem allocproc_slot (kalloc : Nat) (nextpid : Int) (t : List proc) (np : Nat)
    (hlow : lowest_unused t np) :
    ∃ f : proc → proc,
      allocproc kalloc nextpid t =
        (if kalloc = 0 then none else some np, int_wrap (nextpid + 1), update_slot t np f) ∧
      (f (ptable_proc t np)).pid = nextpid ∧
      ((f (ptable_proc t np)).state = procstate.UNUSED ∨
        (f (ptable_proc t np)).state = procstate.EMBRYO) ∧
      ((f (ptable_proc t np)).mfq_info = (ptable_proc t np).mfq_info ∨
        (f (ptable_proc t np)).mfq_info = mfq_info_init) := by
  unfold allocproc
  rw [lowest_unused_iff.mp hlow]
  simp only [update_slot_twice]
  by_cases hk : kalloc = 0
  · simp only [hk, if_true]
    exact ⟨_, rfl, rfl, Or.inl rfl, Or.inl rfl⟩
  · simp only [hk, if_false]
    exact ⟨_, rfl, rfl, Or.inr rfl, Or.inr rfl⟩

/-- What a `fork` whose allocation fails leaves in the slot it took: the pid
`nextpid`, state Unused, and the scheduling fields the slot had or the initial
ones. -/
theorem fork_failed (kalloc copyuvm : Nat) (safestrcpy : List Nat → List Nat → List Nat)
    (ticks : Nat) (nextpid : Int) (t : List proc) (curproc np : Nat)
    (hlow : lowest_unused t np) (hfail : kalloc = 0 ∨ copyuvm = 0) :
    ∃ f : proc → proc,
      fork kalloc copyuvm safestrcpy ticks nextpid t curproc =
        (-1, int_wrap (nextpid + 1), update_slot t np f) ∧
      (f (ptable_proc t np)).pid = nextpid ∧
      (f (ptable_proc t np)).state = procstate.UNUSED ∧
      ((f (ptable_proc t np)).mfq_info = (ptable_proc t np).mfq_info ∨
        (f (ptable_proc t np)).mfq_info = mfq_info_init) := by
  unfold fork allocproc
  rw [lowest_unused_iff.mp hlow]
  simp only [update_slot_twice]
  by_cases hk : kalloc = 0
  · simp only [hk, if_true]
    exact ⟨_, rfl, rfl, rfl, Or.inl rfl⟩
  · have hc : copyuvm = 0 := by
      rcases hfail with h | h
      · exact absurd h hk
      · exact h
    simp only [hk, hc, if_true, if_false, update_slot_twice]
    exact ⟨_, rfl, rfl, rfl, Or.inr rfl⟩

/-- The table a successful `userinit` hands to `transfer_process_queue`: only
the slot of the new process differs from the old table. -/
theorem userinit_before_transfer (kalloc setupkvm pgsize : Nat)
    (safestrcpy : List Nat → List Nat → List Nat) (ticks : Nat) (s : kstate) (np : Nat)
    (hlow : lowest_unused s.ptable np) (hk : kalloc ≠ 0) (hs : setupkvm ≠ 0) :
    ∃ t3, userinit kalloc setupkvm pgsize safestrcpy ticks s =
        some ⟨(transfer_process_queue ticks t3 s.nextpid RR).2, int_wrap (s.nextpid + 1),
          some np⟩ ∧
      t3.length = s.ptable.length ∧
      (∀ j, j ≠ np → ptable_proc t3 j = ptable_proc s.ptable j) ∧
      (ptable_proc t3 np).pid = s.nextpid := by
  have hnp := hlow.1
  have hsame : ∀ f : proc → proc,
      ptable_proc (update_slot s.ptable np f) np = f (ptable_proc s.ptable np) :=
    fun f => ptable_proc_update_same f hnp
  unfold userinit allocproc
  rw [lowest_unused_iff.mp hlow]
  simp only [hk, hs, if_false, update_slot_twice, hsame]
  refine ⟨_, rfl, length_update_slot _ _ _, ?_, ?_⟩
  · intro j hj
    exact ptable_proc_update_other _ (Ne.symm hj)
  · rw [hsame]

theorem queue_inv_boot (nproc : Nat) : queue_inv (boot_state nproc) := by
  have hz : ∀ i, ptable_proc (boot_state nproc).ptable i = proc_zero := by
    intro i
    by_cases hi : i < (boot_state nproc).ptable.length
    · rw [ptable_proc_lt hi]
      simp [boot_state]
    · exact ptable_proc_ge (by omega)
  refine ⟨by simp [boot_state], ?_, ?_, ?_⟩
  · intro i
    rw [hz i]
    simp [boot_state, proc_zero]
  · intro i
    rw [hz i]
    exact Or.inl rfl
  · intro i hs
    rw [hz i] at hs
    exact absurd rfl hs

/-- One enabled call among `allocproc`, `userinit`, `fork`,
`transfer_process_queue` for one of the three queues and `ageproc` keeps the
queue invariant. -/
theorem queue_inv_step (s : kstate) (op : kernel_op) (hinv : queue_inv s)
    (hop : valid_classify_op op) (hen : enabled s op) : queue_inv (step s op) := by
  obtain ⟨t, n, ip⟩ := s
  have h3 := hinv.2.2.1
  simp only at h3
  have hkeep : ∀ (np : Nat) (f : proc → proc), np < t.length →
      ((f (ptable_proc t np)).mfq_info = (ptable_proc t np).mfq_info ∨
        (f (ptable_proc t np)).mfq_info = mfq_info_init) →
      (ptable_proc (update_slot t np f) np).mfq_info.queue_type = 0 ∨
        valid_queue (ptable_proc (update_slot t np f) np).mfq_info.queue_type := by
    intro np f hnp hm
    rw [ptable_proc_update_same _ hnp]
    rcases hm with h | h
    · rw [h]; exact h3 np
    · rw [h]; exact Or.inl rfl
  cases op with
  | allocproc kalloc =>
    simp only [step]
    rcases allocproc_cases kalloc n t with ⟨_, hal⟩ | ⟨np, hlow, _⟩
    · rw [hal]; exact hinv
    · obtain ⟨f, hal, hpid, hst, hm⟩ := allocproc_slot kalloc n t np hlow
      rw [hal]
      refine queue_inv_alloc hinv hen (fun j hj => ptable_proc_update_other _ (Ne.symm hj)) ?_
        (hkeep np f hlow.1 hm) ?_
      · rw [ptable_proc_update_same _ hlow.1]
        exact hpid
      · rw [ptable_proc_update_same _ hlow.1]
        intro hu he
        rcases hst with h | h
        · exact absurd h hu
        · exact absurd h he
  | userinit kalloc setupkvm pgsize safestrcpy ticks =>
    obtain ⟨hw, hk, hs, j, hj, hju⟩ := hen
    simp only at hw hj hju
    obtain ⟨np, hlow⟩ : ∃ np, lowest_unused t np := by
      cases hfs : first_slot t.length
          (fun j => decide ((ptable_proc t j).state = procstate.UNUSED)) with
      | none => exact absurd hju (no_unused_iff.mpr hfs j hj)
      | some np => exact ⟨np, lowest_unused_iff.mpr hfs⟩
    obtain ⟨t3, hu, hlen, hother, hpid⟩ :=
      userinit_before_transfer kalloc setupkvm pgsize safestrcpy ticks ⟨t, n, ip⟩ np hlow hk hs
    simp only at hlen hother hpid
    simp only [step, hu, Option.getD_some]
    exact queue_inv_create ticks RR hinv hw (Or.inl rfl) (by rw [hlen]; exact hlow.1) hother hpid
  | fork kalloc copyuvm safestrcpy ticks curproc =>
    simp only [step]
    rcases fork_cases kalloc copyuvm safestrcpy ticks n t curproc with
      ⟨_, hf⟩ | ⟨np, hlow, _⟩
    · rw [hf]; exact hinv
    · by_cases hfail : kalloc = 0 ∨ copyuvm = 0
      · obtain ⟨f, hf, hpid, hst, hm⟩ :=
          fork_failed kalloc copyuvm safestrcpy ticks n t curproc np hlow hfail
        rw [hf]
        refine queue_inv_alloc hinv hen.1 (fun j hj => ptable_proc_update_other _ (Ne.symm hj))
          ?_ (hkeep np f hlow.1 hm) ?_
        · rw [ptable_proc_update_same _ hlow.1]
          exact hpid
        · rw [ptable_proc_update_same _ hlow.1]
          intro hu _
          exact absurd hst hu
      · have hk : kalloc ≠ 0 := fun h => hfail (Or.inl h)
        have hc : copyuvm ≠ 0 := fun h => hfail (Or.inr h)
        obtain ⟨t3, hf, hlen, hother, hpid, _⟩ :=
          fork_before_transfer kalloc copyuvm safestrcpy ticks n t curproc np hlow hk hc
        rw [hf]
        exact queue_inv_create ticks LCFS hinv hen.1 (Or.inr (Or.inl rfl))
          (by rw [hlen]; exact hlow.1) hother hpid
  | exit curproc => exact absurd hop id
  | wait curproc => exact absurd hop id
  | kill pid => exact absurd hop id
  | transfer_process_queue ticks pid q =>
    simp only [step]
    exact queue_inv_transfer ticks pid q hinv hop
  | ageproc now ticks =>
    simp only [step]
    exact queue_inv_ageproc now ticks hinv

/-- The queue invariant holds in every state reached by the calls of
`valid_classify_op`. -/
theorem queue_inv_reachable (nproc : Nat) (s : kstate)
    (h : reachable valid_classify_op nproc s) : queue_inv s := by
  induction h with
  | boot => exact queue_inv_boot nproc
  | step s op _ hop hen ih => exact queue_inv_step s op ih hop hen

/-- C23, as stated, fails. After one successful `allocproc` from boot, slot 0
is an Embryo whose queue type is 0, the value the `memset` of `allocproc`
left. And `transfer_process_queue` stores whatever number it is given: in
`classify_sample`, `transfer_process_queue(3, 7)` leaves the Runnable process
with pid 3 (slot 2) with queue type 7. Both states are reachable by the calls
of `classify_op`. -/
theorem queue_type_outside_classes :
    reachable classify_op 2 (step (boot_state 2) (kernel_op.allocproc 1000)) ∧
    (ptable_proc (step (boot_state 2) (kernel_op.allocproc 1000)).ptable 0).state
      = procstate.EMBRYO ∧
    (ptable_proc (step (boot_state 2) (kernel_op.allocproc 1000)).ptable 0).mfq_info.queue_type
      = 0 ∧
    reachable classify_op 3
      (step classify_sample (kernel_op.transfer_process_queue 9 3 7)) ∧
    (ptable_proc (step classify_sample (kernel_op.transfer_process_queue 9 3 7)).ptable 2).state
      = procstate.RUNNABLE ∧
    (ptable_proc (step classify_sample (kernel_op.transfer_process_queue 9 3 7)).ptable 2).pid
      = 3 ∧
    (ptable_proc (step classify_sample
      (kernel_op.transfer_process_queue 9 3 7)).ptable 2).mfq_info.queue_type = 7 ∧
    ¬ valid_queue 7 ∧ ¬ valid_queue 0 := by
  refine ⟨?_, by decide, by decide, ?_, by decide, by decide, by decide, by decide, by decide⟩
  · exact reachable.step _ _ reachable.boot trivial (by decide)
  · exact reachable.step _ _
      (reachable.step _ _
        (reachable.step _ _
          (reachable.step _ _ reachable.boot trivial (by decide)) trivial (by decide))
        trivial (by decide))
      trivial trivial

/-- C23, amended: in every state reached from boot by `allocproc`, `userinit`,
`fork`, `transfer_process_queue` asked for queue 1, 2 or 3, and `ageproc`,
every slot that is neither Unused nor Embryo has queue type RR (1), LCFS (2)
or BJF (3); an Embryo slot has one of these or 0. -/
theorem queue_type_spec (nproc : Nat) (s : kstate)
    (h : reachable valid_classify_op nproc s) :
    (∀ i, i < s.ptable.length → (ptable_proc s.ptable i).state ≠ procstate.UNUSED →
      (ptable_proc s.ptable i).state ≠ procstate.EMBRYO →
      (ptable_proc s.ptable i).mfq_info.queue_type = RR ∨
      (ptable_proc s.ptable i).mfq_info.queue_type = LCFS ∨
      (ptable_proc s.ptable i).mfq_info.queue_type = BJF) ∧
    (∀ i, i < s.ptable.length → (ptable_proc s.ptable i).state = procstate.EMBRYO →
      (ptable_proc s.ptable i).mfq_info.queue_type = 0 ∨
      (ptable_proc s.ptable i).mfq_info.queue_type = RR ∨
      (ptable_proc s.ptable i).mfq_info.queue_type = LCFS ∨
      (ptable_proc s.ptable i).mfq_info.queue_type = BJF) := by
  obtain ⟨_, _, h3, h4⟩ := queue_inv_reachable nproc s h
  exact ⟨fun i _ hu he => h4 i hu he, fun i _ _ => h3 i⟩

/-- Witness for C23 (amended): the state reached by `userinit`, two `fork`s and
`transfer_process_queue(3, BJF)`; the process with pid 3 in slot 2 is Runnable
and in one of the three queues. -/
theorem queue_type_spec_witness :
    (ptable_proc (step classify_sample
        (kernel_op.transfer_process_queue 9 3 BJF)).ptable 2).mfq_info.queue_type = RR ∨
    (ptable_proc (step classify_sample
        (kernel_op.transfer_process_queue 9 3 BJF)).ptable 2).mfq_info.queue_type = LCFS ∨
    (ptable_proc (step classify_sample
        (kernel_op.transfer_process_queue 9 3 BJF)).ptable 2).mfq_info.queue_type = BJF :=
  (queue_type_spec 3 (step classify_sample (kernel_op.transfer_process_queue 9 3 BJF))
    (reachable.step _ _
      (reachable.step _ _
        (reachable.step _ _
          (reachable.step _ _ reachable.boot trivial (by decide)) trivial (by decide))
        trivial (by decide))
      (Or.inr (Or.inr rfl)) trivial)).1 2 (by decide) (by decide) (by decide)

end XV6
